import Mathlib

/-!
Verification of the peerfed conversion engine, transaction pool and block
assembler against their natural-language specification.

The definitions below are shallow embeddings of the C++ sources:
  * src/consensus/amount.cpp      (ScaleAmount, DescaleAmount)
  * src/consensus/conversion.cpp  (CalculateOutputAmount, CalculateInputAmount,
                                   GetConvertedAmount)
  * src/consensus/tx_verify.cpp   (Consensus::IsValidConversion)
  * src/node/miner.cpp            (package admission / deferred-conversion routing)
  * src/txmempool.cpp             (mempool entry aggregates, add/remove, TrimToSize)

CAmount (int64_t) is modelled as unbounded Int; all intermediate arithmetic in the
C++ is carried out on boost 128/256-bit integers, whose values on in-range inputs
coincide with exact integer arithmetic.  C++ integer division truncates toward
zero, which is Int.tdiv.  boost sqrt on a non-negative integer is the floor square
root, which is Int.sqrt on non-negative arguments.
-/

/-- Coin type: 0 for cash, 1 for bond (CAmountType in consensus/amount.h). -/
inductive CAmountType where
  | cash
  | bond
deriving DecidableEq, Repr

/-- Logical negation of a coin type, modelling the C++ idiom `!amountType`. -/
def CAmountType.other : CAmountType → CAmountType
  | .cash => .bond
  | .bond => .cash

/-- CAmounts = std::array<CAmount, 2>: a cash amount and a bond amount. -/
structure CAmounts where
  cash : Int
  bond : Int
deriving DecidableEq, Repr

/-- Indexing `amounts[amountType]`. -/
def CAmounts.get : CAmounts → CAmountType → Int
  | a, .cash => a.cash
  | a, .bond => a.bond

/-- Componentwise sum (used to state the spec formula `supply + minOutputs − inputs`). -/
def CAmounts.add (a b : CAmounts) : CAmounts :=
  ⟨a.cash + b.cash, a.bond + b.bond⟩

/-- Componentwise difference. -/
def CAmounts.sub (a b : CAmounts) : CAmounts :=
  ⟨a.cash - b.cash, a.bond - b.bond⟩

/-- Update one component, leaving the other unchanged. -/
def CAmounts.set : CAmounts → CAmountType → Int → CAmounts
  | a, .cash, v => ⟨v, a.bond⟩
  | a, .bond, v => ⟨a.cash, v⟩

/-- The AMM invariant `K² = cash² + bond²` of a supply (spec §3, TotalSupply). -/
def invariantSq (s : CAmounts) : Int :=
  s.cash ^ 2 + s.bond ^ 2

/-- The base scale factor (consensus/amount.h: BASE_FACTOR = 10000000000). -/
def BASE_FACTOR : Int := 10000000000

/-- ScaleAmount from consensus/amount.cpp:
`(int256_t)nValue * (int256_t)scaleFactor / BASE_FACTOR`. -/
def ScaleAmount (nValue : Int) (scaleFactor : Int) : Int :=
  Int.tdiv (nValue * scaleFactor) BASE_FACTOR

/-- The while loop of DescaleAmount exits: for a positive factor there is some
number of increments after which `ScaleAmount(baseAmount, scaleFactor) >= scaledValue`. -/
theorem descale_loop_exit (scaledValue scaleFactor : Int) (hf : 0 < scaleFactor) :
    ∃ n : Nat,
      scaledValue ≤ ScaleAmount (Int.tdiv (scaledValue * BASE_FACTOR) scaleFactor + n) scaleFactor := by
  set base : Int := Int.tdiv (scaledValue * BASE_FACTOR) scaleFactor with hbase
  by_cases hb : scaledValue ≤ 0
  · -- for non-positive values it is enough to reach a non-negative base amount
    refine ⟨(BASE_FACTOR - base).toNat, ?_⟩
    have h2 : (0:Int) ≤ base + ((BASE_FACTOR - base).toNat : Int) := by
      have hB : (0:Int) < BASE_FACTOR := by norm_num [BASE_FACTOR]
      omega
    have h3 : 0 ≤ (base + ((BASE_FACTOR - base).toNat : Int)) * scaleFactor :=
      mul_nonneg h2 (le_of_lt hf)
    have h4 : 0 ≤ Int.tdiv ((base + ((BASE_FACTOR - base).toNat : Int)) * scaleFactor) BASE_FACTOR :=
      Int.tdiv_nonneg h3 (by norm_num [BASE_FACTOR])
    unfold ScaleAmount
    omega
  · push_neg at hb
    -- jump to scaledValue * BASE_FACTOR, which certainly scales back past scaledValue
    refine ⟨(scaledValue * BASE_FACTOR - base).toNat, ?_⟩
    have hBpos : (0:Int) < BASE_FACTOR := by norm_num [BASE_FACTOR]
    have hsB : 0 ≤ scaledValue * BASE_FACTOR := by positivity
    have hbase0 : 0 ≤ base := by
      rw [hbase]
      exact Int.tdiv_nonneg hsB (le_of_lt hf)
    set m : Int := base + (scaledValue * BASE_FACTOR - base).toNat with hm
    have hmge : scaledValue * BASE_FACTOR ≤ m := by omega
    have hm0 : 0 ≤ m := le_trans hsB hmge
    have hmul : scaledValue * BASE_FACTOR * 1 ≤ m * scaleFactor := by
      calc scaledValue * BASE_FACTOR * 1 ≤ m * 1 := by omega
        _ ≤ m * scaleFactor := by
            exact mul_le_mul_of_nonneg_left hf hm0
    have hdiv : scaledValue * BASE_FACTOR ≤ m * scaleFactor := by omega
    have h5 : scaledValue ≤ Int.tdiv (m * scaleFactor) BASE_FACTOR := by
      have hnonneg : 0 ≤ m * scaleFactor := mul_nonneg hm0 (le_of_lt hf)
      rw [Int.tdiv_eq_ediv hnonneg (by norm_num [BASE_FACTOR])]
      rw [Int.le_ediv_iff_mul_le hBpos]
      exact hdiv
    unfold ScaleAmount
    exact h5

/-- DescaleAmount from consensus/amount.cpp: integer division, then increment the
result until `ScaleAmount(baseAmount, scaleFactor) >= scaledValue`.  The while
loop is realized as the least number of increments at which its exit condition
holds (the loop scans upward one unit at a time, so it stops exactly there).  For
a non-positive factor the C++ loop divides by zero or never exits; that case is
unreachable (scale factors are positive) and is mapped to the pre-loop value. -/
def DescaleAmount (scaledValue : Int) (scaleFactor : Int) : Int :=
  let baseAmount := Int.tdiv (scaledValue * BASE_FACTOR) scaleFactor
  if hf : 0 < scaleFactor then
    baseAmount + Nat.find (descale_loop_exit scaledValue scaleFactor hf)
  else baseAmount

/-- CalculateOutputAmount from consensus/conversion.cpp. -/
def CalculateOutputAmount (totalSupply : CAmounts) (inputAmount : Int)
    (inputType : CAmountType) : Int :=
  if inputAmount > totalSupply.get inputType then
    -- Input amount exceeds total supply
    0
  else
    let invariant_sq_in := totalSupply.cash ^ 2 + totalSupply.bond ^ 2
    let new_input_sq := (totalSupply.get inputType - inputAmount) ^ 2
    let new_output := Int.sqrt (invariant_sq_in - new_input_sq)
    new_output - totalSupply.get inputType.other

/-- CalculateInputAmount from consensus/conversion.cpp. -/
def CalculateInputAmount (totalSupply : CAmounts) (outputAmount : Int)
    (outputType : CAmountType) : Int :=
  let invariant_sq_in := totalSupply.cash ^ 2 + totalSupply.bond ^ 2
  let new_output_sq := (totalSupply.get outputType + outputAmount) ^ 2
  if new_output_sq > invariant_sq_in then
    -- New output amount exceeds maximum available with current total supply
    0
  else
    let new_input := Int.sqrt (invariant_sq_in - new_output_sq)
    totalSupply.get outputType.other - new_input

/-- GetConvertedAmount from consensus/conversion.cpp (the roundedUp parameter
defaults to false at the declaration; call sites with three arguments pass false). -/
def GetConvertedAmount (totalSupply : CAmounts) (amount : Int) (amountType : CAmountType)
    (roundedUp : Bool) : Int :=
  if totalSupply.get amountType.other = 0 then
    -- Use expected output amount upon conversion
    CalculateOutputAmount totalSupply amount amountType
  else if totalSupply.get amountType = 0 then
    -- Use required input amount in a conversion
    CalculateInputAmount totalSupply amount amountType
  else
    -- Multiply amount by marginal conversion rate
    let convertedAmount := Int.tdiv (amount * totalSupply.get amountType)
      (totalSupply.get amountType.other)
    if roundedUp then convertedAmount + 1 else convertedAmount

/-- Consensus::IsValidConversion from consensus/tx_verify.cpp.  Returns the C++
boolean result, the total supply after the call (unchanged on failure, since the
function returns before mutating it), and the extra output (the by-reference out
parameter; call sites initialize it to 0, and it is untouched on failure). -/
def IsValidConversion (totalSupply inputs minOutputs : CAmounts)
    (extraType : CAmountType) : Bool × CAmounts × Int :=
  let invariant_sq_in := totalSupply.cash ^ 2 + totalSupply.bond ^ 2
  let invariant_sq_min_out := (totalSupply.cash + minOutputs.cash - inputs.cash) ^ 2
      + (totalSupply.bond + minOutputs.bond - inputs.bond) ^ 2
  if invariant_sq_min_out > invariant_sq_in then
    -- Invariant out cannot be greater than invariant in
    (false, totalSupply, 0)
  else
    let extraOutput := Int.sqrt (invariant_sq_in -
        (totalSupply.get extraType.other + minOutputs.get extraType.other
          - inputs.get extraType.other) ^ 2)
      - (totalSupply.get extraType + minOutputs.get extraType - inputs.get extraType)
    let s1 : CAmounts := ⟨totalSupply.cash + (minOutputs.cash - inputs.cash),
                          totalSupply.bond + (minOutputs.bond - inputs.bond)⟩
    let s2 := if extraType = CAmountType.cash then ⟨s1.cash + extraOutput, s1.bond⟩ else s1
    let s3 := if extraType = CAmountType.bond then ⟨s2.cash, s2.bond + extraOutput⟩ else s2
    (true, s3, extraOutput)

/-- Monotonicity of the integer square root. -/
theorem int_sqrt_le_of_le {a b : Int} (h : a ≤ b) : Int.sqrt a ≤ Int.sqrt b := by
  unfold Int.sqrt
  exact_mod_cast Nat.sqrt_le_sqrt (Int.toNat_le_toNat h)

/-- The integer square root of a non-negative integer squares to at most it. -/
theorem int_sqrt_sq_le {a : Int} (h : 0 ≤ a) : Int.sqrt a ^ 2 ≤ a := by
  unfold Int.sqrt
  have hn : ((Nat.sqrt a.toNat : Int)) ^ 2 = ((Nat.sqrt a.toNat ^ 2 : Nat) : Int) := by
    push_cast
    ring
  rw [hn]
  calc ((Nat.sqrt a.toNat ^ 2 : Nat) : Int) ≤ (a.toNat : Int) := by
        exact_mod_cast Nat.sqrt_le' a.toNat
    _ = a := Int.toNat_of_nonneg h

/-- Any non-negative integer is below the square of its integer square root plus one. -/
theorem int_lt_sqrt_succ_sq {a : Int} (h : 0 ≤ a) : a < (Int.sqrt a + 1) ^ 2 := by
  unfold Int.sqrt
  have hn : ((Nat.sqrt a.toNat : Int) + 1) ^ 2 = (((Nat.sqrt a.toNat + 1) ^ 2 : Nat) : Int) := by
    push_cast
    ring
  rw [hn]
  calc a = (a.toNat : Int) := (Int.toNat_of_nonneg h).symm
    _ < (((Nat.sqrt a.toNat).succ ^ 2 : Nat) : Int) := by exact_mod_cast Nat.lt_succ_sqrt' a.toNat

/-- Square root of a perfect square of a non-negative integer. -/
theorem int_sqrt_sq {a : Int} (h : 0 ≤ a) : Int.sqrt (a ^ 2) = a := by
  rw [pow_two, Int.sqrt_eq]
  exact_mod_cast Int.natAbs_of_nonneg h

/-- Characterization used to evaluate integer square roots on concrete values. -/
theorem int_sqrt_eq_of {v n : Int} (h0 : 0 ≤ v) (h1 : v ^ 2 ≤ n) (h2 : n < (v + 1) ^ 2) :
    Int.sqrt n = v := by
  have hle : v ≤ Int.sqrt n := by
    calc v = Int.sqrt (v ^ 2) := (int_sqrt_sq h0).symm
      _ ≤ Int.sqrt n := int_sqrt_le_of_le h1
  have hlt : Int.sqrt n < v + 1 := by
    by_contra hge
    push_neg at hge
    have hvn : 0 ≤ n := le_trans (by positivity) h1
    have := int_sqrt_sq_le hvn
    have hsq : (v + 1) ^ 2 ≤ Int.sqrt n ^ 2 := by
      have h01 : (0:Int) ≤ v + 1 := by omega
      exact pow_le_pow_left₀ h01 hge 2
    omega
  omega

/-- Helper evaluation: the floor square root of 5 is 2. -/
theorem int_sqrt_five : Int.sqrt 5 = 2 :=
  int_sqrt_eq_of (by norm_num) (by norm_num) (by norm_num)

/-- Spec formulation of calculateOutputAmount (§4.1), written from the spec sentence:
returns 0 if inputAmount exceeds supply[inputType], otherwise the integer square root
of K² minus the new input-side square, minus supply[¬inputType]. -/
def calculateOutputAmountSpec (supply : CAmounts) (inputAmount : Int)
    (inputType : CAmountType) : Int :=
  if inputAmount > supply.get inputType then 0
  else Int.sqrt (invariantSq supply - (supply.get inputType - inputAmount) ^ 2)
    - supply.get inputType.other

/-- Success-path characterization of IsValidConversion with remainder type bond. -/
theorem isValidConversion_bond_eq (supply inputs minOutputs : CAmounts)
    (hc : ¬ ((supply.cash + minOutputs.cash - inputs.cash) ^ 2
        + (supply.bond + minOutputs.bond - inputs.bond) ^ 2
        > supply.cash ^ 2 + supply.bond ^ 2)) :
    IsValidConversion supply inputs minOutputs .bond =
      (true,
       ⟨supply.cash + (minOutputs.cash - inputs.cash),
        Int.sqrt (supply.cash ^ 2 + supply.bond ^ 2
          - (supply.cash + minOutputs.cash - inputs.cash) ^ 2)⟩,
       Int.sqrt (supply.cash ^ 2 + supply.bond ^ 2
          - (supply.cash + minOutputs.cash - inputs.cash) ^ 2)
         - (supply.bond + minOutputs.bond - inputs.bond)) := by
  unfold IsValidConversion
  rw [if_neg hc]
  simp only [CAmounts.get, CAmountType.other]
  have h1 : ¬ (CAmountType.bond = CAmountType.cash) := by decide
  rw [if_neg h1]
  simp only [if_true, Prod.mk.injEq, CAmounts.mk.injEq, true_and]
  constructor
  · ring_nf
  · trivial

/-- Success-path characterization of IsValidConversion with remainder type cash. -/
theorem isValidConversion_cash_eq (supply inputs minOutputs : CAmounts)
    (hc : ¬ ((supply.cash + minOutputs.cash - inputs.cash) ^ 2
        + (supply.bond + minOutputs.bond - inputs.bond) ^ 2
        > supply.cash ^ 2 + supply.bond ^ 2)) :
    IsValidConversion supply inputs minOutputs .cash =
      (true,
       ⟨Int.sqrt (supply.cash ^ 2 + supply.bond ^ 2
          - (supply.bond + minOutputs.bond - inputs.bond) ^ 2),
        supply.bond + (minOutputs.bond - inputs.bond)⟩,
       Int.sqrt (supply.cash ^ 2 + supply.bond ^ 2
          - (supply.bond + minOutputs.bond - inputs.bond) ^ 2)
         - (supply.cash + minOutputs.cash - inputs.cash)) := by
  unfold IsValidConversion
  rw [if_neg hc]
  simp only [CAmounts.get, CAmountType.other]
  have h1 : ¬ (CAmountType.cash = CAmountType.bond) := by decide
  simp only [if_neg h1, if_true]
  simp only [Prod.mk.injEq, CAmounts.mk.injEq, true_and]
  constructor
  · constructor
    · ring
    · trivial
  · trivial

/-- Arithmetic core of the remainder computation: the floor square root restores the
invariant from below, and one more unit would overshoot. -/
theorem invariant_sqrt_bounds {K s : Int} (h : s ^ 2 ≤ K) :
    s ^ 2 + Int.sqrt (K - s ^ 2) ^ 2 ≤ K ∧ K < s ^ 2 + (Int.sqrt (K - s ^ 2) + 1) ^ 2 := by
  have hd : (0:Int) ≤ K - s ^ 2 := by omega
  constructor
  · have := int_sqrt_sq_le hd
    omega
  · have := int_lt_sqrt_succ_sq hd
    omega

/-- C1 (amended): when applyConversion (Consensus::IsValidConversion) succeeds, the
post-call value of cash² + bond² is at most the pre-call value, and the returned
remainder is maximal: adding one more unit on remainderType would push cash² + bond²
strictly above the pre-call value.  Exact equality can fail because the remainder is
computed with a floor integer square root. -/
theorem isValidConversion_invariant_restored_upto_sqrt
    (supply inputs minOutputs : CAmounts) (extraType : CAmountType)
    (h : (IsValidConversion supply inputs minOutputs extraType).1 = true) :
    invariantSq (IsValidConversion supply inputs minOutputs extraType).2.1
        ≤ invariantSq supply ∧
    invariantSq supply <
      invariantSq
        ((IsValidConversion supply inputs minOutputs extraType).2.1.set extraType
          ((IsValidConversion supply inputs minOutputs extraType).2.1.get extraType + 1)) := by
  by_cases hc : (supply.cash + minOutputs.cash - inputs.cash) ^ 2
      + (supply.bond + minOutputs.bond - inputs.bond) ^ 2
      > supply.cash ^ 2 + supply.bond ^ 2
  · exfalso
    unfold IsValidConversion at h
    rw [if_pos hc] at h
    simp at h
  · cases extraType with
    | bond =>
      rw [isValidConversion_bond_eq supply inputs minOutputs hc] at h ⊢
      push_neg at hc
      have hsK : (supply.cash + minOutputs.cash - inputs.cash) ^ 2
          ≤ supply.cash ^ 2 + supply.bond ^ 2 := by
        nlinarith [sq_nonneg (supply.bond + minOutputs.bond - inputs.bond)]
      have hb := invariant_sqrt_bounds hsK
      simp only [invariantSq, CAmounts.set, CAmounts.get]
      have hpar : supply.cash + (minOutputs.cash - inputs.cash)
          = supply.cash + minOutputs.cash - inputs.cash := by ring
      rw [hpar]
      constructor
      · have := hb.1
        omega
      · have := hb.2
        omega
    | cash =>
      rw [isValidConversion_cash_eq supply inputs minOutputs hc] at h ⊢
      push_neg at hc
      have hsK : (supply.bond + minOutputs.bond - inputs.bond) ^ 2
          ≤ supply.cash ^ 2 + supply.bond ^ 2 := by
        nlinarith [sq_nonneg (supply.cash + minOutputs.cash - inputs.cash)]
      have hb := invariant_sqrt_bounds hsK
      simp only [invariantSq, CAmounts.set, CAmounts.get]
      have hpar : supply.bond + (minOutputs.bond - inputs.bond)
          = supply.bond + minOutputs.bond - inputs.bond := by ring
      rw [hpar]
      constructor
      · have := hb.1
        omega
      · have := hb.2
        omega

/-- C1 (counterexample): a successful conversion after which cash² + bond² strictly
decreased: supply (2,1), spending 2 cash for no declared output, remainder on bond.
The remainder is floor(sqrt 5) − 1 = 1, giving post supply (0,2) with invariant
4 ≠ 5, because 5 is not a perfect square. -/
theorem isValidConversion_invariant_not_exact :
    (IsValidConversion ⟨2, 1⟩ ⟨2, 0⟩ ⟨0, 0⟩ .bond).1 = true ∧
    invariantSq (IsValidConversion ⟨2, 1⟩ ⟨2, 0⟩ ⟨0, 0⟩ .bond).2.1 ≠ invariantSq ⟨2, 1⟩ := by
  have hc : ¬ (((2:Int) + 0 - 2) ^ 2 + ((1:Int) + 0 - 0) ^ 2 > (2:Int) ^ 2 + (1:Int) ^ 2) := by
    norm_num
  have he := isValidConversion_bond_eq ⟨2, 1⟩ ⟨2, 0⟩ ⟨0, 0⟩ hc
  rw [he]
  norm_num [invariantSq, int_sqrt_five]

/-- C1 (witness for the amended theorem): a concrete successful conversion. -/
theorem isValidConversion_invariant_restored_upto_sqrt_witness :
    (IsValidConversion ⟨2, 1⟩ ⟨2, 0⟩ ⟨0, 0⟩ .bond).1 = true ∧
    (invariantSq (IsValidConversion ⟨2, 1⟩ ⟨2, 0⟩ ⟨0, 0⟩ .bond).2.1 ≤ invariantSq ⟨2, 1⟩ ∧
     invariantSq ⟨2, 1⟩ <
       invariantSq ((IsValidConversion ⟨2, 1⟩ ⟨2, 0⟩ ⟨0, 0⟩ .bond).2.1.set .bond
         ((IsValidConversion ⟨2, 1⟩ ⟨2, 0⟩ ⟨0, 0⟩ .bond).2.1.get .bond + 1))) :=
  ⟨by decide,
   isValidConversion_invariant_restored_upto_sqrt ⟨2, 1⟩ ⟨2, 0⟩ ⟨0, 0⟩ .bond (by decide)⟩

/-- Failure-path characterization of IsValidConversion: nothing is mutated. -/
theorem isValidConversion_fail_eq (supply inputs minOutputs : CAmounts)
    (extraType : CAmountType)
    (hc : (supply.cash + minOutputs.cash - inputs.cash) ^ 2
        + (supply.bond + minOutputs.bond - inputs.bond) ^ 2
        > supply.cash ^ 2 + supply.bond ^ 2) :
    IsValidConversion supply inputs minOutputs extraType = (false, supply, 0) := by
  unfold IsValidConversion
  rw [if_pos hc]

/-- Success flag of IsValidConversion when the invariant check passes. -/
theorem isValidConversion_true_of_le (supply inputs minOutputs : CAmounts)
    (extraType : CAmountType)
    (hc : ¬ ((supply.cash + minOutputs.cash - inputs.cash) ^ 2
        + (supply.bond + minOutputs.bond - inputs.bond) ^ 2
        > supply.cash ^ 2 + supply.bond ^ 2)) :
    (IsValidConversion supply inputs minOutputs extraType).1 = true := by
  unfold IsValidConversion
  rw [if_neg hc]

/-- C2: applyConversion fails exactly when cash² + bond² computed from
supply + minOutputs − inputs exceeds the pre-conversion invariant, and on failure
the supply is left unchanged. -/
theorem isValidConversion_fail_iff (supply inputs minOutputs : CAmounts)
    (extraType : CAmountType) :
    ((IsValidConversion supply inputs minOutputs extraType).1 = false ↔
      invariantSq supply < invariantSq ((supply.add minOutputs).sub inputs)) ∧
    ((IsValidConversion supply inputs minOutputs extraType).1 = false →
      (IsValidConversion supply inputs minOutputs extraType).2.1 = supply) := by
  have harith : invariantSq ((supply.add minOutputs).sub inputs)
      = (supply.cash + minOutputs.cash - inputs.cash) ^ 2
        + (supply.bond + minOutputs.bond - inputs.bond) ^ 2 := by
    simp only [invariantSq, CAmounts.add, CAmounts.sub]
  have harith2 : invariantSq supply = supply.cash ^ 2 + supply.bond ^ 2 := rfl
  by_cases hc : (supply.cash + minOutputs.cash - inputs.cash) ^ 2
      + (supply.bond + minOutputs.bond - inputs.bond) ^ 2
      > supply.cash ^ 2 + supply.bond ^ 2
  · rw [isValidConversion_fail_eq supply inputs minOutputs extraType hc]
    refine ⟨⟨fun _ => ?_, fun _ => rfl⟩, fun _ => rfl⟩
    rw [harith2, harith]
    exact hc
  · have htrue := isValidConversion_true_of_le supply inputs minOutputs extraType hc
    refine ⟨⟨fun hfalse => ?_, fun hlt => ?_⟩, fun hfalse => ?_⟩
    · rw [htrue] at hfalse
      exact absurd hfalse (by simp)
    · exfalso
      apply hc
      rw [harith2, harith] at hlt
      exact hlt
    · rw [htrue] at hfalse
      exact absurd hfalse (by simp)

/-- C2 (witness): a concrete failing conversion leaves the supply unchanged. -/
theorem isValidConversion_fail_iff_witness :
    ((IsValidConversion ⟨0, 0⟩ ⟨0, 0⟩ ⟨1, 0⟩ .cash).1 = false) ∧
    ((IsValidConversion ⟨0, 0⟩ ⟨0, 0⟩ ⟨1, 0⟩ .cash).2.1 = ⟨0, 0⟩) :=
  ⟨(isValidConversion_fail_iff ⟨0, 0⟩ ⟨0, 0⟩ ⟨1, 0⟩ .cash).1.mpr (by norm_num [invariantSq, CAmounts.add, CAmounts.sub]),
   (isValidConversion_fail_iff ⟨0, 0⟩ ⟨0, 0⟩ ⟨1, 0⟩ .cash).2
     ((isValidConversion_fail_iff ⟨0, 0⟩ ⟨0, 0⟩ ⟨1, 0⟩ .cash).1.mpr
       (by norm_num [invariantSq, CAmounts.add, CAmounts.sub]))⟩

/-- C6: for every amount ≥ 0 and every factor > 0, descale followed by scale never
under-delivers: ScaleAmount(DescaleAmount(amount, factor), factor) ≥ amount.  This is
exactly the exit condition of the increment loop in DescaleAmount. -/
theorem scale_descale_ge (amount factor : Int) (h0 : 0 ≤ amount) (hf : 0 < factor) :
    amount ≤ ScaleAmount (DescaleAmount amount factor) factor := by
  unfold DescaleAmount
  rw [dif_pos hf]
  exact Nat.find_spec (descale_loop_exit amount factor hf)

/-- C6 (witness): concrete round trip with amount 7 and factor 3. -/
theorem scale_descale_ge_witness :
    (0:Int) ≤ 7 ∧ (0:Int) < 3 ∧ (7:Int) ≤ ScaleAmount (DescaleAmount 7 3) 3 :=
  ⟨by norm_num, by norm_num, scale_descale_ge 7 3 (by norm_num) (by norm_num)⟩

/-- C7: CalculateOutputAmount agrees with the spec formula: it returns 0 whenever
inputAmount > supply[inputType], and otherwise the integer square root of
K² − (supply[inputType] − inputAmount)², minus supply[¬inputType]. -/
theorem calculateOutputAmount_matches_spec (supply : CAmounts) (inputAmount : Int)
    (inputType : CAmountType) :
    CalculateOutputAmount supply inputAmount inputType
      = calculateOutputAmountSpec supply inputAmount inputType := by
  unfold CalculateOutputAmount calculateOutputAmountSpec invariantSq
  rfl

/-- Evaluation of the spec's concrete AMM example on the code's definition.  With
supply (10⁹, 10⁹) and a cash input of 10⁸ we have K² = 2·10¹⁸ and the new cash side
is 9·10⁸, so the output is floor(sqrt(2·10¹⁸ − 81·10¹⁶)) − 10⁹
= floor(sqrt(1.19·10¹⁸)) − 10⁹ = 1090871211 − 10⁹ = 90871211. -/
theorem calculateOutputAmount_example_eval :
    CalculateOutputAmount ⟨1000000000, 1000000000⟩ 100000000 .cash = 90871211 := by
  have hsqrt : Int.sqrt 1190000000000000000 = 1090871211 :=
    int_sqrt_eq_of (by norm_num) (by norm_num) (by norm_num)
  unfold CalculateOutputAmount
  rw [if_neg (by norm_num [CAmounts.get])]
  show Int.sqrt ((1000000000:Int) ^ 2 + 1000000000 ^ 2 - (1000000000 - 100000000) ^ 2)
      - 1000000000 = 90871211
  have harg : (1000000000:Int) ^ 2 + 1000000000 ^ 2 - (1000000000 - 100000000) ^ 2
      = 1190000000000000000 := by norm_num
  rw [harg, hsqrt]
  norm_num

/-- C9 (counterexample): the spec's claimed numeric value ≈ 90,453,403 is wrong; the
code returns 90,871,211 on the spec's concrete example, 417,808 units away. -/
theorem calculateOutputAmount_example_not_spec_value :
    CalculateOutputAmount ⟨1000000000, 1000000000⟩ 100000000 .cash ≠ 90453403 := by
  rw [calculateOutputAmount_example_eval]
  norm_num

/-- C9 (amended): on supply {cash: 10⁹, bond: 10⁹}, calculateOutputAmount of 10⁸ cash
equals floor(sqrt(2·10¹⁸ − (9·10⁸)²)) − 10⁹ = 90,871,211 (the spec's formula evaluated
exactly; its stated approximation 90,453,403 misevaluates that same formula). -/
theorem calculateOutputAmount_example :
    CalculateOutputAmount ⟨1000000000, 1000000000⟩ 100000000 .cash = 90871211 :=
  calculateOutputAmount_example_eval

/-- C10: for a componentwise non-negative supply and 0 ≤ inputAmount ≤ supply[inputType],
CalculateOutputAmount is non-negative: the new input-side square is at most the old one,
so the floor square root of the residual is at least supply[¬inputType]. -/
theorem calculateOutputAmount_nonneg (supply : CAmounts) (inputAmount : Int)
    (inputType : CAmountType)
    (hc : 0 ≤ supply.cash) (hb : 0 ≤ supply.bond)
    (h0 : 0 ≤ inputAmount) (h1 : inputAmount ≤ supply.get inputType) :
    0 ≤ CalculateOutputAmount supply inputAmount inputType := by
  unfold CalculateOutputAmount
  rw [if_neg (by omega)]
  have hother : 0 ≤ supply.get inputType.other := by
    cases inputType <;> simpa [CAmounts.get, CAmountType.other]
  have hself : 0 ≤ supply.get inputType := by
    cases inputType <;> simpa [CAmounts.get]
  have hmono : (supply.get inputType - inputAmount) ^ 2 ≤ (supply.get inputType) ^ 2 := by
    have hx : 0 ≤ supply.get inputType - inputAmount := by omega
    have hy : supply.get inputType - inputAmount ≤ supply.get inputType := by omega
    exact pow_le_pow_left₀ hx hy 2
  have hsplit : (supply.get inputType) ^ 2 + (supply.get inputType.other) ^ 2
      = supply.cash ^ 2 + supply.bond ^ 2 := by
    cases inputType <;> simp [CAmounts.get, CAmountType.other] <;> ring
  have hresidual : (supply.get inputType.other) ^ 2
      ≤ supply.cash ^ 2 + supply.bond ^ 2 - (supply.get inputType - inputAmount) ^ 2 := by
    omega
  have hsq : supply.get inputType.other
      ≤ Int.sqrt (supply.cash ^ 2 + supply.bond ^ 2 - (supply.get inputType - inputAmount) ^ 2) := by
    calc supply.get inputType.other
        = Int.sqrt ((supply.get inputType.other) ^ 2) := (int_sqrt_sq hother).symm
      _ ≤ _ := int_sqrt_le_of_le hresidual
  show 0 ≤ Int.sqrt (supply.cash ^ 2 + supply.bond ^ 2
      - (supply.get inputType - inputAmount) ^ 2) - supply.get inputType.other
  omega

/-- C10 (witness): concrete non-negative output on supply (5,5), input 3 cash. -/
theorem calculateOutputAmount_nonneg_witness :
    (0:Int) ≤ (5:Int) ∧ (0:Int) ≤ (3:Int) ∧ (3:Int) ≤ (⟨5, 5⟩ : CAmounts).get .cash ∧
    0 ≤ CalculateOutputAmount ⟨5, 5⟩ 3 .cash :=
  ⟨by norm_num, by norm_num, by norm_num [CAmounts.get],
   calculateOutputAmount_nonneg ⟨5, 5⟩ 3 .cash (by norm_num) (by norm_num) (by norm_num)
     (by norm_num [CAmounts.get])⟩

/-- On the all-zero supply both degenerate branches agree (both return 0) for
non-negative amounts; this covers the overlap of the two zero-supply cases in
GetConvertedAmount, where the code takes the CalculateOutputAmount branch. -/
theorem calcOutput_eq_calcInput_on_empty (a : Int) (t : CAmountType) (h0 : 0 ≤ a) :
    CalculateOutputAmount ⟨0, 0⟩ a t = CalculateInputAmount ⟨0, 0⟩ a t := by
  by_cases ha : a = 0
  · subst ha
    cases t <;>
      simp [CalculateOutputAmount, CalculateInputAmount, CAmounts.get, CAmountType.other,
        Int.sqrt]
  · have hpos : 0 < a := lt_of_le_of_ne h0 (Ne.symm ha)
    have hsq : (0:Int) < a ^ 2 := by positivity
    cases t <;>
      (unfold CalculateOutputAmount CalculateInputAmount
       rw [if_pos (by simpa [CAmounts.get] using hpos),
           if_pos (by simpa [CAmounts.get] using hsq)])

/-- C8: GetConvertedAmount uses the marginal rate `amount * supply[amountType] /
supply[¬amountType]` (plus one when rounding up) when both pool sides are nonzero,
degenerates to CalculateOutputAmount when supply[¬amountType] = 0, and to
CalculateInputAmount when supply[amountType] = 0. -/
theorem getConvertedAmount_cases (supply : CAmounts) (amount : Int) (t : CAmountType)
    (roundedUp : Bool) (hamt : 0 ≤ amount) :
    (supply.get t ≠ 0 → supply.get t.other ≠ 0 →
      GetConvertedAmount supply amount t roundedUp
        = Int.tdiv (amount * supply.get t) (supply.get t.other)
          + (if roundedUp then 1 else 0)) ∧
    (supply.get t.other = 0 →
      GetConvertedAmount supply amount t roundedUp = CalculateOutputAmount supply amount t) ∧
    (supply.get t = 0 →
      GetConvertedAmount supply amount t roundedUp = CalculateInputAmount supply amount t) := by
  refine ⟨?_, ?_, ?_⟩
  · intro h1 h2
    unfold GetConvertedAmount
    rw [if_neg h2, if_neg h1]
    cases roundedUp <;> simp
  · intro h2
    unfold GetConvertedAmount
    rw [if_pos h2]
  · intro h1
    by_cases h2 : supply.get t.other = 0
    · have hsup : supply = ⟨0, 0⟩ := by
        cases t <;> (cases supply; simp only [CAmounts.get, CAmountType.other] at h1 h2
                     simp [h1, h2])
      rw [hsup] at h1 h2 ⊢
      unfold GetConvertedAmount
      rw [if_pos h2]
      exact calcOutput_eq_calcInput_on_empty amount t hamt
    · unfold GetConvertedAmount
      rw [if_neg h2, if_pos h1]

/-- C8 (witness): with supply (2,3), 4 cash at the marginal rate rounded up. -/
theorem getConvertedAmount_cases_witness :
    (0:Int) ≤ 4 ∧
    (((⟨2, 3⟩ : CAmounts).get .cash ≠ 0 → (⟨2, 3⟩ : CAmounts).get CAmountType.cash.other ≠ 0 →
      GetConvertedAmount ⟨2, 3⟩ 4 .cash true
        = Int.tdiv (4 * (⟨2, 3⟩ : CAmounts).get .cash) ((⟨2, 3⟩ : CAmounts).get CAmountType.cash.other)
          + (if true then 1 else 0)) ∧
    ((⟨2, 3⟩ : CAmounts).get CAmountType.cash.other = 0 →
      GetConvertedAmount ⟨2, 3⟩ 4 .cash true = CalculateOutputAmount ⟨2, 3⟩ 4 .cash) ∧
    ((⟨2, 3⟩ : CAmounts).get .cash = 0 →
      GetConvertedAmount ⟨2, 3⟩ 4 .cash true = CalculateInputAmount ⟨2, 3⟩ 4 .cash)) :=
  ⟨by norm_num, getConvertedAmount_cases ⟨2, 3⟩ 4 .cash true (by norm_num)⟩

/-- CTxConversionInfo as used by the miner (populated in Consensus::CheckTxInputs):
the conversion request cached on a transaction.  nDeadline = 0 means no deadline;
the C++ tests the field for truthiness before comparing it with the height.  The
remainder destination only matters after inclusion and is not needed here. -/
structure CTxConversionInfo where
  inputs : CAmounts
  minOutputs : CAmounts
  remainderType : CAmountType
  nDeadline : Nat
deriving DecidableEq, Repr

/-- One package member as observed by BlockAssembler::TestPackageTransactions:
the IsFinalTx verdict for the candidate block and the optional conversion request. -/
structure PkgTx where
  isFinal : Bool
  conversion : Option CTxConversionInfo
deriving DecidableEq, Repr

/-- The conversion loop of BlockAssembler::TestPackageTransactions (miner.cpp):
walks the package in order, re-assigning the conversionInfo out-parameter at every
member, checking the deadline, and applying each conversion against the working
supply; returns the C++ boolean together with the final conversionInfo value. -/
def testPackageConversions (nHeight : Nat) :
    List PkgTx → CAmounts → Option CTxConversionInfo → Bool × Option CTxConversionInfo
  | [], _, conversionInfo => (true, conversionInfo)
  | tx :: rest, totalSupply, _ =>
    match tx.conversion with
    | none => testPackageConversions nHeight rest totalSupply none
    | some info =>
      if info.nDeadline ≠ 0 ∧ info.nDeadline < nHeight then
        (false, some info)
      else
        let r := IsValidConversion totalSupply info.inputs info.minOutputs info.remainderType
        if r.1 then testPackageConversions nHeight rest r.2.1 (some info)
        else (false, some info)

/-- BlockAssembler::TestPackageTransactions: the finality loop runs first (failing it
returns with the conversionInfo out-parameter still at its initial none), then the
conversion loop against the block's working supply. -/
def TestPackageTransactions (nHeight : Nat) (blockSupply : CAmounts)
    (package : List PkgTx) : Bool × Option CTxConversionInfo :=
  if package.all (fun tx => tx.isFinal) then
    testPackageConversions nHeight package blockSupply none
  else (false, none)

/-- The conversion direction computed by BlockAssembler::GetConversionEntry
(miner.cpp): CASH for a cash→bond conversion, BOND for bond→cash, and the safety
branch for a direction-free request keeps the initial CASH inputType.  The
floating-point size-adjusted conversion rate computed alongside is only an ordering
heuristic within a queue and plays no role in which queue is chosen. -/
def GetConversionType (info : CTxConversionInfo) : CAmountType :=
  if info.inputs.cash > info.minOutputs.cash ∧ info.inputs.bond < info.minOutputs.bond then
    CAmountType.cash
  else if info.inputs.cash < info.minOutputs.cash ∧ info.inputs.bond > info.minOutputs.bond then
    CAmountType.bond
  else CAmountType.cash

/-- Outcome of one package evaluation in BlockAssembler::addPackageTxs, for packages
that have already passed the fee-floor and TestPackage (weight/sigop) checks. -/
inductive PackageOutcome where
  | included
  | rejected
  | deferredCash
  | deferredBond
deriving DecidableEq, Repr

/-- The conversion requests present in a package, in package order. -/
def packageConversions (package : List PkgTx) : List CTxConversionInfo :=
  package.filterMap (fun tx => tx.conversion)

/-- The failure-routing logic of addPackageTxs (miner.cpp): on success the package is
included; on TestPackageTransactions failure the entry is inserted into the deferred
queue of its conversion direction, unless the conversionInfo out-parameter is empty or
the package contains more than one conversion (the seen_conversion loop nulls the
info in that case), in which case it is rejected for this block. -/
def addPackageDecision (nHeight : Nat) (blockSupply : CAmounts)
    (package : List PkgTx) : PackageOutcome :=
  let r := TestPackageTransactions nHeight blockSupply package
  if r.1 then PackageOutcome.included
  else
    let conversionInfo := if (packageConversions package).length > 1 then none else r.2
    match conversionInfo with
    | none => PackageOutcome.rejected
    | some info =>
      match GetConversionType info with
      | CAmountType.cash => PackageOutcome.deferredCash
      | CAmountType.bond => PackageOutcome.deferredBond

/-- A bond→cash conversion request that is invalid at supply (10,10): it asks for 6
cash for 5 bonds, and (10+6)² + (10−5)² = 281 > 200. -/
def minerInfoA : CTxConversionInfo :=
  ⟨⟨0, 5⟩, ⟨6, 0⟩, CAmountType.cash, 0⟩

/-- A small cash→bond conversion request (1 cash for 1 bond), valid at supply (10,10). -/
def minerInfoB : CTxConversionInfo :=
  ⟨⟨1, 0⟩, ⟨0, 1⟩, CAmountType.bond, 0⟩

/-- A package holding two conversion transactions, the first of which fails on rate. -/
def minerPkgTwo : List PkgTx :=
  [⟨true, some minerInfoA⟩, ⟨true, some minerInfoB⟩]

/-- A single-transaction package whose conversion fails on rate. -/
def minerPkgOne : List PkgTx :=
  [⟨true, some minerInfoA⟩]

/-- A package with no conversion requests passes the conversion loop. -/
theorem testPackageConversions_no_conversion (nHeight : Nat) (package : List PkgTx)
    (hnone : packageConversions package = []) (supply : CAmounts)
    (ci : Option CTxConversionInfo) :
    (testPackageConversions nHeight package supply ci).1 = true := by
  induction package generalizing supply ci with
  | nil => rfl
  | cons tx rest ih =>
    cases htx : tx.conversion with
    | none =>
      have hrest : packageConversions rest = [] := by
        simpa [packageConversions, htx] using hnone
      simpa [testPackageConversions, htx] using ih hrest supply none
    | some info =>
      exfalso
      simp [packageConversions, htx] at hnone

/-- When the package contains exactly one conversion whose deadline check passes, a
failing conversion loop always reports that conversion in the out-parameter. -/
theorem testPackageConversions_single (nHeight : Nat) (package : List PkgTx)
    (info : CTxConversionInfo) (supply : CAmounts) (ci : Option CTxConversionInfo)
    (hone : packageConversions package = [info])
    (hdl : ¬ (info.nDeadline ≠ 0 ∧ info.nDeadline < nHeight))
    (hfail : (testPackageConversions nHeight package supply ci).1 = false) :
    (testPackageConversions nHeight package supply ci).2 = some info := by
  induction package generalizing supply ci with
  | nil => simp [testPackageConversions] at hfail
  | cons tx rest ih =>
    cases htx : tx.conversion with
    | none =>
      have hone' : packageConversions rest = [info] := by
        simpa [packageConversions, htx] using hone
      have hfail' : (testPackageConversions nHeight rest supply none).1 = false := by
        simpa [testPackageConversions, htx] using hfail
      simpa [testPackageConversions, htx] using ih supply none hone' hfail'
    | some i =>
      have hsplit : i = info ∧ packageConversions rest = [] := by
        have := hone
        simp [packageConversions, htx] at this
        exact ⟨this.1, by simpa [packageConversions] using this.2⟩
      obtain ⟨hi, hrest⟩ := hsplit
      subst hi
      by_cases hv : (IsValidConversion supply i.inputs i.minOutputs i.remainderType).1 = true
      · exfalso
        have htrue := testPackageConversions_no_conversion nHeight rest hrest
          (IsValidConversion supply i.inputs i.minOutputs i.remainderType).2.1 (some i)
        have : (testPackageConversions nHeight (tx :: rest) supply ci).1 = true := by
          simp [testPackageConversions, htx, hdl, hv]
          exact htrue
        rw [this] at hfail
        exact absurd hfail (by simp)
      · have hv' : (IsValidConversion supply i.inputs i.minOutputs i.remainderType).1 = false := by
          simpa using hv
        simp [testPackageConversions, htx, hdl, hv']

/-- C5 (counterexample): a package passing finality and deadline checks whose single
failing step is a conversion rate check is nonetheless rejected outright, not routed
to a deferred queue, because it contains two conversion requests (the seen_conversion
loop in addPackageTxs nulls the conversion info for multi-conversion packages). -/
theorem multi_conversion_package_not_deferred :
    (minerPkgTwo.all (fun tx => tx.isFinal)) = true ∧
    minerInfoA.nDeadline = 0 ∧ minerInfoB.nDeadline = 0 ∧
    (TestPackageTransactions 100 ⟨10, 10⟩ minerPkgTwo).1 = false ∧
    addPackageDecision 100 ⟨10, 10⟩ minerPkgTwo = PackageOutcome.rejected := by
  refine ⟨rfl, rfl, rfl, ?_, ?_⟩ <;> decide

/-- C5 (amended): when a candidate package passes the finality and deadline checks
(and the weight/sigop budget, which guards entry to this code path) and contains
exactly one conversion request, a TestPackageTransactions failure — necessarily a
conversion-rate failure — routes the entry into the deferred-conversion queue of its
direction (cash→bond or bond→cash) instead of rejecting it for this block; packages
with more than one conversion request are rejected instead. -/
theorem rate_failed_single_conversion_deferred (nHeight : Nat) (blockSupply : CAmounts)
    (package : List PkgTx) (info : CTxConversionInfo)
    (hfin : (package.all (fun tx => tx.isFinal)) = true)
    (hone : packageConversions package = [info])
    (hdl : info.nDeadline = 0 ∨ ¬ info.nDeadline < nHeight)
    (hfail : (TestPackageTransactions nHeight blockSupply package).1 = false) :
    addPackageDecision nHeight blockSupply package =
      (if GetConversionType info = CAmountType.cash then PackageOutcome.deferredCash
       else PackageOutcome.deferredBond) := by
  have hdl' : ¬ (info.nDeadline ≠ 0 ∧ info.nDeadline < nHeight) := by
    rcases hdl with h | h
    · simp [h]
    · simp [h]
  have hr : TestPackageTransactions nHeight blockSupply package
      = testPackageConversions nHeight package blockSupply none := by
    unfold TestPackageTransactions
    rw [if_pos hfin]
  have hfail' : (testPackageConversions nHeight package blockSupply none).1 = false := by
    rw [hr] at hfail
    exact hfail
  have hsnd := testPackageConversions_single nHeight package info blockSupply none
    hone hdl' hfail'
  have hlen : ¬ ((packageConversions package).length > 1) := by
    rw [hone]
    norm_num
  unfold addPackageDecision
  rw [hr]
  simp only [hfail', Bool.false_eq_true, if_false, if_neg hlen, hsnd]
  cases hty : GetConversionType info <;> simp [hty]

/-- C5 (witness): the single-conversion package with the failing bond→cash request is
routed to the bond deferred queue. -/
theorem rate_failed_single_conversion_deferred_witness :
    ((minerPkgOne.all (fun tx => tx.isFinal)) = true) ∧
    (packageConversions minerPkgOne = [minerInfoA]) ∧
    (minerInfoA.nDeadline = 0 ∨ ¬ minerInfoA.nDeadline < 100) ∧
    ((TestPackageTransactions 100 ⟨10, 10⟩ minerPkgOne).1 = false) ∧
    addPackageDecision 100 ⟨10, 10⟩ minerPkgOne =
      (if GetConversionType minerInfoA = CAmountType.cash then PackageOutcome.deferredCash
       else PackageOutcome.deferredBond) :=
  ⟨by decide, by decide, Or.inl (by decide), by decide,
   rate_failed_single_conversion_deferred 100 ⟨10, 10⟩ minerPkgOne minerInfoA
     (by decide) (by decide) (Or.inl (by decide)) (by decide)⟩

/-- One entry of the transaction pool (CTxMemPoolEntry), restricted to the fields the
ancestor/descendant bookkeeping reads and writes.  Fees are the per-currency modified
fees (m_all_modified_fees); no PrioritiseTransaction delta is applied in this model,
so they coincide with nFees.  The cached normalized-fee scalars (nNormalizedFee and
the nModFees* fields) are recomputed by UpdateNormalizedFee from these per-currency
totals and the pool's cached supply, so they are derived on demand here instead of
stored (see normalizedFeeWithDescendants below).  SaturatingAdd is plain addition:
amounts are unbounded in the model.  usage is the entry's contribution to
DynamicMemoryUsage. -/
structure MEntry where
  txid : Nat
  txInputs : List Nat
  size : Int
  feeCash : Int
  feeBond : Int
  sigOpCost : Int
  usage : Nat
  parents : Finset Nat
  children : Finset Nat
  sizeWithAncestors : Int
  feeCashWithAncestors : Int
  feeBondWithAncestors : Int
  countWithAncestors : Int
  sigOpCostWithAncestors : Int
  sizeWithDescendants : Int
  feeCashWithDescendants : Int
  feeBondWithDescendants : Int
  countWithDescendants : Int
deriving DecidableEq

/-- CTxMemPoolEntry::UpdateDescendantState (saturating adds modelled as plain adds;
the normalized-fee recomputation only refreshes derived caches). -/
def MEntry.updateDescendantState (e : MEntry)
    (modifySize modifyFeeCash modifyFeeBond modifyCount : Int) : MEntry :=
  { e with
    sizeWithDescendants := e.sizeWithDescendants + modifySize,
    feeCashWithDescendants := e.feeCashWithDescendants + modifyFeeCash,
    feeBondWithDescendants := e.feeBondWithDescendants + modifyFeeBond,
    countWithDescendants := e.countWithDescendants + modifyCount }

/-- CTxMemPoolEntry::UpdateAncestorState. -/
def MEntry.updateAncestorState (e : MEntry)
    (modifySize modifyFeeCash modifyFeeBond modifyCount modifySigOps : Int) : MEntry :=
  { e with
    sizeWithAncestors := e.sizeWithAncestors + modifySize,
    feeCashWithAncestors := e.feeCashWithAncestors + modifyFeeCash,
    feeBondWithAncestors := e.feeBondWithAncestors + modifyFeeBond,
    countWithAncestors := e.countWithAncestors + modifyCount,
    sigOpCostWithAncestors := e.sigOpCostWithAncestors + modifySigOps }

/-- mapTx.find by txid. -/
def lookupEntry (p : List MEntry) (i : Nat) : Option MEntry :=
  p.find? (fun e => e.txid == i)

/-- The set of txids in the pool. -/
def poolIds (p : List MEntry) : Finset Nat :=
  (p.map MEntry.txid).toFinset

/-- mapTx.modify: apply an update to the entry with the given txid. -/
def updateEntry (p : List MEntry) (i : Nat) (f : MEntry → MEntry) : List MEntry :=
  p.map (fun e => if e.txid = i then f e else e)

/-- mapTx.modify applied along a list of txids with a per-id update. -/
def foldUpdate (p : List MEntry) (L : List Nat) (F : Nat → MEntry → MEntry) : List MEntry :=
  L.foldl (fun q i => updateEntry q i (F i)) p

/-- The cached in-pool parent links of a txid (CTxMemPoolEntry::m_parents). -/
def parentsOf (p : List MEntry) (i : Nat) : Finset Nat :=
  match lookupEntry p i with
  | some e => e.parents
  | none => ∅

/-- The cached in-pool child links of a txid (CTxMemPoolEntry::m_children). -/
def childrenOf (p : List MEntry) (i : Nat) : Finset Nat :=
  match lookupEntry p i with
  | some e => e.children
  | none => ∅

/-- GetTxSize of a txid, 0 when absent. -/
def sizeOfId (p : List MEntry) (i : Nat) : Int :=
  match lookupEntry p i with
  | some e => e.size
  | none => 0

/-- Cash component of GetModifiedFees of a txid. -/
def feeCashOfId (p : List MEntry) (i : Nat) : Int :=
  match lookupEntry p i with
  | some e => e.feeCash
  | none => 0

/-- Bond component of GetModifiedFees of a txid. -/
def feeBondOfId (p : List MEntry) (i : Nat) : Int :=
  match lookupEntry p i with
  | some e => e.feeBond
  | none => 0

/-- GetSigOpCost of a txid. -/
def sigOpCostOfId (p : List MEntry) (i : Nat) : Int :=
  match lookupEntry p i with
  | some e => e.sigOpCost
  | none => 0

/-- Ascending extraction of a finite id set, with fuel (the set's cardinality at the
first call): the iteration order of a std::set of ids.  Finset.sort is not used
because it does not reduce inside the kernel. -/
def sortedIdsAux : Nat → Finset Nat → List Nat
  | 0, _ => []
  | fuel + 1, s =>
    if h : s.Nonempty then s.min' h :: sortedIdsAux fuel (s.erase (s.min' h))
    else []

/-- The elements of a finite id set in ascending order (std::set iteration order). -/
def sortedIds (s : Finset Nat) : List Nat :=
  sortedIdsAux s.card s

/-- The staged-set worklist walk shared by CalculateAncestorsAndCheckLimits (over
parent links, with no limits) and CTxMemPool::CalculateDescendants (over child
links): repeatedly move the smallest staged id into the accumulator (std::set
iteration starts from the smallest key) and stage its links that are not yet
accumulated.  Fuel bounds the number of rounds; every caller passes the pool size,
which suffices because each round accumulates one new id. -/
def closureAux (adj : Nat → Finset Nat) : Nat → Finset Nat → Finset Nat → Finset Nat
  | 0, stage, acc => acc ∪ stage
  | fuel + 1, stage, acc =>
    if h : stage.Nonempty then
      let s := stage.min' h
      let acc2 := insert s acc
      closureAux adj fuel ((stage.erase s) ∪ (adj s \ acc2)) acc2
    else acc

/-- One link step of a worklist walk: y is directly linked from x. -/
def adjStep (adj : Nat → Finset Nat) (x y : Nat) : Prop :=
  y ∈ adj x

/-- The ids reachable from a staged set through link steps. -/
def reachableFrom (adj : Nat → Finset Nat) (stage : Finset Nat) (y : Nat) : Prop :=
  ∃ x ∈ stage, Relation.ReflTransGen (adjStep adj) x y

/-- CTxMemPool::CalculateMemPoolAncestors with the nNoLimit arguments, starting from
a staged parent set (the fSearchForParents = true form stages the in-pool parents of
the transaction's inputs; the false form stages the entry's cached parents). -/
def calcAncestorsFrom (p : List MEntry) (staged : Finset Nat) : Finset Nat :=
  closureAux (parentsOf p) p.length staged ∅

/-- CalculateMemPoolAncestors with fSearchForParents = false: walk from the entry's
cached parents. -/
def CalculateMemPoolAncestors (p : List MEntry) (e : MEntry) : Finset Nat :=
  calcAncestorsFrom p e.parents

/-- CTxMemPool::CalculateDescendants (without the exclusion predicate, which no
modelled caller passes): stage the entry unless already accounted for, then walk
child links. -/
def CalculateDescendants (p : List MEntry) (i : Nat) (setDescendants : Finset Nat) :
    Finset Nat :=
  if i ∈ setDescendants then setDescendants
  else closureAux (childrenOf p) p.length {i} setDescendants

/-- The constructor arguments of a pool entry (transaction data as cached by
CTxMemPoolEntry's constructor). -/
structure TxData where
  txid : Nat
  txInputs : List Nat
  size : Int
  feeCash : Int
  feeBond : Int
  sigOpCost : Int
  usage : Nat
deriving DecidableEq

/-- CTxMemPoolEntry's constructor: every aggregate starts at the entry's own value
(count 1).  The parent links are those installed by the UpdateParent calls right
after insertion in addUnchecked: the transaction's in-pool parents. -/
def newEntry (t : TxData) (parents : Finset Nat) : MEntry :=
  { txid := t.txid, txInputs := t.txInputs, size := t.size,
    feeCash := t.feeCash, feeBond := t.feeBond, sigOpCost := t.sigOpCost,
    usage := t.usage, parents := parents, children := ∅,
    sizeWithAncestors := t.size, feeCashWithAncestors := t.feeCash,
    feeBondWithAncestors := t.feeBond, countWithAncestors := 1,
    sigOpCostWithAncestors := t.sigOpCost,
    sizeWithDescendants := t.size, feeCashWithDescendants := t.feeCash,
    feeBondWithDescendants := t.feeBond, countWithDescendants := 1 }

/-- The in-pool parents of the incoming transaction (setParentTransactions filtered
through GetIterSet in addUnchecked). -/
def addParentIds (p : List MEntry) (t : TxData) : Finset Nat :=
  (t.txInputs.filter (fun h => decide (h ∈ poolIds p))).toFinset

/-- The ancestor set addUnchecked computes before inserting (the public overload
calls CalculateMemPoolAncestors with the nNoLimit arguments and
fSearchForParents = true, on the pool that does not yet hold the entry). -/
def addAncestorIds (p : List MEntry) (t : TxData) : Finset Nat :=
  calcAncestorsFrom p (addParentIds p t)

/-- addUnchecked stage 1: mapTx.insert plus the UpdateParent calls (the new entry
carries its in-pool parent links). -/
def addPool1 (p : List MEntry) (t : TxData) : List MEntry :=
  p ++ [newEntry t (addParentIds p t)]

/-- addUnchecked stage 2, first half of UpdateAncestorsOf(true): each in-pool parent
gains the new entry as a child (UpdateChild). -/
def addPool2 (p : List MEntry) (t : TxData) : List MEntry :=
  foldUpdate (addPool1 p t) (sortedIds (addParentIds p t))
    (fun _ pe => { pe with children := insert t.txid pe.children })

/-- addUnchecked stage 3, second half of UpdateAncestorsOf(true): every ancestor's
descendant aggregates gain the new entry's footprint (UpdateDescendantState). -/
def addPool3 (p : List MEntry) (t : TxData) : List MEntry :=
  foldUpdate (addPool2 p t) (sortedIds (addAncestorIds p t))
    (fun _ ae => ae.updateDescendantState t.size t.feeCash t.feeBond 1)

/-- addUnchecked stage 4, UpdateEntryForAncestors: the ancestors' totals are folded
into the new entry's ancestor aggregates. -/
def addPool4 (p : List MEntry) (t : TxData) : List MEntry :=
  updateEntry (addPool3 p t) t.txid (fun e2 => e2.updateAncestorState
    (∑ a ∈ addAncestorIds p t, sizeOfId (addPool3 p t) a)
    (∑ a ∈ addAncestorIds p t, feeCashOfId (addPool3 p t) a)
    (∑ a ∈ addAncestorIds p t, feeBondOfId (addPool3 p t) a)
    ((addAncestorIds p t).card : Int)
    (∑ a ∈ addAncestorIds p t, sigOpCostOfId (addPool3 p t) a))

/-- CTxMemPool::addUnchecked (public overload): compute the ancestor set with no
limits from the transaction's in-pool parents, insert the entry, link it to its
parents (UpdateParent), register it as a child of each parent and add its footprint
to every ancestor's descendant aggregates (UpdateAncestorsOf true), then fold the
ancestors' totals into the new entry's ancestor aggregates (UpdateEntryForAncestors).
AcceptToMemoryPool performs all admission checks and never admits a duplicate txid,
so an id collision is a no-op here. -/
def addUnchecked (p : List MEntry) (t : TxData) : List MEntry :=
  if t.txid ∈ poolIds p then p
  else addPool4 p t

/-- UpdateForRemoveFromMempool, updateDescendants pass for one staged entry: every
remaining descendant loses the entry's footprint from its ancestor aggregates. -/
def removeStep1 (q : List MEntry) (rid : Nat) : List MEntry :=
  match lookupEntry q rid with
  | none => q
  | some r =>
    foldUpdate q (sortedIds ((CalculateDescendants q rid ∅).erase rid)) (fun _ d =>
      d.updateAncestorState (-r.size) (-r.feeCash) (-r.feeBond) (-1) (-r.sigOpCost))

/-- UpdateAncestorsOf(false) for one staged entry: its parents drop it from their
child sets, and every ancestor loses its footprint from its descendant aggregates. -/
def removeStep2 (q : List MEntry) (rid : Nat) : List MEntry :=
  match lookupEntry q rid with
  | none => q
  | some r =>
    foldUpdate
      (foldUpdate q (sortedIds r.parents) (fun _ pe =>
        { pe with children := pe.children.erase rid }))
      (sortedIds (CalculateMemPoolAncestors q r)) (fun _ ae =>
        ae.updateDescendantState (-r.size) (-r.feeCash) (-r.feeBond) (-1))

/-- UpdateChildrenForRemoval for one staged entry: its children drop it from their
parent sets. -/
def removeStep3 (q : List MEntry) (rid : Nat) : List MEntry :=
  match lookupEntry q rid with
  | none => q
  | some r =>
    foldUpdate q (sortedIds r.children) (fun _ ce =>
      { ce with parents := ce.parents.erase rid })

/-- CTxMemPool::UpdateForRemoveFromMempool followed by removeUnchecked on every
staged entry (RemoveStaged).  With updateDescendants set (block connection), each
remaining descendant of a staged entry first loses that entry's footprint from its
ancestor aggregates.  Then each staged entry is unlinked: its parents drop it from
their child sets and every ancestor loses its footprint from its descendant
aggregates (UpdateAncestorsOf false, via CalculateMemPoolAncestors on the cached
parents); next its children drop it from their parent sets
(UpdateChildrenForRemoval); finally the staged entries are erased from the map. -/
def RemoveStaged (p : List MEntry) (stage : Finset Nat) (updateDescendants : Bool) :
    List MEntry :=
  let p1 := if updateDescendants then (sortedIds stage).foldl removeStep1 p else p
  let p2 := (sortedIds stage).foldl removeStep2 p1
  let p3 := (sortedIds stage).foldl removeStep3 p2
  p3.filter (fun e => decide (e.txid ∉ stage))

/-- CTxMemPool::removeRecursive: stage the transaction (or, when it is no longer in
the pool, its in-pool spenders), close the staged set under descendants, and remove
it without the descendant ancestor-state pass (the staged set already contains every
descendant). -/
def removeRecursive (p : List MEntry) (origTxid : Nat) : List MEntry :=
  let txToRemove : Finset Nat :=
    if origTxid ∈ poolIds p then {origTxid}
    else ((p.filter (fun e => decide (origTxid ∈ e.txInputs))).map MEntry.txid).toFinset
  let setAllRemoves := (sortedIds txToRemove).foldl (fun acc i => CalculateDescendants p i acc) ∅
  RemoveStaged p setAllRemoves false

/-- One transaction's removal inside CTxMemPool::removeForBlock:
RemoveStaged({tx}, updateDescendants = true).  A valid block lists parents before
children and contains every in-pool ancestor of its transactions, so when this step
runs the entry has no in-pool parents left; the model keeps that as a guard. -/
def removeBlockTx (p : List MEntry) (i : Nat) : List MEntry :=
  match lookupEntry p i with
  | none => p
  | some r => if r.parents = ∅ then RemoveStaged p {i} true else p

/-- The admission and removal operations of the pool. -/
inductive PoolOp where
  | add (t : TxData)
  | removeRec (txid : Nat)
  | removeBlock (txid : Nat)
deriving DecidableEq

/-- Apply one operation. -/
def applyOp (p : List MEntry) : PoolOp → List MEntry
  | .add t => addUnchecked p t
  | .removeRec i => removeRecursive p i
  | .removeBlock i => removeBlockTx p i

/-- Run a sequence of operations from the empty pool. -/
def runOps (ops : List PoolOp) : List MEntry :=
  ops.foldl applyOp []

/-- Membership of the fuelled extraction, for sufficient fuel. -/
theorem sortedIdsAux_mem (fuel : Nat) : ∀ (s : Finset Nat), s.card ≤ fuel →
    ∀ i : Nat, (i ∈ sortedIdsAux fuel s ↔ i ∈ s) := by
  induction fuel with
  | zero =>
    intro s h i
    have hs : s = ∅ := Finset.card_eq_zero.mp (Nat.le_antisymm h (Nat.zero_le _))
    subst hs
    simp [sortedIdsAux]
  | succ n ih =>
    intro s h i
    by_cases hs : s.Nonempty
    · have hmin : s.min' hs ∈ s := s.min'_mem hs
      have hcard : (s.erase (s.min' hs)).card ≤ n := by
        have := Finset.card_erase_of_mem hmin
        omega
      simp only [sortedIdsAux, dif_pos hs, List.mem_cons, ih _ hcard i, Finset.mem_erase]
      constructor
      · rintro (rfl | ⟨_, hi⟩)
        · exact hmin
        · exact hi
      · intro hi
        by_cases hie : i = s.min' hs
        · exact Or.inl hie
        · exact Or.inr ⟨hie, hi⟩
    · have hempty : s = ∅ := Finset.not_nonempty_iff_eq_empty.mp hs
      subst hempty
      simp [sortedIdsAux]

/-- The fuelled extraction has no duplicates. -/
theorem sortedIdsAux_nodup (fuel : Nat) : ∀ (s : Finset Nat), s.card ≤ fuel →
    (sortedIdsAux fuel s).Nodup := by
  induction fuel with
  | zero =>
    intro s _
    simp [sortedIdsAux]
  | succ n ih =>
    intro s h
    by_cases hs : s.Nonempty
    · have hmin : s.min' hs ∈ s := s.min'_mem hs
      have hcard : (s.erase (s.min' hs)).card ≤ n := by
        have := Finset.card_erase_of_mem hmin
        omega
      simp only [sortedIdsAux, dif_pos hs, List.nodup_cons]
      refine ⟨?_, ih _ hcard⟩
      rw [sortedIdsAux_mem n _ hcard]
      simp
    · simp [sortedIdsAux, hs]

/-- Membership in sortedIds. -/
theorem sortedIds_mem (s : Finset Nat) (i : Nat) : i ∈ sortedIds s ↔ i ∈ s :=
  sortedIdsAux_mem s.card s le_rfl i

/-- sortedIds has no duplicates. -/
theorem sortedIds_nodup (s : Finset Nat) : (sortedIds s).Nodup :=
  sortedIdsAux_nodup s.card s le_rfl

/-- A successful lookup returns a pool member carrying the looked-up id. -/
theorem lookupEntry_eq_some {p : List MEntry} {i : Nat} {e : MEntry}
    (h : lookupEntry p i = some e) : e ∈ p ∧ e.txid = i := by
  refine ⟨List.mem_of_find?_eq_some h, ?_⟩
  have := List.find?_some h
  simpa using this

/-- An id is in the pool exactly when its lookup succeeds. -/
theorem mem_poolIds_iff_lookup {p : List MEntry} {i : Nat} :
    i ∈ poolIds p ↔ (lookupEntry p i).isSome := by
  constructor
  · intro h
    simp only [poolIds, List.mem_toFinset, List.mem_map] at h
    obtain ⟨e, he, rfl⟩ := h
    induction p with
    | nil => simp at he
    | cons x xs ih =>
      cases he with
      | head => simp [lookupEntry, List.find?]
      | tail _ he =>
        by_cases hx : x.txid == e.txid
        · simp [lookupEntry, List.find?, hx]
        · simpa [lookupEntry, List.find?, hx] using ih he
  · intro h
    cases hc : lookupEntry p i with
    | none => rw [hc] at h; simp at h
    | some e =>
      obtain ⟨hmem, htx⟩ := lookupEntry_eq_some hc
      simp only [poolIds, List.mem_toFinset, List.mem_map]
      exact ⟨e, hmem, htx⟩

/-- With distinct txids, looking up a member's id finds that member. -/
theorem lookupEntry_self {p : List MEntry} (hnodup : (p.map MEntry.txid).Nodup)
    {e : MEntry} (he : e ∈ p) : lookupEntry p e.txid = some e := by
  induction p with
  | nil => simp at he
  | cons x xs ih =>
    cases he with
    | head => simp [lookupEntry, List.find?]
    | tail _ he =>
      have hx : ¬ (x.txid == e.txid) := by
          simp only [List.map_cons, List.nodup_cons] at hnodup
          intro hcontra
          exact hnodup.1 (by
            have hxe : x.txid = e.txid := by simpa using hcontra
            rw [hxe]
            exact List.mem_map_of_mem MEntry.txid he)
      have hnodup' : (xs.map MEntry.txid).Nodup := by
        simp only [List.map_cons, List.nodup_cons] at hnodup
        exact hnodup.2
      simpa [lookupEntry, List.find?, hx] using ih hnodup' he

/-- updateEntry keeps the id list when the update preserves the id. -/
theorem map_txid_updateEntry {p : List MEntry} {i : Nat} {f : MEntry → MEntry}
    (hf : ∀ e, (f e).txid = e.txid) :
    (updateEntry p i f).map MEntry.txid = p.map MEntry.txid := by
  induction p with
  | nil => rfl
  | cons x xs ih =>
    simp only [updateEntry, List.map_cons] at ih ⊢
    by_cases hx : x.txid = i
    · rw [if_pos hx, hf x, ih]
    · rw [if_neg hx, ih]

/-- updateEntry preserves the pool size. -/
theorem length_updateEntry {p : List MEntry} {i : Nat} {f : MEntry → MEntry} :
    (updateEntry p i f).length = p.length := by
  simp [updateEntry]

/-- Lookups after updateEntry: the targeted id gets the update, others do not. -/
theorem lookupEntry_updateEntry {p : List MEntry} {i : Nat} {f : MEntry → MEntry}
    (hf : ∀ e, (f e).txid = e.txid) (j : Nat) :
    lookupEntry (updateEntry p i f) j
      = Option.map (fun e => if e.txid = i then f e else e) (lookupEntry p j) := by
  induction p with
  | nil => rfl
  | cons x xs ih =>
    have hgx : (if x.txid = i then f x else x).txid = x.txid := by
      by_cases hxi : x.txid = i
      · simp [hxi, hf x]
      · simp [hxi]
    by_cases hx : (x.txid == j) = true
    · simp only [updateEntry, List.map_cons, lookupEntry, List.find?]
      rw [hgx, hx]
      rfl
    · rw [Bool.not_eq_true] at hx
      simp only [updateEntry, List.map_cons, lookupEntry, List.find?]
      rw [hgx, hx]
      exact ih

/-- foldUpdate keeps the id list when every update preserves ids. -/
theorem map_txid_foldUpdate {L : List Nat} {F : Nat → MEntry → MEntry}
    (hF : ∀ i e, (F i e).txid = e.txid) :
    ∀ p : List MEntry, (foldUpdate p L F).map MEntry.txid = p.map MEntry.txid := by
  induction L with
  | nil => intro p; rfl
  | cons i L' ih =>
    intro p
    show (foldUpdate (updateEntry p i (F i)) L' F).map MEntry.txid = _
    rw [ih, map_txid_updateEntry (hF i)]

/-- foldUpdate preserves the pool size. -/
theorem length_foldUpdate {L : List Nat} {F : Nat → MEntry → MEntry} :
    ∀ p : List MEntry, (foldUpdate p L F).length = p.length := by
  induction L with
  | nil => intro p; rfl
  | cons i L' ih =>
    intro p
    show (foldUpdate (updateEntry p i (F i)) L' F).length = _
    rw [ih, length_updateEntry]

/-- Lookups after a foldUpdate along a duplicate-free id list: ids in the list see
their update applied once, others are untouched. -/
theorem lookupEntry_foldUpdate {L : List Nat} {F : Nat → MEntry → MEntry}
    (hL : L.Nodup) (hF : ∀ i e, (F i e).txid = e.txid) :
    ∀ (p : List MEntry) (j : Nat),
      lookupEntry (foldUpdate p L F) j
        = if j ∈ L then Option.map (F j) (lookupEntry p j) else lookupEntry p j := by
  induction L with
  | nil =>
    intro p j
    simp [foldUpdate]
  | cons i L' ih =>
    intro p j
    have hL' : L'.Nodup := (List.nodup_cons.mp hL).2
    have hiL' : i ∉ L' := (List.nodup_cons.mp hL).1
    show lookupEntry (foldUpdate (updateEntry p i (F i)) L' F) j = _
    rw [ih hL' (updateEntry p i (F i)) j]
    by_cases hjL : j ∈ L'
    · rw [if_pos hjL, if_pos (List.mem_cons_of_mem i hjL)]
      have hji : j ≠ i := fun h => hiL' (h ▸ hjL)
      rw [lookupEntry_updateEntry (hF i) j]
      cases hcase : lookupEntry p j with
      | none => rfl
      | some e =>
        have htx : e.txid = j := (lookupEntry_eq_some hcase).2
        simp [htx, hji]
    · by_cases hji : j = i
      · subst hji
        rw [if_neg hjL, if_pos (List.mem_cons_self j L')]
        rw [lookupEntry_updateEntry (hF j) j]
        cases hcase : lookupEntry p j with
        | none => rfl
        | some e =>
          have htx : e.txid = j := (lookupEntry_eq_some hcase).2
          simp [htx]
      · rw [if_neg hjL, if_neg (by simp [hji, hjL])]
        rw [lookupEntry_updateEntry (hF i) j]
        cases hcase : lookupEntry p j with
        | none => rfl
        | some e =>
          have htx : e.txid = j := (lookupEntry_eq_some hcase).2
          simp [htx, hji]

/-- Everything staged or accumulated ends up in the worklist walk's result. -/
theorem closureAux_supset (adj : Nat → Finset Nat) :
    ∀ (fuel : Nat) (stage acc : Finset Nat),
      acc ∪ stage ⊆ closureAux adj fuel stage acc := by
  intro fuel
  induction fuel with
  | zero =>
    intro stage acc
    simp [closureAux]
  | succ n ih =>
    intro stage acc
    by_cases h : stage.Nonempty
    · simp only [closureAux, dif_pos h]
      intro y hy
      apply ih
      rcases Finset.mem_union.mp hy with hya | hys
      · exact Finset.mem_union_left _ (Finset.mem_insert_of_mem hya)
      · by_cases hyse : y = stage.min' h
        · exact Finset.mem_union_left _ (hyse ▸ Finset.mem_insert_self _ _)
        · exact Finset.mem_union_right _
            (Finset.mem_union_left _ (Finset.mem_erase.mpr ⟨hyse, hys⟩))
    · have hempty : stage = ∅ := Finset.not_nonempty_iff_eq_empty.mp h
      subst hempty
      simp [closureAux]

/-- The walk's result is contained in the accumulator plus the staged reach. -/
theorem closureAux_subset_reach (adj : Nat → Finset Nat) :
    ∀ (fuel : Nat) (stage acc : Finset Nat) (y : Nat),
      y ∈ closureAux adj fuel stage acc → y ∈ acc ∨ reachableFrom adj stage y := by
  intro fuel
  induction fuel with
  | zero =>
    intro stage acc y hy
    simp only [closureAux, Finset.mem_union] at hy
    rcases hy with hy | hy
    · exact Or.inl hy
    · exact Or.inr ⟨y, hy, Relation.ReflTransGen.refl⟩
  | succ n ih =>
    intro stage acc y hy
    by_cases h : stage.Nonempty
    · simp only [closureAux, dif_pos h] at hy
      rcases ih _ _ y hy with hacc | hreach
      · rcases Finset.mem_insert.mp hacc with h1 | h2
        · exact Or.inr ⟨y, by rw [h1]; exact stage.min'_mem h, Relation.ReflTransGen.refl⟩
        · exact Or.inl h2
      · obtain ⟨x, hx, hpath⟩ := hreach
        rcases Finset.mem_union.mp hx with hx1 | hx2
        · exact Or.inr ⟨x, Finset.mem_of_mem_erase hx1, hpath⟩
        · have hxadj : x ∈ adj (stage.min' h) := (Finset.mem_sdiff.mp hx2).1
          exact Or.inr ⟨stage.min' h, stage.min'_mem h,
            Relation.ReflTransGen.head hxadj hpath⟩
    · simp only [closureAux, dif_neg h] at hy
      exact Or.inl hy

/-- With sufficient fuel and the worklist invariants, the walk's result is closed
under the link map. -/
theorem closureAux_closed (adj : Nat → Finset Nat) (S : Finset Nat)
    (hS : ∀ x ∈ S, adj x ⊆ S) :
    ∀ (fuel : Nat) (stage acc : Finset Nat),
      stage ⊆ S → acc ⊆ S → (∀ x ∈ stage, x ∉ acc) →
      (∀ x ∈ acc, adj x ⊆ acc ∪ stage) → (S \ acc).card ≤ fuel →
      ∀ x ∈ closureAux adj fuel stage acc, adj x ⊆ closureAux adj fuel stage acc := by
  intro fuel
  induction fuel with
  | zero =>
    intro stage acc hstage hacc hdisj haccadj hfuel
    have hSacc : S ⊆ acc := by
      intro x hx
      by_contra hxa
      have hmem : x ∈ S \ acc := Finset.mem_sdiff.mpr ⟨hx, hxa⟩
      have := Finset.card_pos.mpr ⟨x, hmem⟩
      omega
    have hstage_empty : stage = ∅ := by
      apply Finset.eq_empty_iff_forall_not_mem.mpr
      intro x hx
      exact hdisj x hx (hSacc (hstage hx))
    subst hstage_empty
    simp only [closureAux, Finset.union_empty]
    intro x hx
    have := haccadj x hx
    simpa using this
  | succ n ih =>
    intro stage acc hstage hacc hdisj haccadj hfuel
    by_cases h : stage.Nonempty
    · have hsmem : stage.min' h ∈ stage := stage.min'_mem h
      have hsS : stage.min' h ∈ S := hstage hsmem
      have hsacc : stage.min' h ∉ acc := hdisj _ hsmem
      simp only [closureAux, dif_pos h]
      apply ih
      · intro x hx
        rcases Finset.mem_union.mp hx with hx1 | hx2
        · exact hstage (Finset.mem_of_mem_erase hx1)
        · exact hS _ hsS (Finset.mem_sdiff.mp hx2).1
      · intro x hx
        rcases Finset.mem_insert.mp hx with rfl | hx2
        · exact hsS
        · exact hacc hx2
      · intro x hx
        rcases Finset.mem_union.mp hx with hx1 | hx2
        · intro hcontra
          rcases Finset.mem_insert.mp hcontra with rfl | hx3
          · exact (Finset.mem_erase.mp hx1).1 rfl
          · exact hdisj x (Finset.mem_of_mem_erase hx1) hx3
        · exact (Finset.mem_sdiff.mp hx2).2
      · intro x hx
        rcases Finset.mem_insert.mp hx with hx1 | hx2
        · intro y hy
          rw [hx1] at hy
          by_cases hyacc : y ∈ insert (stage.min' h) acc
          · exact Finset.mem_union_left _ hyacc
          · exact Finset.mem_union_right _
              (Finset.mem_union_right _ (Finset.mem_sdiff.mpr ⟨hy, hyacc⟩))
        · intro y hy
          rcases Finset.mem_union.mp (haccadj x hx2 hy) with hy1 | hy2
          · exact Finset.mem_union_left _ (Finset.mem_insert_of_mem hy1)
          · by_cases hyse : y = stage.min' h
            · exact Finset.mem_union_left _ (hyse ▸ Finset.mem_insert_self _ _)
            · exact Finset.mem_union_right _
                (Finset.mem_union_left _ (Finset.mem_erase.mpr ⟨hyse, hy2⟩))
      · have hmem : stage.min' h ∈ S \ acc := Finset.mem_sdiff.mpr ⟨hsS, hsacc⟩
        have hss : S \ insert (stage.min' h) acc = (S \ acc).erase (stage.min' h) := by
          ext z
          simp only [Finset.mem_sdiff, Finset.mem_insert, Finset.mem_erase]
          tauto
        rw [hss, Finset.card_erase_of_mem hmem]
        omega
    · have hempty : stage = ∅ := Finset.not_nonempty_iff_eq_empty.mp h
      subst hempty
      simp only [closureAux, dif_neg h]
      intro x hx
      have := haccadj x hx
      simpa using this

/-- Reachability from a subset of a closed set stays inside it. -/
theorem reach_subset_closed (adj : Nat → Finset Nat) (F : Finset Nat)
    (hclosed : ∀ x ∈ F, adj x ⊆ F) {stage : Finset Nat} (hstage : stage ⊆ F) :
    ∀ y, reachableFrom adj stage y → y ∈ F := by
  rintro y ⟨x, hx, hpath⟩
  induction hpath with
  | refl => exact hstage hx
  | tail _ hstep ihp => exact hclosed _ ihp hstep

/-- Main characterization: with fuel at least the ambient set's size, the worklist
walk computes the accumulator plus everything reachable from the staged set. -/
theorem closureAux_spec (adj : Nat → Finset Nat) (S : Finset Nat)
    (hS : ∀ x ∈ S, adj x ⊆ S) (fuel : Nat) (stage acc : Finset Nat)
    (hstage : stage ⊆ S) (hacc : acc ⊆ S) (hdisj : ∀ x ∈ stage, x ∉ acc)
    (haccadj : ∀ x ∈ acc, adj x ⊆ acc ∪ stage) (hfuel : (S \ acc).card ≤ fuel) :
    ∀ y, y ∈ closureAux adj fuel stage acc ↔ (y ∈ acc ∨ reachableFrom adj stage y) := by
  intro y
  constructor
  · exact closureAux_subset_reach adj fuel stage acc y
  · rintro (hy | hy)
    · exact closureAux_supset adj fuel stage acc (Finset.mem_union_left _ hy)
    · have hclosed := closureAux_closed adj S hS fuel stage acc hstage hacc hdisj
        haccadj hfuel
      have hstageF : stage ⊆ closureAux adj fuel stage acc := fun x hx =>
        closureAux_supset adj fuel stage acc (Finset.mem_union_right _ hx)
      exact reach_subset_closed adj _ hclosed hstageF y hy

/-- The pool's id set is no larger than the pool. -/
theorem poolIds_card_le (p : List MEntry) : (poolIds p).card ≤ p.length := by
  calc (poolIds p).card ≤ (p.map MEntry.txid).length := List.toFinset_card_le _
    _ = p.length := List.length_map _ _

/-- Characterization of the no-limit ancestor walk. -/
theorem calcAncestorsFrom_spec (p : List MEntry) (staged : Finset Nat)
    (hsub : ∀ x ∈ poolIds p, parentsOf p x ⊆ poolIds p)
    (hstaged : staged ⊆ poolIds p) :
    ∀ y, y ∈ calcAncestorsFrom p staged ↔ reachableFrom (parentsOf p) staged y := by
  intro y
  have hcard : (poolIds p \ ∅).card ≤ p.length := by
    rw [Finset.sdiff_empty]
    exact poolIds_card_le p
  have := closureAux_spec (parentsOf p) (poolIds p) hsub p.length staged ∅ hstaged
    (Finset.empty_subset _) (by simp) (by simp) hcard y
  simpa [calcAncestorsFrom] using this

/-- Characterization of CalculateDescendants for a closed accumulator. -/
theorem calculateDescendants_spec (p : List MEntry) (i : Nat) (acc : Finset Nat)
    (hsub : ∀ x ∈ poolIds p, childrenOf p x ⊆ poolIds p)
    (hi : i ∈ poolIds p) (haccS : acc ⊆ poolIds p)
    (haccclosed : ∀ x ∈ acc, childrenOf p x ⊆ acc) :
    ∀ y, y ∈ CalculateDescendants p i acc
      ↔ (y ∈ acc ∨ reachableFrom (childrenOf p) {i} y) := by
  intro y
  by_cases hin : i ∈ acc
  · simp only [CalculateDescendants, if_pos hin]
    constructor
    · exact Or.inl
    · rintro (hy | hy)
      · exact hy
      · refine reach_subset_closed (childrenOf p) acc haccclosed ?_ y hy
        intro z hz
        rw [Finset.mem_singleton.mp hz]
        exact hin
  · simp only [CalculateDescendants, if_neg hin]
    have hcard : (poolIds p \ acc).card ≤ p.length :=
      le_trans (Finset.card_le_card (Finset.sdiff_subset)) (poolIds_card_le p)
    exact closureAux_spec (childrenOf p) (poolIds p) hsub p.length {i} acc
      (by simpa using hi) haccS
      (by intro x hx; rw [Finset.mem_singleton.mp hx]; exact hin)
      (fun x hx => le_trans (haccclosed x hx) Finset.subset_union_left) hcard y

/-- Paths are preserved between two link maps that agree on a closed ambient set. -/
theorem reflTransGen_congr_within (adj adj2 : Nat → Finset Nat) (S : Finset Nat)
    (hagree : ∀ x ∈ S, adj x = adj2 x) (hS : ∀ x ∈ S, adj x ⊆ S) :
    ∀ x y, x ∈ S → Relation.ReflTransGen (adjStep adj) x y →
      Relation.ReflTransGen (adjStep adj2) x y ∧ y ∈ S := by
  intro x y hx hpath
  induction hpath with
  | refl => exact ⟨Relation.ReflTransGen.refl, hx⟩
  | tail _ hstep ihp =>
    obtain ⟨hp2, hbS⟩ := ihp
    refine ⟨hp2.tail ?_, hS _ hbS hstep⟩
    show _ ∈ adj2 _
    rw [← hagree _ hbS]
    exact hstep

/-- Reachability is unchanged when two link maps agree on a closed ambient set. -/
theorem reachableFrom_congr (adj adj2 : Nat → Finset Nat) (S : Finset Nat)
    (hagree : ∀ x ∈ S, adj x = adj2 x) (hS : ∀ x ∈ S, adj x ⊆ S)
    {stage : Finset Nat} (hstage : stage ⊆ S) :
    ∀ y, reachableFrom adj stage y ↔ reachableFrom adj2 stage y := by
  have hS2 : ∀ x ∈ S, adj2 x ⊆ S := by
    intro x hx
    rw [← hagree x hx]
    exact hS x hx
  have hagree2 : ∀ x ∈ S, adj2 x = adj x := fun x hx => (hagree x hx).symm
  intro y
  constructor
  · rintro ⟨x, hx, hpath⟩
    exact ⟨x, hx, (reflTransGen_congr_within adj adj2 S hagree hS x y (hstage hx) hpath).1⟩
  · rintro ⟨x, hx, hpath⟩
    exact ⟨x, hx, (reflTransGen_congr_within adj2 adj S hagree2 hS2 x y (hstage hx) hpath).1⟩

/-- Reachability stays in a closed ambient set. -/
theorem reachableFrom_mem_closed (adj : Nat → Finset Nat) (S : Finset Nat)
    (hS : ∀ x ∈ S, adj x ⊆ S) {stage : Finset Nat} (hstage : stage ⊆ S) :
    ∀ y, reachableFrom adj stage y → y ∈ S :=
  reach_subset_closed adj S hS hstage

/-- The ancestor-aggregate consistency property (the spec §3 pool invariant, the
equalities asserted by CTxMemPool::check): each cached with-ancestors aggregate
equals the entry's own stat plus the sum over its computed ancestor set. -/
def AggOk (p : List MEntry) (e : MEntry) : Prop :=
  e.sizeWithAncestors = e.size + ∑ a ∈ CalculateMemPoolAncestors p e, sizeOfId p a ∧
  e.feeCashWithAncestors = e.feeCash + ∑ a ∈ CalculateMemPoolAncestors p e, feeCashOfId p a ∧
  e.feeBondWithAncestors = e.feeBond + ∑ a ∈ CalculateMemPoolAncestors p e, feeBondOfId p a ∧
  e.sigOpCostWithAncestors
    = e.sigOpCost + ∑ a ∈ CalculateMemPoolAncestors p e, sigOpCostOfId p a ∧
  e.countWithAncestors = 1 + ((CalculateMemPoolAncestors p e).card : Int)

/-- Well-formedness of the pool: distinct txids, link maps confined to the pool and
mutually inverse, and ancestor aggregates consistent. -/
structure PoolWF (p : List MEntry) : Prop where
  nodup : (p.map MEntry.txid).Nodup
  parents_sub : ∀ x ∈ poolIds p, parentsOf p x ⊆ poolIds p
  children_sub : ∀ x ∈ poolIds p, childrenOf p x ⊆ poolIds p
  par_child : ∀ x ∈ poolIds p, ∀ q ∈ parentsOf p x, x ∈ childrenOf p q
  child_par : ∀ x ∈ poolIds p, ∀ c ∈ childrenOf p x, x ∈ parentsOf p c
  agg : ∀ e ∈ p, AggOk p e

/-- In a well-formed pool, a child-link path from x to y flips into a parent-link
path from y to x (and conversely), so descendant sets and ancestor sets are dual. -/
theorem path_flip (p : List MEntry) (hwf : PoolWF p) :
    ∀ x y, x ∈ poolIds p →
      (Relation.ReflTransGen (adjStep (childrenOf p)) x y ↔
       Relation.ReflTransGen (adjStep (parentsOf p)) y x) := by
  have hforward : ∀ x y, x ∈ poolIds p →
      Relation.ReflTransGen (adjStep (childrenOf p)) x y →
      Relation.ReflTransGen (adjStep (parentsOf p)) y x ∧ y ∈ poolIds p := by
    intro x y hx hpath
    induction hpath with
    | refl => exact ⟨Relation.ReflTransGen.refl, hx⟩
    | tail _ hstep ihp =>
      obtain ⟨hp2, hbS⟩ := ihp
      have hcS := hwf.children_sub _ hbS hstep
      refine ⟨Relation.ReflTransGen.head ?_ hp2, hcS⟩
      exact hwf.child_par _ hbS _ hstep
  have hbackward : ∀ y x, y ∈ poolIds p →
      Relation.ReflTransGen (adjStep (parentsOf p)) y x →
      Relation.ReflTransGen (adjStep (childrenOf p)) x y ∧ x ∈ poolIds p := by
    intro y x hy hpath
    induction hpath with
    | refl => exact ⟨Relation.ReflTransGen.refl, hy⟩
    | tail _ hstep ihp =>
      obtain ⟨hp2, hbS⟩ := ihp
      have hcS := hwf.parents_sub _ hbS hstep
      refine ⟨Relation.ReflTransGen.head ?_ hp2, hcS⟩
      exact hwf.par_child _ hbS _ hstep
  intro x y hx
  constructor
  · intro hpath
    exact (hforward x y hx hpath).1
  · intro hpath
    rcases Relation.ReflTransGen.cases_head hpath with heq | ⟨c, hc, _⟩
    · rw [heq]
    · have hy : y ∈ poolIds p := by
        by_contra hyn
        have hnone : lookupEntry p y = none := by
          cases hcase : lookupEntry p y with
          | none => rfl
          | some e =>
            exact absurd (mem_poolIds_iff_lookup.mpr (by rw [hcase]; rfl)) hyn
        simp [adjStep, parentsOf, hnone] at hc
      exact (hbackward y x hy hpath).1

/-- Ancestor-state updates do not change identity or links. -/
theorem updateAncestorState_fields (e : MEntry) (a b c d f : Int) :
    (e.updateAncestorState a b c d f).txid = e.txid ∧
    (e.updateAncestorState a b c d f).parents = e.parents ∧
    (e.updateAncestorState a b c d f).children = e.children ∧
    (e.updateAncestorState a b c d f).size = e.size ∧
    (e.updateAncestorState a b c d f).feeCash = e.feeCash ∧
    (e.updateAncestorState a b c d f).feeBond = e.feeBond ∧
    (e.updateAncestorState a b c d f).sigOpCost = e.sigOpCost ∧
    (e.updateAncestorState a b c d f).usage = e.usage ∧
    (e.updateAncestorState a b c d f).txInputs = e.txInputs :=
  ⟨rfl, rfl, rfl, rfl, rfl, rfl, rfl, rfl, rfl⟩

/-- Descendant-state updates do not change identity, links or ancestor state. -/
theorem updateDescendantState_fields (e : MEntry) (a b c d : Int) :
    (e.updateDescendantState a b c d).txid = e.txid ∧
    (e.updateDescendantState a b c d).parents = e.parents ∧
    (e.updateDescendantState a b c d).children = e.children ∧
    (e.updateDescendantState a b c d).size = e.size ∧
    (e.updateDescendantState a b c d).feeCash = e.feeCash ∧
    (e.updateDescendantState a b c d).feeBond = e.feeBond ∧
    (e.updateDescendantState a b c d).sigOpCost = e.sigOpCost ∧
    (e.updateDescendantState a b c d).usage = e.usage ∧
    (e.updateDescendantState a b c d).sizeWithAncestors = e.sizeWithAncestors ∧
    (e.updateDescendantState a b c d).feeCashWithAncestors = e.feeCashWithAncestors ∧
    (e.updateDescendantState a b c d).feeBondWithAncestors = e.feeBondWithAncestors ∧
    (e.updateDescendantState a b c d).countWithAncestors = e.countWithAncestors ∧
    (e.updateDescendantState a b c d).sigOpCostWithAncestors = e.sigOpCostWithAncestors :=
  ⟨rfl, rfl, rfl, rfl, rfl, rfl, rfl, rfl, rfl, rfl, rfl, rfl, rfl⟩

/-- Ids of an appended pool. -/
theorem poolIds_append (p : List MEntry) (e : MEntry) :
    poolIds (p ++ [e]) = insert e.txid (poolIds p) := by
  ext x
  simp only [poolIds, List.map_append, List.map_cons, List.map_nil, List.toFinset_append,
    Finset.mem_union, List.mem_toFinset, List.mem_singleton, Finset.mem_insert]
  tauto

/-- Lookup passes through an append when it already succeeds on the left part. -/
theorem lookupEntry_append_of_some {p : List MEntry} {e : MEntry} {j : Nat} {x : MEntry}
    (h : lookupEntry p j = some x) : lookupEntry (p ++ [e]) j = some x := by
  induction p with
  | nil => simp [lookupEntry, List.find?] at h
  | cons y ys ih =>
    by_cases hy : (y.txid == j) = true
    · simp only [lookupEntry, List.find?, hy] at h ⊢
      exact h
    · rw [Bool.not_eq_true] at hy
      simp only [lookupEntry, List.find?, hy] at h ⊢
      exact ih h

/-- Lookup falls through to the appended entry if the left part misses. -/
theorem lookupEntry_append_of_none {p : List MEntry} {e : MEntry} {j : Nat}
    (h : lookupEntry p j = none) :
    lookupEntry (p ++ [e]) j = if e.txid = j then some e else none := by
  induction p with
  | nil =>
    by_cases he : e.txid = j
    · simp [lookupEntry, List.find?, he]
    · simp only [List.nil_append, lookupEntry, List.find?]
      rw [if_neg he]
      have : (e.txid == j) = false := by simpa using he
      rw [this]
  | cons y ys ih =>
    by_cases hy : (y.txid == j) = true
    · simp [lookupEntry, List.find?, hy] at h
    · rw [Bool.not_eq_true] at hy
      simp only [lookupEntry, List.find?, hy] at h ⊢
      exact ih h

/-- Ids are untouched by updateEntry with an id-preserving update. -/
theorem poolIds_updateEntry {p : List MEntry} {i : Nat} {f : MEntry → MEntry}
    (hf : ∀ e, (f e).txid = e.txid) : poolIds (updateEntry p i f) = poolIds p := by
  simp [poolIds, map_txid_updateEntry hf]

/-- Ids are untouched by foldUpdate with id-preserving updates. -/
theorem poolIds_foldUpdate {L : List Nat} {F : Nat → MEntry → MEntry}
    (hF : ∀ i e, (F i e).txid = e.txid) (p : List MEntry) :
    poolIds (foldUpdate p L F) = poolIds p := by
  simp [poolIds, map_txid_foldUpdate hF]

/-- The in-pool parents of an incoming transaction are existing ids. -/
theorem addParentIds_subset (p : List MEntry) (t : TxData) :
    addParentIds p t ⊆ poolIds p := by
  intro x hx
  simp only [addParentIds, List.mem_toFinset, List.mem_filter] at hx
  exact of_decide_eq_true hx.2

/-- The ancestors computed for an incoming transaction are existing ids. -/
theorem addAncestorIds_subset (p : List MEntry) (t : TxData) (hwf : PoolWF p) :
    addAncestorIds p t ⊆ poolIds p := by
  intro y hy
  have hr := (calcAncestorsFrom_spec p (addParentIds p t) hwf.parents_sub
    (addParentIds_subset p t) y).mp hy
  exact reachableFrom_mem_closed (parentsOf p) (poolIds p) hwf.parents_sub
    (addParentIds_subset p t) y hr

/-- Lookups in addUnchecked stage 1. -/
theorem lookup_addPool1 (p : List MEntry) (t : TxData) (hfresh : t.txid ∉ poolIds p)
    (j : Nat) :
    lookupEntry (addPool1 p t) j =
      if t.txid = j then some (newEntry t (addParentIds p t)) else lookupEntry p j := by
  by_cases hj : t.txid = j
  · subst hj
    have hnone : lookupEntry p t.txid = none := by
      cases hcase : lookupEntry p t.txid with
      | none => rfl
      | some x => exact absurd (mem_poolIds_iff_lookup.mpr (by rw [hcase]; rfl)) hfresh
    rw [addPool1, lookupEntry_append_of_none hnone]
    simp [newEntry]
  · rw [if_neg hj]
    cases hcase : lookupEntry p j with
    | some x => exact lookupEntry_append_of_some hcase
    | none =>
      rw [addPool1, lookupEntry_append_of_none hcase]
      simp only [newEntry]
      rw [if_neg hj]

/-- The pool extended by a fresh entry keeps distinct ids. -/
theorem nodup_addPool1 (p : List MEntry) (t : TxData)
    (hnodup : (p.map MEntry.txid).Nodup) (hfresh : t.txid ∉ poolIds p) :
    ((addPool1 p t).map MEntry.txid).Nodup := by
  rw [addPool1]
  simp only [List.map_append, List.map_cons, List.map_nil]
  rw [List.nodup_append]
  refine ⟨hnodup, List.nodup_singleton _, ?_⟩
  intro a ha hb
  simp only [newEntry, List.mem_singleton] at hb
  apply hfresh
  rw [← hb]
  simp only [poolIds, List.mem_toFinset]
  exact ha

/-- Lookups in addUnchecked stage 4 for pre-existing ids: the entry keeps its
identity, parents, base stats and ancestor aggregates; only its child links and
descendant aggregates may change. -/
theorem lookup_addPool4_old (p : List MEntry) (t : TxData)
    (hfresh : t.txid ∉ poolIds p) {j : Nat} (hj : j ≠ t.txid) :
    lookupEntry (addPool4 p t) j =
      Option.map (fun ej =>
        (fun x => if j ∈ addAncestorIds p t then
            x.updateDescendantState t.size t.feeCash t.feeBond 1 else x)
        (if j ∈ addParentIds p t then
            { ej with children := insert t.txid ej.children } else ej))
        (lookupEntry p j) := by
  have hF2 : ∀ (i : Nat) (e : MEntry),
      ((fun (_ : Nat) (pe : MEntry) => { pe with children := insert t.txid pe.children }) i e).txid
        = e.txid := fun _ _ => rfl
  have hF3 : ∀ (i : Nat) (e : MEntry),
      ((fun (_ : Nat) (ae : MEntry) =>
        ae.updateDescendantState t.size t.feeCash t.feeBond 1) i e).txid = e.txid :=
    fun _ _ => rfl
  have hf4 : ∀ e : MEntry, (e.updateAncestorState
      (∑ a ∈ addAncestorIds p t, sizeOfId (addPool3 p t) a)
      (∑ a ∈ addAncestorIds p t, feeCashOfId (addPool3 p t) a)
      (∑ a ∈ addAncestorIds p t, feeBondOfId (addPool3 p t) a)
      ((addAncestorIds p t).card : Int)
      (∑ a ∈ addAncestorIds p t, sigOpCostOfId (addPool3 p t) a)).txid = e.txid :=
    fun _ => rfl
  rw [addPool4, lookupEntry_updateEntry hf4 j]
  rw [addPool3, lookupEntry_foldUpdate (sortedIds_nodup _) hF3]
  rw [addPool2, lookupEntry_foldUpdate (sortedIds_nodup _) hF2]
  rw [lookup_addPool1 p t hfresh j,
    if_neg (show ¬(t.txid = j) from fun h => hj h.symm)]
  simp only [sortedIds_mem]
  by_cases h2 : j ∈ addParentIds p t
  · rw [if_pos h2]
    by_cases h3 : j ∈ addAncestorIds p t
    · rw [if_pos h3]
      cases hcase : lookupEntry p j with
      | none => rfl
      | some e =>
        have htx : e.txid = j := (lookupEntry_eq_some hcase).2
        simp [MEntry.updateDescendantState, htx, hj, h2, h3]
    · rw [if_neg h3]
      cases hcase : lookupEntry p j with
      | none => rfl
      | some e =>
        have htx : e.txid = j := (lookupEntry_eq_some hcase).2
        simp [htx, hj, h2, h3]
  · rw [if_neg h2]
    by_cases h3 : j ∈ addAncestorIds p t
    · rw [if_pos h3]
      cases hcase : lookupEntry p j with
      | none => rfl
      | some e =>
        have htx : e.txid = j := (lookupEntry_eq_some hcase).2
        simp [MEntry.updateDescendantState, htx, hj, h2, h3]
    · rw [if_neg h3]
      cases hcase : lookupEntry p j with
      | none => rfl
      | some e =>
        have htx : e.txid = j := (lookupEntry_eq_some hcase).2
        simp [htx, hj, h2, h3]

/-- The modification addUnchecked applies to a pre-existing entry with id j: gain
the new transaction as a child when j is one of its in-pool parents, and add its
footprint to the descendant aggregates when j is one of its ancestors. -/
def addOldMod (p : List MEntry) (t : TxData) (j : Nat) (ej : MEntry) : MEntry :=
  (fun x => if j ∈ addAncestorIds p t then
      x.updateDescendantState t.size t.feeCash t.feeBond 1 else x)
  (if j ∈ addParentIds p t then { ej with children := insert t.txid ej.children } else ej)

/-- Field accounting of the pre-existing-entry modification: everything except the
child links and descendant aggregates is untouched. -/
theorem addOldMod_fields (p : List MEntry) (t : TxData) (j : Nat) (ej : MEntry) :
    (addOldMod p t j ej).txid = ej.txid ∧
    (addOldMod p t j ej).parents = ej.parents ∧
    (addOldMod p t j ej).children
      = (if j ∈ addParentIds p t then insert t.txid ej.children else ej.children) ∧
    (addOldMod p t j ej).size = ej.size ∧
    (addOldMod p t j ej).feeCash = ej.feeCash ∧
    (addOldMod p t j ej).feeBond = ej.feeBond ∧
    (addOldMod p t j ej).sigOpCost = ej.sigOpCost ∧
    (addOldMod p t j ej).sizeWithAncestors = ej.sizeWithAncestors ∧
    (addOldMod p t j ej).feeCashWithAncestors = ej.feeCashWithAncestors ∧
    (addOldMod p t j ej).feeBondWithAncestors = ej.feeBondWithAncestors ∧
    (addOldMod p t j ej).countWithAncestors = ej.countWithAncestors ∧
    (addOldMod p t j ej).sigOpCostWithAncestors = ej.sigOpCostWithAncestors := by
  unfold addOldMod
  by_cases hA : j ∈ addAncestorIds p t <;> by_cases hP : j ∈ addParentIds p t <;>
    simp [MEntry.updateDescendantState, hA, hP]

/-- Stage-4 lookups for pre-existing ids, phrased through the modifier. -/
theorem lookup_addPool4_mod (p : List MEntry) (t : TxData)
    (hfresh : t.txid ∉ poolIds p) {j : Nat} (hj : j ≠ t.txid) :
    lookupEntry (addPool4 p t) j = Option.map (addOldMod p t j) (lookupEntry p j) := by
  rw [lookup_addPool4_old p t hfresh hj]
  rfl

/-- Stage-3 lookups for pre-existing ids: the same modification (stage 4 only
touches the incoming id). -/
theorem lookup_addPool3_old (p : List MEntry) (t : TxData)
    (hfresh : t.txid ∉ poolIds p) {j : Nat} (hj : j ≠ t.txid) :
    lookupEntry (addPool3 p t) j = Option.map (addOldMod p t j) (lookupEntry p j) := by
  have hF2 : ∀ (i : Nat) (e : MEntry),
      ((fun (_ : Nat) (pe : MEntry) => { pe with children := insert t.txid pe.children }) i e).txid
        = e.txid := fun _ _ => rfl
  have hF3 : ∀ (i : Nat) (e : MEntry),
      ((fun (_ : Nat) (ae : MEntry) =>
        ae.updateDescendantState t.size t.feeCash t.feeBond 1) i e).txid = e.txid :=
    fun _ _ => rfl
  rw [addPool3, lookupEntry_foldUpdate (sortedIds_nodup _) hF3]
  rw [addPool2, lookupEntry_foldUpdate (sortedIds_nodup _) hF2]
  rw [lookup_addPool1 p t hfresh j,
    if_neg (show ¬(t.txid = j) from fun h => hj h.symm)]
  simp only [sortedIds_mem]
  cases hcase : lookupEntry p j with
  | none =>
    by_cases h3 : j ∈ addAncestorIds p t <;> by_cases h2 : j ∈ addParentIds p t <;>
      simp [h2, h3]
  | some e =>
    by_cases h3 : j ∈ addAncestorIds p t <;> by_cases h2 : j ∈ addParentIds p t <;>
      simp [addOldMod, h2, h3]

/-- Base transaction stats are unchanged by addUnchecked stage 3 on other ids. -/
theorem statsOfId_addPool3 (p : List MEntry) (t : TxData)
    (hfresh : t.txid ∉ poolIds p) {a : Nat} (ha : a ≠ t.txid) :
    sizeOfId (addPool3 p t) a = sizeOfId p a ∧
    feeCashOfId (addPool3 p t) a = feeCashOfId p a ∧
    feeBondOfId (addPool3 p t) a = feeBondOfId p a ∧
    sigOpCostOfId (addPool3 p t) a = sigOpCostOfId p a := by
  have h := lookup_addPool3_old p t hfresh ha
  unfold sizeOfId feeCashOfId feeBondOfId sigOpCostOfId
  rw [h]
  cases hcase : lookupEntry p a with
  | none => exact ⟨rfl, rfl, rfl, rfl⟩
  | some e =>
    obtain ⟨_, _, _, h4, h5, h6, h7, _⟩ := addOldMod_fields p t a e
    exact ⟨h4, h5, h6, h7⟩

/-- Base transaction stats are unchanged by a completed addUnchecked on other ids. -/
theorem statsOfId_addPool4 (p : List MEntry) (t : TxData)
    (hfresh : t.txid ∉ poolIds p) {a : Nat} (ha : a ≠ t.txid) :
    sizeOfId (addPool4 p t) a = sizeOfId p a ∧
    feeCashOfId (addPool4 p t) a = feeCashOfId p a ∧
    feeBondOfId (addPool4 p t) a = feeBondOfId p a ∧
    sigOpCostOfId (addPool4 p t) a = sigOpCostOfId p a := by
  have h := lookup_addPool4_mod p t hfresh ha
  unfold sizeOfId feeCashOfId feeBondOfId sigOpCostOfId
  rw [h]
  cases hcase : lookupEntry p a with
  | none => exact ⟨rfl, rfl, rfl, rfl⟩
  | some e =>
    obtain ⟨_, _, _, h4, h5, h6, h7, _⟩ := addOldMod_fields p t a e
    exact ⟨h4, h5, h6, h7⟩

/-- Lookup of the incoming id after addUnchecked: the freshly constructed entry
with the ancestors' totals folded in. -/
theorem lookup_addPool4_new (p : List MEntry) (t : TxData) (hwf : PoolWF p)
    (hfresh : t.txid ∉ poolIds p) :
    lookupEntry (addPool4 p t) t.txid =
      some ((newEntry t (addParentIds p t)).updateAncestorState
        (∑ a ∈ addAncestorIds p t, sizeOfId (addPool3 p t) a)
        (∑ a ∈ addAncestorIds p t, feeCashOfId (addPool3 p t) a)
        (∑ a ∈ addAncestorIds p t, feeBondOfId (addPool3 p t) a)
        ((addAncestorIds p t).card : Int)
        (∑ a ∈ addAncestorIds p t, sigOpCostOfId (addPool3 p t) a)) := by
  have hF2 : ∀ (i : Nat) (e : MEntry),
      ((fun (_ : Nat) (pe : MEntry) => { pe with children := insert t.txid pe.children }) i e).txid
        = e.txid := fun _ _ => rfl
  have hF3 : ∀ (i : Nat) (e : MEntry),
      ((fun (_ : Nat) (ae : MEntry) =>
        ae.updateDescendantState t.size t.feeCash t.feeBond 1) i e).txid = e.txid :=
    fun _ _ => rfl
  have hf4 : ∀ e : MEntry, (e.updateAncestorState
      (∑ a ∈ addAncestorIds p t, sizeOfId (addPool3 p t) a)
      (∑ a ∈ addAncestorIds p t, feeCashOfId (addPool3 p t) a)
      (∑ a ∈ addAncestorIds p t, feeBondOfId (addPool3 p t) a)
      ((addAncestorIds p t).card : Int)
      (∑ a ∈ addAncestorIds p t, sigOpCostOfId (addPool3 p t) a)).txid = e.txid :=
    fun _ => rfl
  have hP : t.txid ∉ addParentIds p t := fun h => hfresh (addParentIds_subset p t h)
  have hA : t.txid ∉ addAncestorIds p t := fun h => hfresh (addAncestorIds_subset p t hwf h)
  rw [addPool4, lookupEntry_updateEntry hf4 t.txid]
  rw [addPool3, lookupEntry_foldUpdate (sortedIds_nodup _) hF3]
  rw [addPool2, lookupEntry_foldUpdate (sortedIds_nodup _) hF2]
  rw [lookup_addPool1 p t hfresh t.txid, if_pos rfl]
  simp only [sortedIds_mem]
  rw [if_neg hA, if_neg hP]
  simp [newEntry]

/-- Ids after addUnchecked. -/
theorem poolIds_addPool4 (p : List MEntry) (t : TxData) :
    poolIds (addPool4 p t) = insert t.txid (poolIds p) := by
  have hf4 : ∀ e : MEntry, (e.updateAncestorState
      (∑ a ∈ addAncestorIds p t, sizeOfId (addPool3 p t) a)
      (∑ a ∈ addAncestorIds p t, feeCashOfId (addPool3 p t) a)
      (∑ a ∈ addAncestorIds p t, feeBondOfId (addPool3 p t) a)
      ((addAncestorIds p t).card : Int)
      (∑ a ∈ addAncestorIds p t, sigOpCostOfId (addPool3 p t) a)).txid = e.txid :=
    fun _ => rfl
  have hF2 : ∀ (i : Nat) (e : MEntry),
      ((fun (_ : Nat) (pe : MEntry) => { pe with children := insert t.txid pe.children }) i e).txid
        = e.txid := fun _ _ => rfl
  have hF3 : ∀ (i : Nat) (e : MEntry),
      ((fun (_ : Nat) (ae : MEntry) =>
        ae.updateDescendantState t.size t.feeCash t.feeBond 1) i e).txid = e.txid :=
    fun _ _ => rfl
  rw [addPool4, poolIds_updateEntry hf4]
  rw [addPool3, poolIds_foldUpdate hF3]
  rw [addPool2, poolIds_foldUpdate hF2]
  rw [addPool1, poolIds_append]
  rfl

/-- Distinct ids after addUnchecked on a fresh id. -/
theorem nodup_addPool4 (p : List MEntry) (t : TxData)
    (hnodup : (p.map MEntry.txid).Nodup) (hfresh : t.txid ∉ poolIds p) :
    ((addPool4 p t).map MEntry.txid).Nodup := by
  have hf4 : ∀ e : MEntry, (e.updateAncestorState
      (∑ a ∈ addAncestorIds p t, sizeOfId (addPool3 p t) a)
      (∑ a ∈ addAncestorIds p t, feeCashOfId (addPool3 p t) a)
      (∑ a ∈ addAncestorIds p t, feeBondOfId (addPool3 p t) a)
      ((addAncestorIds p t).card : Int)
      (∑ a ∈ addAncestorIds p t, sigOpCostOfId (addPool3 p t) a)).txid = e.txid :=
    fun _ => rfl
  have hF2 : ∀ (i : Nat) (e : MEntry),
      ((fun (_ : Nat) (pe : MEntry) => { pe with children := insert t.txid pe.children }) i e).txid
        = e.txid := fun _ _ => rfl
  have hF3 : ∀ (i : Nat) (e : MEntry),
      ((fun (_ : Nat) (ae : MEntry) =>
        ae.updateDescendantState t.size t.feeCash t.feeBond 1) i e).txid = e.txid :=
    fun _ _ => rfl
  rw [addPool4, map_txid_updateEntry hf4]
  rw [addPool3, map_txid_foldUpdate hF3]
  rw [addPool2, map_txid_foldUpdate hF2]
  exact nodup_addPool1 p t hnodup hfresh

/-- Parent links after addUnchecked: the incoming entry carries its in-pool
parents, everyone else keeps theirs. -/
theorem parentsOf_addPool4 (p : List MEntry) (t : TxData) (hwf : PoolWF p)
    (hfresh : t.txid ∉ poolIds p) (j : Nat) :
    parentsOf (addPool4 p t) j =
      if j = t.txid then addParentIds p t else parentsOf p j := by
  by_cases hj : j = t.txid
  · subst hj
    rw [if_pos rfl]
    unfold parentsOf
    rw [lookup_addPool4_new p t hwf hfresh]
    rfl
  · rw [if_neg hj]
    unfold parentsOf
    rw [lookup_addPool4_mod p t hfresh hj]
    cases hcase : lookupEntry p j with
    | none => rfl
    | some e => exact (addOldMod_fields p t j e).2.1

/-- Child links after addUnchecked: the incoming entry has none, its in-pool
parents gain it, everyone else is unchanged. -/
theorem childrenOf_addPool4 (p : List MEntry) (t : TxData) (hwf : PoolWF p)
    (hfresh : t.txid ∉ poolIds p) (j : Nat) :
    childrenOf (addPool4 p t) j =
      if j = t.txid then ∅
      else if j ∈ addParentIds p t then insert t.txid (childrenOf p j)
      else childrenOf p j := by
  by_cases hj : j = t.txid
  · subst hj
    rw [if_pos rfl]
    unfold childrenOf
    rw [lookup_addPool4_new p t hwf hfresh]
    rfl
  · rw [if_neg hj]
    unfold childrenOf
    rw [lookup_addPool4_mod p t hfresh hj]
    cases hcase : lookupEntry p j with
    | none =>
      have hjp : j ∉ poolIds p := by
        rw [mem_poolIds_iff_lookup, hcase]
        simp
      rw [if_neg (fun h => hjp (addParentIds_subset p t h))]
      rfl
    | some e => exact (addOldMod_fields p t j e).2.2.1

/-- A pool member's cached parents are pool ids. -/
theorem entry_parents_sub (p : List MEntry) (hwf : PoolWF p) {e : MEntry}
    (he : e ∈ p) : e.parents ⊆ poolIds p := by
  have hlk := lookupEntry_self hwf.nodup he
  have hx : e.txid ∈ poolIds p := mem_poolIds_iff_lookup.mpr (by rw [hlk]; rfl)
  have hpe : parentsOf p e.txid = e.parents := by
    unfold parentsOf
    rw [hlk]
  have := hwf.parents_sub e.txid hx
  rwa [hpe] at this

/-- A pool member's cached children are pool ids. -/
theorem entry_children_sub (p : List MEntry) (hwf : PoolWF p) {e : MEntry}
    (he : e ∈ p) : e.children ⊆ poolIds p := by
  have hlk := lookupEntry_self hwf.nodup he
  have hx : e.txid ∈ poolIds p := mem_poolIds_iff_lookup.mpr (by rw [hlk]; rfl)
  have hce : childrenOf p e.txid = e.children := by
    unfold childrenOf
    rw [hlk]
  have := hwf.children_sub e.txid hx
  rwa [hce] at this

/-- A pool member's computed ancestor set consists of pool ids. -/
theorem calcMemPoolAncestors_subset (p : List MEntry) (hwf : PoolWF p) {e : MEntry}
    (he : e ∈ p) : CalculateMemPoolAncestors p e ⊆ poolIds p := by
  intro y hy
  have hr := (calcAncestorsFrom_spec p e.parents hwf.parents_sub
    (entry_parents_sub p hwf he) y).mp hy
  exact reachableFrom_mem_closed _ _ hwf.parents_sub (entry_parents_sub p hwf he) y hr

/-- The ancestor walk from an old staged set is unchanged by addUnchecked: the new
entry is nobody's parent. -/
theorem calcAncestorsFrom_addPool4 (p : List MEntry) (t : TxData) (hwf : PoolWF p)
    (hfresh : t.txid ∉ poolIds p) {staged : Finset Nat}
    (hstaged : staged ⊆ poolIds p) :
    calcAncestorsFrom (addPool4 p t) staged = calcAncestorsFrom p staged := by
  have hids := poolIds_addPool4 p t
  have hagree : ∀ x ∈ poolIds p, parentsOf (addPool4 p t) x = parentsOf p x := by
    intro x hx
    rw [parentsOf_addPool4 p t hwf hfresh x,
      if_neg (show ¬(x = t.txid) from fun h => hfresh (h ▸ hx))]
  have hsubP : ∀ x ∈ poolIds p, parentsOf (addPool4 p t) x ⊆ poolIds p := by
    intro x hx
    rw [hagree x hx]
    exact hwf.parents_sub x hx
  have hsub4 : ∀ x ∈ poolIds (addPool4 p t),
      parentsOf (addPool4 p t) x ⊆ poolIds (addPool4 p t) := by
    intro x hx
    rw [hids] at hx ⊢
    rcases Finset.mem_insert.mp hx with hx | hx
    · rw [parentsOf_addPool4 p t hwf hfresh x, if_pos hx]
      exact (addParentIds_subset p t).trans (Finset.subset_insert _ _)
    · rw [parentsOf_addPool4 p t hwf hfresh x,
        if_neg (show ¬(x = t.txid) from fun h => hfresh (h ▸ hx))]
      exact (hwf.parents_sub x hx).trans (Finset.subset_insert _ _)
  have hstaged4 : staged ⊆ poolIds (addPool4 p t) := by
    rw [hids]
    exact hstaged.trans (Finset.subset_insert _ _)
  ext y
  rw [calcAncestorsFrom_spec (addPool4 p t) staged hsub4 hstaged4 y,
    calcAncestorsFrom_spec p staged hwf.parents_sub hstaged y]
  exact reachableFrom_congr (parentsOf (addPool4 p t)) (parentsOf p) (poolIds p)
    hagree hsubP hstaged y

/-- Every entry of the pool after addUnchecked is either the freshly built entry or
a modified pre-existing one. -/
theorem mem_addPool4_elim (p : List MEntry) (t : TxData) (hwf : PoolWF p)
    (hfresh : t.txid ∉ poolIds p) {e2 : MEntry} (he2 : e2 ∈ addPool4 p t) :
    e2 = (newEntry t (addParentIds p t)).updateAncestorState
        (∑ a ∈ addAncestorIds p t, sizeOfId (addPool3 p t) a)
        (∑ a ∈ addAncestorIds p t, feeCashOfId (addPool3 p t) a)
        (∑ a ∈ addAncestorIds p t, feeBondOfId (addPool3 p t) a)
        ((addAncestorIds p t).card : Int)
        (∑ a ∈ addAncestorIds p t, sigOpCostOfId (addPool3 p t) a) ∨
      ∃ e ∈ p, e2 = addOldMod p t e.txid e := by
  have hnodup4 := nodup_addPool4 p t hwf.nodup hfresh
  have hlk := lookupEntry_self hnodup4 he2
  by_cases hj : e2.txid = t.txid
  · left
    rw [hj, lookup_addPool4_new p t hwf hfresh] at hlk
    exact (Option.some.inj hlk).symm
  · right
    rw [lookup_addPool4_mod p t hfresh hj] at hlk
    cases hcase : lookupEntry p e2.txid with
    | none =>
      rw [hcase] at hlk
      simp at hlk
    | some e =>
      rw [hcase] at hlk
      refine ⟨e, (lookupEntry_eq_some hcase).1, ?_⟩
      have htx : e.txid = e2.txid := (lookupEntry_eq_some hcase).2
      rw [htx]
      exact (Option.some.inj hlk).symm

/-- The ancestor aggregates of a modified pre-existing entry remain consistent
after addUnchecked. -/
theorem aggOk_addPool4_old (p : List MEntry) (t : TxData) (hwf : PoolWF p)
    (hfresh : t.txid ∉ poolIds p) {e : MEntry} (he : e ∈ p) :
    AggOk (addPool4 p t) (addOldMod p t e.txid e) := by
  obtain ⟨htx, hpar, hch, hsz, hfc, hfb, hso, hswa, hfcwa, hfbwa, hcwa, hsowa⟩ :=
    addOldMod_fields p t e.txid e
  have hAncEq : CalculateMemPoolAncestors (addPool4 p t) (addOldMod p t e.txid e)
      = CalculateMemPoolAncestors p e := by
    unfold CalculateMemPoolAncestors
    rw [hpar]
    exact calcAncestorsFrom_addPool4 p t hwf hfresh (entry_parents_sub p hwf he)
  have hAncSub := calcMemPoolAncestors_subset p hwf he
  have hane : ∀ a ∈ CalculateMemPoolAncestors p e, a ≠ t.txid :=
    fun a ha h => hfresh (h ▸ hAncSub ha)
  obtain ⟨g1, g2, g3, g4, g5⟩ := hwf.agg e he
  have hs1 : ∑ a ∈ CalculateMemPoolAncestors p e, sizeOfId (addPool4 p t) a
      = ∑ a ∈ CalculateMemPoolAncestors p e, sizeOfId p a :=
    Finset.sum_congr rfl (fun a ha => (statsOfId_addPool4 p t hfresh (hane a ha)).1)
  have hs2 : ∑ a ∈ CalculateMemPoolAncestors p e, feeCashOfId (addPool4 p t) a
      = ∑ a ∈ CalculateMemPoolAncestors p e, feeCashOfId p a :=
    Finset.sum_congr rfl (fun a ha => (statsOfId_addPool4 p t hfresh (hane a ha)).2.1)
  have hs3 : ∑ a ∈ CalculateMemPoolAncestors p e, feeBondOfId (addPool4 p t) a
      = ∑ a ∈ CalculateMemPoolAncestors p e, feeBondOfId p a :=
    Finset.sum_congr rfl (fun a ha => (statsOfId_addPool4 p t hfresh (hane a ha)).2.2.1)
  have hs4 : ∑ a ∈ CalculateMemPoolAncestors p e, sigOpCostOfId (addPool4 p t) a
      = ∑ a ∈ CalculateMemPoolAncestors p e, sigOpCostOfId p a :=
    Finset.sum_congr rfl (fun a ha => (statsOfId_addPool4 p t hfresh (hane a ha)).2.2.2)
  refine ⟨?_, ?_, ?_, ?_, ?_⟩
  · rw [hswa, hsz, hAncEq, hs1, g1]
  · rw [hfcwa, hfc, hAncEq, hs2, g2]
  · rw [hfbwa, hfb, hAncEq, hs3, g3]
  · rw [hsowa, hso, hAncEq, hs4, g4]
  · rw [hcwa, hAncEq, g5]

/-- The ancestor aggregates of the freshly inserted entry are consistent after
addUnchecked. -/
theorem aggOk_addPool4_new (p : List MEntry) (t : TxData) (hwf : PoolWF p)
    (hfresh : t.txid ∉ poolIds p) :
    AggOk (addPool4 p t) ((newEntry t (addParentIds p t)).updateAncestorState
      (∑ a ∈ addAncestorIds p t, sizeOfId (addPool3 p t) a)
      (∑ a ∈ addAncestorIds p t, feeCashOfId (addPool3 p t) a)
      (∑ a ∈ addAncestorIds p t, feeBondOfId (addPool3 p t) a)
      ((addAncestorIds p t).card : Int)
      (∑ a ∈ addAncestorIds p t, sigOpCostOfId (addPool3 p t) a)) := by
  have hAncEq : CalculateMemPoolAncestors (addPool4 p t)
      ((newEntry t (addParentIds p t)).updateAncestorState
        (∑ a ∈ addAncestorIds p t, sizeOfId (addPool3 p t) a)
        (∑ a ∈ addAncestorIds p t, feeCashOfId (addPool3 p t) a)
        (∑ a ∈ addAncestorIds p t, feeBondOfId (addPool3 p t) a)
        ((addAncestorIds p t).card : Int)
        (∑ a ∈ addAncestorIds p t, sigOpCostOfId (addPool3 p t) a))
      = addAncestorIds p t := by
    unfold CalculateMemPoolAncestors
    have hpar : ((newEntry t (addParentIds p t)).updateAncestorState
        (∑ a ∈ addAncestorIds p t, sizeOfId (addPool3 p t) a)
        (∑ a ∈ addAncestorIds p t, feeCashOfId (addPool3 p t) a)
        (∑ a ∈ addAncestorIds p t, feeBondOfId (addPool3 p t) a)
        ((addAncestorIds p t).card : Int)
        (∑ a ∈ addAncestorIds p t, sigOpCostOfId (addPool3 p t) a)).parents
        = addParentIds p t := rfl
    rw [hpar, calcAncestorsFrom_addPool4 p t hwf hfresh (addParentIds_subset p t)]
    rfl
  have hane : ∀ a ∈ addAncestorIds p t, a ≠ t.txid :=
    fun a ha h => hfresh (h ▸ addAncestorIds_subset p t hwf ha)
  have hs1 : ∑ a ∈ addAncestorIds p t, sizeOfId (addPool4 p t) a
      = ∑ a ∈ addAncestorIds p t, sizeOfId (addPool3 p t) a :=
    Finset.sum_congr rfl (fun a ha => by
      rw [(statsOfId_addPool4 p t hfresh (hane a ha)).1,
        (statsOfId_addPool3 p t hfresh (hane a ha)).1])
  have hs2 : ∑ a ∈ addAncestorIds p t, feeCashOfId (addPool4 p t) a
      = ∑ a ∈ addAncestorIds p t, feeCashOfId (addPool3 p t) a :=
    Finset.sum_congr rfl (fun a ha => by
      rw [(statsOfId_addPool4 p t hfresh (hane a ha)).2.1,
        (statsOfId_addPool3 p t hfresh (hane a ha)).2.1])
  have hs3 : ∑ a ∈ addAncestorIds p t, feeBondOfId (addPool4 p t) a
      = ∑ a ∈ addAncestorIds p t, feeBondOfId (addPool3 p t) a :=
    Finset.sum_congr rfl (fun a ha => by
      rw [(statsOfId_addPool4 p t hfresh (hane a ha)).2.2.1,
        (statsOfId_addPool3 p t hfresh (hane a ha)).2.2.1])
  have hs4 : ∑ a ∈ addAncestorIds p t, sigOpCostOfId (addPool4 p t) a
      = ∑ a ∈ addAncestorIds p t, sigOpCostOfId (addPool3 p t) a :=
    Finset.sum_congr rfl (fun a ha => by
      rw [(statsOfId_addPool4 p t hfresh (hane a ha)).2.2.2,
        (statsOfId_addPool3 p t hfresh (hane a ha)).2.2.2])
  refine ⟨?_, ?_, ?_, ?_, ?_⟩
  · show t.size + _ = t.size + _
    rw [hAncEq, hs1]
  · show t.feeCash + _ = t.feeCash + _
    rw [hAncEq, hs2]
  · show t.feeBond + _ = t.feeBond + _
    rw [hAncEq, hs3]
  · show t.sigOpCost + _ = t.sigOpCost + _
    rw [hAncEq, hs4]
  · show (1 : Int) + _ = 1 + _
    rw [hAncEq]

/-- CTxMemPool::addUnchecked preserves the pool invariant. -/
theorem addUnchecked_wf (p : List MEntry) (t : TxData) (hwf : PoolWF p) :
    PoolWF (addUnchecked p t) := by
  unfold addUnchecked
  by_cases hmem : t.txid ∈ poolIds p
  · rw [if_pos hmem]
    exact hwf
  · rw [if_neg hmem]
    have hfresh := hmem
    have hids := poolIds_addPool4 p t
    refine ⟨nodup_addPool4 p t hwf.nodup hfresh, ?_, ?_, ?_, ?_, ?_⟩
    · intro x hx
      rw [hids] at hx ⊢
      rcases Finset.mem_insert.mp hx with hx | hx
      · rw [parentsOf_addPool4 p t hwf hfresh x, if_pos hx]
        exact (addParentIds_subset p t).trans (Finset.subset_insert _ _)
      · rw [parentsOf_addPool4 p t hwf hfresh x,
          if_neg (show ¬(x = t.txid) from fun h => hfresh (h ▸ hx))]
        exact (hwf.parents_sub x hx).trans (Finset.subset_insert _ _)
    · intro x hx
      rw [hids] at hx ⊢
      rcases Finset.mem_insert.mp hx with hx | hx
      · rw [childrenOf_addPool4 p t hwf hfresh x, if_pos hx]
        exact Finset.empty_subset _
      · rw [childrenOf_addPool4 p t hwf hfresh x,
          if_neg (show ¬(x = t.txid) from fun h => hfresh (h ▸ hx))]
        by_cases hxP : x ∈ addParentIds p t
        · rw [if_pos hxP]
          intro y hy
          rcases Finset.mem_insert.mp hy with hy | hy
          · rw [hy]
            exact Finset.mem_insert_self _ _
          · exact Finset.mem_insert_of_mem (hwf.children_sub x hx hy)
        · rw [if_neg hxP]
          exact (hwf.children_sub x hx).trans (Finset.subset_insert _ _)
    · intro x hx q hq
      rw [hids] at hx
      rcases Finset.mem_insert.mp hx with hx | hx
      · rw [parentsOf_addPool4 p t hwf hfresh x, if_pos hx] at hq
        have hqp : q ∈ poolIds p := addParentIds_subset p t hq
        rw [childrenOf_addPool4 p t hwf hfresh q,
          if_neg (show ¬(q = t.txid) from fun h => hfresh (h ▸ hqp)), if_pos hq, hx]
        exact Finset.mem_insert_self _ _
      · have hxne : x ≠ t.txid := fun h => hfresh (h ▸ hx)
        rw [parentsOf_addPool4 p t hwf hfresh x, if_neg hxne] at hq
        have hqp : q ∈ poolIds p := hwf.parents_sub x hx hq
        have hqne : q ≠ t.txid := fun h => hfresh (h ▸ hqp)
        have hxc := hwf.par_child x hx q hq
        rw [childrenOf_addPool4 p t hwf hfresh q, if_neg hqne]
        by_cases hqP : q ∈ addParentIds p t
        · rw [if_pos hqP]
          exact Finset.mem_insert_of_mem hxc
        · rw [if_neg hqP]
          exact hxc
    · intro x hx c hc
      rw [hids] at hx
      rcases Finset.mem_insert.mp hx with hx | hx
      · rw [childrenOf_addPool4 p t hwf hfresh x, if_pos hx] at hc
        exact absurd hc (Finset.not_mem_empty c)
      · have hxne : x ≠ t.txid := fun h => hfresh (h ▸ hx)
        rw [childrenOf_addPool4 p t hwf hfresh x, if_neg hxne] at hc
        by_cases hxP : x ∈ addParentIds p t
        · rw [if_pos hxP] at hc
          rcases Finset.mem_insert.mp hc with hc | hc
          · rw [parentsOf_addPool4 p t hwf hfresh c, if_pos hc]
            exact hxP
          · have hcp : c ∈ poolIds p := hwf.children_sub x hx hc
            have hcne : c ≠ t.txid := fun h => hfresh (h ▸ hcp)
            rw [parentsOf_addPool4 p t hwf hfresh c, if_neg hcne]
            exact hwf.child_par x hx c hc
        · rw [if_neg hxP] at hc
          have hcp := hwf.children_sub x hx hc
          have hcne : c ≠ t.txid := fun h => hfresh (h ▸ hcp)
          rw [parentsOf_addPool4 p t hwf hfresh c, if_neg hcne]
          exact hwf.child_par x hx c hc
    · intro e2 he2
      rcases mem_addPool4_elim p t hwf hfresh he2 with heq | ⟨e, he, heq⟩
      · rw [heq]
        exact aggOk_addPool4_new p t hwf hfresh
      · rw [heq]
        exact aggOk_addPool4_old p t hwf hfresh he

/-- A worklist walk with nothing staged returns its accumulator. -/
theorem closureAux_empty_stage (adj : Nat → Finset Nat) (fuel : Nat) (acc : Finset Nat) :
    closureAux adj fuel ∅ acc = acc := by
  cases fuel with
  | zero => simp [closureAux]
  | succ n => simp [closureAux]

/-- The ancestor walk from an empty staged set is empty. -/
theorem calcAncestorsFrom_empty (p : List MEntry) : calcAncestorsFrom p ∅ = ∅ :=
  closureAux_empty_stage _ _ _

/-- Sorted extraction of the empty set. -/
theorem sortedIds_empty : sortedIds (∅ : Finset Nat) = [] := by
  simp [sortedIds, sortedIdsAux]

/-- Sorted extraction of a singleton. -/
theorem sortedIds_singleton (i : Nat) : sortedIds {i} = [i] := by
  simp [sortedIds, sortedIdsAux, Finset.min'_singleton]

/-- The sorted extraction carries exactly the set. -/
theorem sortedIds_toFinset (S : Finset Nat) : (sortedIds S).toFinset = S := by
  ext z
  rw [List.mem_toFinset, sortedIds_mem]

/-- Lookup is unchanged by a filter that keeps every entry with the looked-up id. -/
theorem lookupEntry_filter_keep (q : List MEntry) (f : MEntry → Bool) (j : Nat)
    (hf : ∀ e, e.txid = j → f e = true) :
    lookupEntry (q.filter f) j = lookupEntry q j := by
  induction q with
  | nil => rfl
  | cons x xs ih =>
    by_cases hx : (x.txid == j) = true
    · have hxj : x.txid = j := by simpa using hx
      have hfx : f x = true := hf x hxj
      simp only [lookupEntry, List.filter_cons, hfx, if_true, List.find?, hx]
    · rw [Bool.not_eq_true] at hx
      cases hfx : f x with
      | true =>
        simp only [lookupEntry, List.filter_cons, hfx, if_true, List.find?, hx]
        exact ih
      | false =>
        have hfilter : List.filter f (x :: xs) = List.filter f xs := by
          rw [List.filter_cons, if_neg (by simp [hfx])]
        rw [show lookupEntry ((x :: xs).filter f) j = lookupEntry (xs.filter f) j from by
          rw [hfilter], ih]
        simp only [lookupEntry, List.find?]
        rw [hx]

/-- Ids after dropping the staged entries. -/
theorem poolIds_filter_drop (q : List MEntry) (S : Finset Nat) :
    poolIds (q.filter (fun e => decide (e.txid ∉ S))) = poolIds q \ S := by
  ext j
  simp only [poolIds, List.mem_toFinset, List.mem_map, List.mem_filter, Finset.mem_sdiff]
  constructor
  · rintro ⟨e, ⟨he, hdec⟩, htx⟩
    exact ⟨⟨e, he, htx⟩, htx ▸ of_decide_eq_true hdec⟩
  · rintro ⟨⟨e, he, htx⟩, hnotS⟩
    exact ⟨e, ⟨he, decide_eq_true (htx ▸ hnotS)⟩, htx⟩

/-- Filtering keeps the id list duplicate-free. -/
theorem nodup_filter_txid (q : List MEntry) (f : MEntry → Bool)
    (h : (q.map MEntry.txid).Nodup) : ((q.filter f).map MEntry.txid).Nodup :=
  List.Nodup.sublist (List.Sublist.map MEntry.txid (List.filter_sublist q)) h

/-- Pulling one id out of a set difference. -/
theorem sdiff_erase_insert (A D : Finset Nat) (rid : Nat) :
    (A \ D).erase rid = A \ insert rid D := by
  ext z
  simp only [Finset.mem_erase, Finset.mem_sdiff, Finset.mem_insert, not_or]
  tauto

/-- Relation between an original entry and its state during the
UpdateAncestorsOf(false) phase of RemoveStaged, after the staged ids in D have
been processed: only the child links (by erasure of D) and the descendant
aggregates have changed. -/
def entryEq2 (D : Finset Nat) (e0 e : MEntry) : Prop :=
  e.txid = e0.txid ∧ e.parents = e0.parents ∧ e.children = e0.children \ D ∧
  e.size = e0.size ∧ e.feeCash = e0.feeCash ∧ e.feeBond = e0.feeBond ∧
  e.sigOpCost = e0.sigOpCost ∧
  e.sizeWithAncestors = e0.sizeWithAncestors ∧
  e.feeCashWithAncestors = e0.feeCashWithAncestors ∧
  e.feeBondWithAncestors = e0.feeBondWithAncestors ∧
  e.countWithAncestors = e0.countWithAncestors ∧
  e.sigOpCostWithAncestors = e0.sigOpCostWithAncestors

/-- Pool-wide invariant of the UpdateAncestorsOf(false) phase. -/
def Inv2 (p : List MEntry) (D : Finset Nat) (q : List MEntry) : Prop :=
  q.map MEntry.txid = p.map MEntry.txid ∧
  ∀ j e0, lookupEntry p j = some e0 → ∃ e, lookupEntry q j = some e ∧ entryEq2 D e0 e

/-- The phase starts in the untouched pool. -/
theorem inv2_init (p : List MEntry) : Inv2 p ∅ p :=
  ⟨rfl, fun _ e0 h => ⟨e0, h, by simp [entryEq2]⟩⟩

/-- Descendant-state updates respect the phase relation. -/
theorem entryEq2_updateDescendantState {D : Finset Nat} {e0 e : MEntry}
    (h : entryEq2 D e0 e) (a b c d : Int) :
    entryEq2 D e0 (e.updateDescendantState a b c d) := h

/-- Erasing the staged id from the child links advances the phase relation. -/
theorem entryEq2_eraseChild {D : Finset Nat} {e0 e : MEntry} {rid : Nat}
    (h : entryEq2 D e0 e) :
    entryEq2 (insert rid D) e0 { e with children := e.children.erase rid } := by
  obtain ⟨h1, h2, h3, h4, h5, h6, h7, h8, h9, h10, h11, h12⟩ := h
  refine ⟨h1, h2, ?_, h4, h5, h6, h7, h8, h9, h10, h11, h12⟩
  show e.children.erase rid = _
  rw [h3, sdiff_erase_insert]

/-- An entry that never had the staged id as a child also advances. -/
theorem entryEq2_insert_of_notmem {D : Finset Nat} {e0 e : MEntry} {rid : Nat}
    (h : entryEq2 D e0 e) (hn : rid ∉ e0.children) : entryEq2 (insert rid D) e0 e := by
  obtain ⟨h1, h2, h3, h4, h5, h6, h7, h8, h9, h10, h11, h12⟩ := h
  refine ⟨h1, h2, ?_, h4, h5, h6, h7, h8, h9, h10, h11, h12⟩
  rw [h3]
  ext z
  simp only [Finset.mem_sdiff, Finset.mem_insert, not_or]
  constructor
  · rintro ⟨hz, hzD⟩
    exact ⟨hz, fun h => hn (h ▸ hz), hzD⟩
  · rintro ⟨hz, _, hzD⟩
    exact ⟨hz, hzD⟩

/-- One UpdateAncestorsOf(false) step preserves the phase invariant. -/
theorem removeStep2_inv (p : List MEntry) (hwf : PoolWF p) {D : Finset Nat}
    {q : List MEntry} (hq : Inv2 p D q) {rid : Nat} (hrid : rid ∈ poolIds p) :
    Inv2 p (insert rid D) (removeStep2 q rid) := by
  obtain ⟨hmap, hrel⟩ := hq
  obtain ⟨r0, hr0⟩ : ∃ r0, lookupEntry p rid = some r0 := by
    cases hcase : lookupEntry p rid with
    | none =>
      rw [mem_poolIds_iff_lookup, hcase] at hrid
      simp at hrid
    | some r0 => exact ⟨r0, rfl⟩
  obtain ⟨r, hr, hrEq⟩ := hrel rid r0 hr0
  have hrw : removeStep2 q rid = foldUpdate
      (foldUpdate q (sortedIds r.parents) (fun _ pe =>
        { pe with children := pe.children.erase rid }))
      (sortedIds (CalculateMemPoolAncestors q r)) (fun _ ae =>
        ae.updateDescendantState (-r.size) (-r.feeCash) (-r.feeBond) (-1)) := by
    unfold removeStep2
    rw [hr]
  have hF1 : ∀ (i : Nat) (e : MEntry), ((fun (_ : Nat) (pe : MEntry) =>
      { pe with children := pe.children.erase rid }) i e).txid = e.txid := fun _ _ => rfl
  have hF2 : ∀ (i : Nat) (e : MEntry), ((fun (_ : Nat) (ae : MEntry) =>
      ae.updateDescendantState (-r.size) (-r.feeCash) (-r.feeBond) (-1)) i e).txid
        = e.txid := fun _ _ => rfl
  rw [hrw]
  constructor
  · rw [map_txid_foldUpdate hF2, map_txid_foldUpdate hF1, hmap]
  · intro j e0 he0
    obtain ⟨e, he, heq⟩ := hrel j e0 he0
    have hjp : j ∈ poolIds p := mem_poolIds_iff_lookup.mpr (by rw [he0]; rfl)
    have hparents0 : parentsOf p rid = r0.parents := by
      unfold parentsOf
      rw [hr0]
    have hrparents : r.parents = r0.parents := hrEq.2.1
    have hnrc : j ∉ r.parents → rid ∉ e0.children := by
      intro h1 hmem
      have hchild : rid ∈ childrenOf p j := by
        unfold childrenOf
        rw [he0]
        exact hmem
      have hjpar := hwf.child_par j hjp rid hchild
      rw [hparents0] at hjpar
      rw [hrparents] at h1
      exact h1 hjpar
    rw [lookupEntry_foldUpdate (sortedIds_nodup _) hF2,
        lookupEntry_foldUpdate (sortedIds_nodup _) hF1]
    simp only [sortedIds_mem]
    by_cases h1 : j ∈ r.parents
    · rw [if_pos h1]
      by_cases h2 : j ∈ CalculateMemPoolAncestors q r
      · rw [if_pos h2, he]
        exact ⟨_, rfl, entryEq2_updateDescendantState (entryEq2_eraseChild heq) _ _ _ _⟩
      · rw [if_neg h2, he]
        exact ⟨_, rfl, entryEq2_eraseChild heq⟩
    · rw [if_neg h1]
      by_cases h2 : j ∈ CalculateMemPoolAncestors q r
      · rw [if_pos h2, he]
        exact ⟨_, rfl,
          entryEq2_updateDescendantState (entryEq2_insert_of_notmem heq (hnrc h1)) _ _ _ _⟩
      · rw [if_neg h2, he]
        exact ⟨_, rfl, entryEq2_insert_of_notmem heq (hnrc h1)⟩

/-- The UpdateAncestorsOf(false) phase invariant holds after processing any list of
pool ids. -/
theorem step2_fold_inv (p : List MEntry) (hwf : PoolWF p) :
    ∀ (L : List Nat) (D : Finset Nat) (q : List MEntry), (∀ x ∈ L, x ∈ poolIds p) →
      Inv2 p D q → Inv2 p (D ∪ L.toFinset) (L.foldl removeStep2 q) := by
  intro L
  induction L with
  | nil =>
    intro D q _ hq
    rw [List.toFinset_nil, Finset.union_empty]
    exact hq
  | cons a L ih =>
    intro D q hL hq
    have h1 := removeStep2_inv p hwf hq (hL a (List.mem_cons_self a L))
    have h2 := ih (insert a D) (removeStep2 q a)
      (fun x hx => hL x (List.mem_cons_of_mem a hx)) h1
    have hset : D ∪ (a :: L).toFinset = insert a D ∪ L.toFinset := by
      ext z
      simp only [List.toFinset_cons, Finset.mem_union, Finset.mem_insert]
      tauto
    rw [hset]
    exact h2

/-- Relation between an original entry and its state during the
UpdateChildrenForRemoval phase, after the staged ids in E (out of the full staged
set S) have been processed: child links have lost all of S, parent links of
surviving entries have lost E, and nothing else has moved apart from the
descendant aggregates. -/
def entryEq3 (S E : Finset Nat) (e0 e : MEntry) : Prop :=
  e.txid = e0.txid ∧
  e.parents = (if e0.txid ∈ S then e0.parents else e0.parents \ E) ∧
  e.children = e0.children \ S ∧
  e.size = e0.size ∧ e.feeCash = e0.feeCash ∧ e.feeBond = e0.feeBond ∧
  e.sigOpCost = e0.sigOpCost ∧
  e.sizeWithAncestors = e0.sizeWithAncestors ∧
  e.feeCashWithAncestors = e0.feeCashWithAncestors ∧
  e.feeBondWithAncestors = e0.feeBondWithAncestors ∧
  e.countWithAncestors = e0.countWithAncestors ∧
  e.sigOpCostWithAncestors = e0.sigOpCostWithAncestors

/-- Pool-wide invariant of the UpdateChildrenForRemoval phase. -/
def Inv3 (p : List MEntry) (S E : Finset Nat) (q : List MEntry) : Prop :=
  q.map MEntry.txid = p.map MEntry.txid ∧
  ∀ j e0, lookupEntry p j = some e0 → ∃ e, lookupEntry q j = some e ∧ entryEq3 S E e0 e

/-- The child-unlink phase starts where the previous phase finished. -/
theorem inv3_init (p : List MEntry) (S : Finset Nat) {q : List MEntry}
    (hq : Inv2 p S q) : Inv3 p S ∅ q := by
  obtain ⟨hmap, hrel⟩ := hq
  refine ⟨hmap, fun j e0 he0 => ?_⟩
  obtain ⟨e, he, heq⟩ := hrel j e0 he0
  obtain ⟨h1, h2, h3, h4, h5, h6, h7, h8, h9, h10, h11, h12⟩ := heq
  refine ⟨e, he, h1, ?_, h3, h4, h5, h6, h7, h8, h9, h10, h11, h12⟩
  rw [h2]
  by_cases hS : e0.txid ∈ S
  · rw [if_pos hS]
  · rw [if_neg hS, Finset.sdiff_empty]

/-- One UpdateChildrenForRemoval step preserves the phase invariant. -/
theorem removeStep3_inv (p : List MEntry) (hwf : PoolWF p) {S E : Finset Nat}
    {q : List MEntry} (hq : Inv3 p S E q) {rid : Nat} (hridS : rid ∈ S)
    (hrid : rid ∈ poolIds p) :
    Inv3 p S (insert rid E) (removeStep3 q rid) := by
  obtain ⟨hmap, hrel⟩ := hq
  obtain ⟨r0, hr0⟩ : ∃ r0, lookupEntry p rid = some r0 := by
    cases hcase : lookupEntry p rid with
    | none =>
      rw [mem_poolIds_iff_lookup, hcase] at hrid
      simp at hrid
    | some r0 => exact ⟨r0, rfl⟩
  obtain ⟨r, hr, hrEq⟩ := hrel rid r0 hr0
  have hchild0 : childrenOf p rid = r0.children := by
    unfold childrenOf
    rw [hr0]
  have hrchildren : r.children = r0.children \ S := hrEq.2.2.1
  have hrw : removeStep3 q rid = foldUpdate q (sortedIds r.children) (fun _ ce =>
      { ce with parents := ce.parents.erase rid }) := by
    unfold removeStep3
    rw [hr]
  have hF : ∀ (i : Nat) (e : MEntry), ((fun (_ : Nat) (ce : MEntry) =>
      { ce with parents := ce.parents.erase rid }) i e).txid = e.txid := fun _ _ => rfl
  rw [hrw]
  constructor
  · rw [map_txid_foldUpdate hF, hmap]
  · intro j e0 he0
    obtain ⟨e, he, heq⟩ := hrel j e0 he0
    obtain ⟨h1, h2, h3, h4, h5, h6, h7, h8, h9, h10, h11, h12⟩ := heq
    have hjp : j ∈ poolIds p := mem_poolIds_iff_lookup.mpr (by rw [he0]; rfl)
    have htxj : e0.txid = j := (lookupEntry_eq_some he0).2
    rw [lookupEntry_foldUpdate (sortedIds_nodup _) hF]
    simp only [sortedIds_mem]
    by_cases hmem : j ∈ r.children
    · rw [if_pos hmem, he]
      -- j is a surviving child of rid: it is not staged and its parents lose rid
      have hjS : j ∉ S := by
        rw [hrchildren] at hmem
        exact (Finset.mem_sdiff.mp hmem).2
      refine ⟨_, rfl, h1, ?_, h3, h4, h5, h6, h7, h8, h9, h10, h11, h12⟩
      show e.parents.erase rid = _
      rw [h2, if_neg (htxj ▸ hjS), if_neg (htxj ▸ hjS), sdiff_erase_insert]
    · rw [if_neg hmem, he]
      refine ⟨_, rfl, h1, ?_, h3, h4, h5, h6, h7, h8, h9, h10, h11, h12⟩
      rw [h2]
      by_cases hjS : e0.txid ∈ S
      · rw [if_pos hjS, if_pos hjS]
      · rw [if_neg hjS, if_neg hjS]
        -- rid is not a parent of j, else j would be one of rid's remaining children
        have hnp : rid ∉ e0.parents := by
          intro hpmem
          have hpar : rid ∈ parentsOf p j := by
            unfold parentsOf
            rw [he0]
            exact hpmem
          have hc := hwf.par_child j hjp rid hpar
          rw [hchild0] at hc
          apply hmem
          rw [hrchildren, Finset.mem_sdiff]
          exact ⟨hc, htxj ▸ hjS⟩
        ext z
        simp only [Finset.mem_sdiff, Finset.mem_insert, not_or]
        constructor
        · rintro ⟨hz, hzE⟩
          exact ⟨hz, fun h => hnp (h ▸ hz), hzE⟩
        · rintro ⟨hz, _, hzE⟩
          exact ⟨hz, hzE⟩

/-- The UpdateChildrenForRemoval phase invariant holds after processing any list of
staged pool ids. -/
theorem step3_fold_inv (p : List MEntry) (hwf : PoolWF p) (S : Finset Nat) :
    ∀ (L : List Nat) (E : Finset Nat) (q : List MEntry),
      (∀ x ∈ L, x ∈ S ∧ x ∈ poolIds p) →
      Inv3 p S E q → Inv3 p S (E ∪ L.toFinset) (L.foldl removeStep3 q) := by
  intro L
  induction L with
  | nil =>
    intro E q _ hq
    rw [List.toFinset_nil, Finset.union_empty]
    exact hq
  | cons a L ih =>
    intro E q hL hq
    obtain ⟨haS, hap⟩ := hL a (List.mem_cons_self a L)
    have h1 := removeStep3_inv p hwf hq haS hap
    have h2 := ih (insert a E) (removeStep3 q a)
      (fun x hx => hL x (List.mem_cons_of_mem a hx)) h1
    have hset : E ∪ (a :: L).toFinset = insert a E ∪ L.toFinset := by
      ext z
      simp only [List.toFinset_cons, Finset.mem_union, Finset.mem_insert]
      tauto
    rw [hset]
    exact h2

/-- A set difference by a disjoint set is trivial. -/
theorem sdiff_eq_self_of_disj (A S : Finset Nat) (h : ∀ a ∈ A, a ∉ S) : A \ S = A := by
  ext z
  simp only [Finset.mem_sdiff]
  exact ⟨fun hz => hz.1, fun hz => ⟨hz, h z hz⟩⟩

/-- RemoveStaged without the descendant pass, unfolded. -/
theorem RemoveStaged_false_eq (p : List MEntry) (S : Finset Nat) :
    RemoveStaged p S false =
      ((sortedIds S).foldl removeStep3 ((sortedIds S).foldl removeStep2 p)).filter
        (fun e => decide (e.txid ∉ S)) := rfl

/-- Both unlink phases together satisfy the phase-3 invariant with everything
staged processed. -/
theorem inv3_removeStaged_false (p : List MEntry) (hwf : PoolWF p) (S : Finset Nat)
    (hS : S ⊆ poolIds p) :
    Inv3 p S S ((sortedIds S).foldl removeStep3 ((sortedIds S).foldl removeStep2 p)) := by
  have h2 := step2_fold_inv p hwf (sortedIds S) ∅ p
    (fun x hx => hS ((sortedIds_mem S x).mp hx)) (inv2_init p)
  rw [Finset.empty_union, sortedIds_toFinset] at h2
  have h3 := step3_fold_inv p hwf S (sortedIds S) ∅ _
    (fun x hx => ⟨(sortedIds_mem S x).mp hx, hS ((sortedIds_mem S x).mp hx)⟩)
    (inv3_init p S h2)
  rwa [Finset.empty_union, sortedIds_toFinset] at h3

/-- RemoveStaged with updateDescendants = false preserves the pool invariant
whenever the staged set is closed under child links (as arranged by every caller,
which stages full descendant closures). -/
theorem RemoveStaged_false_wf (p : List MEntry) (hwf : PoolWF p) (S : Finset Nat)
    (hS : S ⊆ poolIds p) (hclosed : ∀ x ∈ S, childrenOf p x ⊆ S) :
    PoolWF (RemoveStaged p S false) := by
  obtain ⟨hmap3, hrel3⟩ := inv3_removeStaged_false p hwf S hS
  have heq := RemoveStaged_false_eq p S
  have hlkF : ∀ j, j ∉ S → lookupEntry (RemoveStaged p S false) j =
      lookupEntry ((sortedIds S).foldl removeStep3 ((sortedIds S).foldl removeStep2 p)) j := by
    intro j hj
    rw [heq]
    exact lookupEntry_filter_keep _ _ j (fun e hetx => decide_eq_true (hetx ▸ hj))
  have hids : poolIds (RemoveStaged p S false) = poolIds p \ S := by
    rw [heq, poolIds_filter_drop]
    unfold poolIds
    rw [hmap3]
  have hsurv : ∀ j ∈ poolIds p, j ∉ S → ∃ e0 e, lookupEntry p j = some e0 ∧
      lookupEntry (RemoveStaged p S false) j = some e ∧ entryEq3 S S e0 e := by
    intro j hj hjS
    obtain ⟨e0, he0⟩ : ∃ e0, lookupEntry p j = some e0 := by
      cases hcase : lookupEntry p j with
      | none =>
        rw [mem_poolIds_iff_lookup, hcase] at hj
        simp at hj
      | some e0 => exact ⟨e0, rfl⟩
    obtain ⟨e, he, heq3⟩ := hrel3 j e0 he0
    exact ⟨e0, e, he0, by rw [hlkF j hjS]; exact he, heq3⟩
  have hparS : ∀ j ∈ poolIds p, j ∉ S → ∀ a ∈ parentsOf p j, a ∉ S := by
    intro j hj hjS a ha haS
    exact hjS (hclosed a haS (hwf.par_child j hj a ha))
  have hparF : ∀ j ∈ poolIds p, j ∉ S →
      parentsOf (RemoveStaged p S false) j = parentsOf p j := by
    intro j hj hjS
    obtain ⟨e0, e, he0, he, heq3⟩ := hsurv j hj hjS
    have htxj : e0.txid = j := (lookupEntry_eq_some he0).2
    have hp0 : parentsOf p j = e0.parents := by
      unfold parentsOf
      rw [he0]
    have hpF : parentsOf (RemoveStaged p S false) j = e.parents := by
      unfold parentsOf
      rw [he]
    rw [hpF, heq3.2.1, if_neg (htxj ▸ hjS), hp0]
    exact sdiff_eq_self_of_disj _ _ (fun a ha => hparS j hj hjS a (by rw [hp0]; exact ha))
  have hchF : ∀ j ∈ poolIds p, j ∉ S →
      childrenOf (RemoveStaged p S false) j = childrenOf p j \ S := by
    intro j hj hjS
    obtain ⟨e0, e, he0, he, heq3⟩ := hsurv j hj hjS
    have hc0 : childrenOf p j = e0.children := by
      unfold childrenOf
      rw [he0]
    have hcF : childrenOf (RemoveStaged p S false) j = e.children := by
      unfold childrenOf
      rw [he]
    rw [hcF, heq3.2.2.1, hc0]
  have hnodF : ((RemoveStaged p S false).map MEntry.txid).Nodup := by
    rw [heq]
    exact nodup_filter_txid _ _ (by rw [hmap3]; exact hwf.nodup)
  have hsubF : ∀ x ∈ poolIds (RemoveStaged p S false),
      parentsOf (RemoveStaged p S false) x ⊆ poolIds (RemoveStaged p S false) := by
    intro x hx
    rw [hids] at hx ⊢
    obtain ⟨hxp, hxS⟩ := Finset.mem_sdiff.mp hx
    rw [hparF x hxp hxS]
    intro a ha
    exact Finset.mem_sdiff.mpr ⟨hwf.parents_sub x hxp ha, hparS x hxp hxS a ha⟩
  have hchsubF : ∀ x ∈ poolIds (RemoveStaged p S false),
      childrenOf (RemoveStaged p S false) x ⊆ poolIds (RemoveStaged p S false) := by
    intro x hx
    rw [hids] at hx ⊢
    obtain ⟨hxp, hxS⟩ := Finset.mem_sdiff.mp hx
    rw [hchF x hxp hxS]
    intro a ha
    obtain ⟨ha1, ha2⟩ := Finset.mem_sdiff.mp ha
    exact Finset.mem_sdiff.mpr ⟨hwf.children_sub x hxp ha1, ha2⟩
  have hpcF : ∀ x ∈ poolIds (RemoveStaged p S false),
      ∀ a ∈ parentsOf (RemoveStaged p S false) x, x ∈ childrenOf (RemoveStaged p S false) a := by
    intro x hx a ha
    rw [hids] at hx
    obtain ⟨hxp, hxS⟩ := Finset.mem_sdiff.mp hx
    rw [hparF x hxp hxS] at ha
    have hap : a ∈ poolIds p := hwf.parents_sub x hxp ha
    have haS : a ∉ S := hparS x hxp hxS a ha
    rw [hchF a hap haS]
    exact Finset.mem_sdiff.mpr ⟨hwf.par_child x hxp a ha, hxS⟩
  have hcpF : ∀ x ∈ poolIds (RemoveStaged p S false),
      ∀ c ∈ childrenOf (RemoveStaged p S false) x, x ∈ parentsOf (RemoveStaged p S false) c := by
    intro x hx c hc
    rw [hids] at hx
    obtain ⟨hxp, hxS⟩ := Finset.mem_sdiff.mp hx
    rw [hchF x hxp hxS] at hc
    obtain ⟨hc1, hcS⟩ := Finset.mem_sdiff.mp hc
    have hcp : c ∈ poolIds p := hwf.children_sub x hxp hc1
    rw [hparF c hcp hcS]
    exact hwf.child_par x hxp c hc1
  refine ⟨hnodF, hsubF, hchsubF, hpcF, hcpF, ?_⟩
  intro e2 he2
  have hlk2 := lookupEntry_self hnodF he2
  have hjF : e2.txid ∈ poolIds (RemoveStaged p S false) :=
    mem_poolIds_iff_lookup.mpr (by rw [hlk2]; rfl)
  rw [hids] at hjF
  obtain ⟨hjp, hjS⟩ := Finset.mem_sdiff.mp hjF
  obtain ⟨e0, e, he0, he, heq3⟩ := hsurv e2.txid hjp hjS
  obtain ⟨h1, h2, h3, h4, h5, h6, h7, h8, h9, h10, h11, h12⟩ := heq3
  have he2e : e = e2 := by
    rw [hlk2] at he
    exact (Option.some.inj he).symm
  subst he2e
  have htxj : e0.txid = e.txid := (lookupEntry_eq_some he0).2
  have he0mem : e0 ∈ p := (lookupEntry_eq_some he0).1
  have hp0 : parentsOf p e.txid = e0.parents := by
    unfold parentsOf
    rw [he0]
  have hepar : e.parents = e0.parents := by
    rw [h2, if_neg (htxj ▸ hjS)]
    exact sdiff_eq_self_of_disj _ _
      (fun a ha => hparS e.txid hjp hjS a (by rw [hp0]; exact ha))
  have hstage : e0.parents ⊆ poolIds p \ S := by
    intro a ha
    refine Finset.mem_sdiff.mpr ⟨hwf.parents_sub e.txid hjp (by rw [hp0]; exact ha), ?_⟩
    exact hparS e.txid hjp hjS a (by rw [hp0]; exact ha)
  have hTclosed : ∀ x ∈ poolIds p \ S, parentsOf p x ⊆ poolIds p \ S := by
    intro x hx a ha
    obtain ⟨hxp, hxS⟩ := Finset.mem_sdiff.mp hx
    exact Finset.mem_sdiff.mpr ⟨hwf.parents_sub x hxp ha, hparS x hxp hxS a ha⟩
  have hagree : ∀ x ∈ poolIds p \ S,
      parentsOf (RemoveStaged p S false) x = parentsOf p x := by
    intro x hx
    obtain ⟨hxp, hxS⟩ := Finset.mem_sdiff.mp hx
    exact hparF x hxp hxS
  have hTclosedF : ∀ x ∈ poolIds p \ S,
      parentsOf (RemoveStaged p S false) x ⊆ poolIds p \ S := by
    intro x hx
    rw [hagree x hx]
    exact hTclosed x hx
  have hAncEq : CalculateMemPoolAncestors (RemoveStaged p S false) e
      = CalculateMemPoolAncestors p e0 := by
    unfold CalculateMemPoolAncestors
    rw [hepar]
    ext y
    rw [calcAncestorsFrom_spec (RemoveStaged p S false) e0.parents hsubF
        (by rw [hids]; exact hstage) y,
      calcAncestorsFrom_spec p e0.parents hwf.parents_sub
        (fun a ha => (Finset.mem_sdiff.mp (hstage ha)).1) y]
    exact reachableFrom_congr (parentsOf (RemoveStaged p S false)) (parentsOf p)
      (poolIds p \ S) hagree hTclosedF hstage y
  have hAncT : CalculateMemPoolAncestors p e0 ⊆ poolIds p \ S := by
    intro y hy
    have hr := (calcAncestorsFrom_spec p e0.parents hwf.parents_sub
      (fun a ha => (Finset.mem_sdiff.mp (hstage ha)).1) y).mp hy
    exact reachableFrom_mem_closed (parentsOf p) (poolIds p \ S) hTclosed hstage y hr
  have hstats : ∀ a ∈ CalculateMemPoolAncestors p e0,
      sizeOfId (RemoveStaged p S false) a = sizeOfId p a ∧
      feeCashOfId (RemoveStaged p S false) a = feeCashOfId p a ∧
      feeBondOfId (RemoveStaged p S false) a = feeBondOfId p a ∧
      sigOpCostOfId (RemoveStaged p S false) a = sigOpCostOfId p a := by
    intro a ha
    obtain ⟨hap, haS⟩ := Finset.mem_sdiff.mp (hAncT ha)
    obtain ⟨f0, f, hf0, hf, hfeq⟩ := hsurv a hap haS
    unfold sizeOfId feeCashOfId feeBondOfId sigOpCostOfId
    rw [hf, hf0]
    exact ⟨hfeq.2.2.2.1, hfeq.2.2.2.2.1, hfeq.2.2.2.2.2.1, hfeq.2.2.2.2.2.2.1⟩
  obtain ⟨g1, g2, g3, g4, g5⟩ := hwf.agg e0 he0mem
  refine ⟨?_, ?_, ?_, ?_, ?_⟩
  · rw [h8, hAncEq, h4, g1]
    exact congrArg (e0.size + ·)
      (Finset.sum_congr rfl (fun a ha => ((hstats a ha).1).symm))
  · rw [h9, hAncEq, h5, g2]
    exact congrArg (e0.feeCash + ·)
      (Finset.sum_congr rfl (fun a ha => ((hstats a ha).2.1).symm))
  · rw [h10, hAncEq, h6, g3]
    exact congrArg (e0.feeBond + ·)
      (Finset.sum_congr rfl (fun a ha => ((hstats a ha).2.2.1).symm))
  · rw [h12, hAncEq, h7, g4]
    exact congrArg (e0.sigOpCost + ·)
      (Finset.sum_congr rfl (fun a ha => ((hstats a ha).2.2.2).symm))
  · rw [h11, hAncEq, g5]

/-- CalculateDescendants grows a child-closed accumulator of pool ids into a
child-closed set of pool ids. -/
theorem calculateDescendants_closed (p : List MEntry) (hwf : PoolWF p) (i : Nat)
    (acc : Finset Nat) (hi : i ∈ poolIds p) (haccS : acc ⊆ poolIds p)
    (haccC : ∀ x ∈ acc, childrenOf p x ⊆ acc) :
    CalculateDescendants p i acc ⊆ poolIds p ∧
    ∀ x ∈ CalculateDescendants p i acc, childrenOf p x ⊆ CalculateDescendants p i acc := by
  have hspec := calculateDescendants_spec p i acc hwf.children_sub hi haccS haccC
  constructor
  · intro y hy
    rcases (hspec y).mp hy with hy | hy
    · exact haccS hy
    · exact reachableFrom_mem_closed (childrenOf p) (poolIds p) hwf.children_sub
        (fun z hz => (Finset.mem_singleton.mp hz) ▸ hi) y hy
  · intro x hx c hc
    rcases (hspec x).mp hx with hx2 | hx2
    · exact (hspec c).mpr (Or.inl (haccC x hx2 hc))
    · obtain ⟨z, hz, hpath⟩ := hx2
      exact (hspec c).mpr (Or.inr ⟨z, hz, hpath.tail hc⟩)

/-- Folding CalculateDescendants over pool ids yields a child-closed set of pool
ids. -/
theorem foldDescendants_closed (p : List MEntry) (hwf : PoolWF p) :
    ∀ (L : List Nat) (acc : Finset Nat), (∀ x ∈ L, x ∈ poolIds p) →
      acc ⊆ poolIds p → (∀ x ∈ acc, childrenOf p x ⊆ acc) →
      (L.foldl (fun acc i => CalculateDescendants p i acc) acc ⊆ poolIds p ∧
       ∀ x ∈ L.foldl (fun acc i => CalculateDescendants p i acc) acc,
         childrenOf p x ⊆ L.foldl (fun acc i => CalculateDescendants p i acc) acc) := by
  intro L
  induction L with
  | nil =>
    intro acc _ haccS haccC
    exact ⟨haccS, haccC⟩
  | cons a L ih =>
    intro acc hL haccS haccC
    have ha := hL a (List.mem_cons_self a L)
    obtain ⟨h1, h2⟩ := calculateDescendants_closed p hwf a acc ha haccS haccC
    exact ih (CalculateDescendants p a acc) (fun x hx => hL x (List.mem_cons_of_mem a hx))
      h1 h2

set_option maxHeartbeats 1000000 in
/-- CTxMemPool::removeRecursive preserves the pool invariant. -/
theorem removeRecursive_wf (p : List MEntry) (hwf : PoolWF p) (origTxid : Nat) :
    PoolWF (removeRecursive p origTxid) := by
  have hTsub : (if origTxid ∈ poolIds p then ({origTxid} : Finset Nat)
      else ((p.filter (fun e => decide (origTxid ∈ e.txInputs))).map MEntry.txid).toFinset)
      ⊆ poolIds p := by
    by_cases h : origTxid ∈ poolIds p
    · rw [if_pos h]
      intro z hz
      rw [Finset.mem_singleton.mp hz]
      exact h
    · rw [if_neg h]
      intro z hz
      simp only [List.mem_toFinset, List.mem_map, List.mem_filter] at hz
      obtain ⟨e, ⟨he, _⟩, htx⟩ := hz
      simp only [poolIds, List.mem_toFinset, List.mem_map]
      exact ⟨e, he, htx⟩
  have hboth := foldDescendants_closed p hwf
    (sortedIds (if origTxid ∈ poolIds p then ({origTxid} : Finset Nat)
      else ((p.filter (fun e => decide (origTxid ∈ e.txInputs))).map MEntry.txid).toFinset))
    ∅ (fun x hx => hTsub ((sortedIds_mem _ _).mp hx)) (Finset.empty_subset _)
    (fun x hx => absurd hx (Finset.not_mem_empty x))
  have hSsub := hboth.1
  have hSclosed := hboth.2
  have hrr : removeRecursive p origTxid = RemoveStaged p
      ((sortedIds (if origTxid ∈ poolIds p then ({origTxid} : Finset Nat)
        else ((p.filter (fun e => decide (origTxid ∈ e.txInputs))).map MEntry.txid).toFinset)).foldl
        (fun acc i => CalculateDescendants p i acc) ∅) false := by
    unfold removeRecursive
    exact rfl
  rw [hrr]
  exact RemoveStaged_false_wf p hwf _ hSsub hSclosed

/-- The descendant pass of RemoveStaged on one staged id, unfolded. -/
theorem removeStep1_eq (p : List MEntry) {i : Nat} {r : MEntry}
    (hr : lookupEntry p i = some r) :
    removeStep1 p i = foldUpdate p (sortedIds ((CalculateDescendants p i ∅).erase i))
      (fun _ d => d.updateAncestorState (-r.size) (-r.feeCash) (-r.feeBond) (-1)
        (-r.sigOpCost)) := by
  unfold removeStep1
  rw [hr]

/-- Lookups after the descendant pass. -/
theorem lookup_removeStep1 (p : List MEntry) {i : Nat} {r : MEntry}
    (hr : lookupEntry p i = some r) (k : Nat) :
    lookupEntry (removeStep1 p i) k =
      if k ∈ (CalculateDescendants p i ∅).erase i then
        Option.map (fun d => d.updateAncestorState (-r.size) (-r.feeCash) (-r.feeBond)
          (-1) (-r.sigOpCost)) (lookupEntry p k)
      else lookupEntry p k := by
  have hF : ∀ (x : Nat) (d : MEntry), ((fun (_ : Nat) (d : MEntry) =>
      d.updateAncestorState (-r.size) (-r.feeCash) (-r.feeBond) (-1) (-r.sigOpCost)) x d).txid
        = d.txid := fun _ _ => rfl
  rw [removeStep1_eq p hr, lookupEntry_foldUpdate (sortedIds_nodup _) hF p k]
  simp only [sortedIds_mem]

/-- The staged root is not its own proper descendant, so the descendant pass
leaves it untouched. -/
theorem lookup_removeStep1_self (p : List MEntry) {i : Nat} {r : MEntry}
    (hr : lookupEntry p i = some r) :
    lookupEntry (removeStep1 p i) i = some r := by
  rw [lookup_removeStep1 p hr i, if_neg (Finset.not_mem_erase i _)]
  exact hr

/-- For a parentless staged root, the UpdateAncestorsOf(false) step is a no-op. -/
theorem removeStep2_root (p : List MEntry) {i : Nat} {r : MEntry}
    (hr : lookupEntry p i = some r) (hpar : r.parents = ∅) :
    removeStep2 (removeStep1 p i) i = removeStep1 p i := by
  have h2 : removeStep2 (removeStep1 p i) i = foldUpdate
      (foldUpdate (removeStep1 p i) (sortedIds r.parents) (fun _ pe =>
        { pe with children := pe.children.erase i }))
      (sortedIds (CalculateMemPoolAncestors (removeStep1 p i) r)) (fun _ ae =>
        ae.updateDescendantState (-r.size) (-r.feeCash) (-r.feeBond) (-1)) := by
    unfold removeStep2
    rw [lookup_removeStep1_self p hr]
  rw [h2]
  unfold CalculateMemPoolAncestors
  rw [hpar, calcAncestorsFrom_empty, sortedIds_empty]
  simp [foldUpdate]

/-- Lookups after the child-unlink step on the root. -/
theorem lookup_removeStep3_root (p : List MEntry) {i : Nat} {r : MEntry}
    (hr : lookupEntry p i = some r) (k : Nat) :
    lookupEntry (removeStep3 (removeStep1 p i) i) k =
      if k ∈ r.children then
        Option.map (fun ce => { ce with parents := ce.parents.erase i })
          (lookupEntry (removeStep1 p i) k)
      else lookupEntry (removeStep1 p i) k := by
  have hF : ∀ (x : Nat) (ce : MEntry), ((fun (_ : Nat) (ce : MEntry) =>
      { ce with parents := ce.parents.erase i }) x ce).txid = ce.txid := fun _ _ => rfl
  unfold removeStep3
  rw [lookup_removeStep1_self p hr, lookupEntry_foldUpdate (sortedIds_nodup _) hF _ k]
  simp only [sortedIds_mem]

/-- RemoveStaged on a single parentless root, unfolded to the third phase plus the
final erasure. -/
theorem removeStaged_root_eq (p : List MEntry) {i : Nat} {r : MEntry}
    (hr : lookupEntry p i = some r) (hpar : r.parents = ∅) :
    RemoveStaged p {i} true =
      (removeStep3 (removeStep1 p i) i).filter
        (fun e => decide (e.txid ∉ ({i} : Finset Nat))) := by
  unfold RemoveStaged
  rw [sortedIds_singleton]
  simp only [List.foldl_cons, List.foldl_nil, if_true]
  rw [removeStep2_root p hr hpar]

/-- A parent-link path to a node other than the parentless root never visits the
root, so it survives the root's deletion. -/
theorem parent_path_avoid (p : List MEntry) {i : Nat} (hpi : parentsOf p i = ∅) :
    ∀ x y, Relation.ReflTransGen (adjStep (parentsOf p)) x y → y ≠ i →
      x ≠ i ∧ Relation.ReflTransGen (adjStep (fun z => parentsOf p z \ {i})) x y := by
  intro x y hpath
  induction hpath with
  | refl =>
    intro hy
    exact ⟨hy, Relation.ReflTransGen.refl⟩
  | @tail b c hpre hstep ih =>
    intro hy
    have hb : b ≠ i := by
      intro hbi
      rw [hbi] at hstep
      have : c ∈ parentsOf p i := hstep
      rw [hpi] at this
      exact absurd this (Finset.not_mem_empty c)
    obtain ⟨hx, hp2⟩ := ih hb
    refine ⟨hx, hp2.tail ?_⟩
    show c ∈ parentsOf p b \ {i}
    exact Finset.mem_sdiff.mpr ⟨hstep, fun hm => hy (Finset.mem_singleton.mp hm)⟩

/-- A path through the root-deleted parent links is a path in the original. -/
theorem restricted_path_full (p : List MEntry) (i : Nat) :
    ∀ x y, Relation.ReflTransGen (adjStep (fun z => parentsOf p z \ {i})) x y →
      Relation.ReflTransGen (adjStep (parentsOf p)) x y := by
  intro x y hpath
  induction hpath with
  | refl => exact Relation.ReflTransGen.refl
  | tail hpre hstep ih => exact ih.tail (Finset.mem_sdiff.mp hstep).1

/-- Deleting a parentless root removes exactly the root from reachability. -/
theorem reach_erase_iff (p : List MEntry) {i : Nat} (hpi : parentsOf p i = ∅)
    (stage : Finset Nat) :
    ∀ y, y ≠ i → (reachableFrom (fun z => parentsOf p z \ {i}) (stage \ {i}) y ↔
      reachableFrom (parentsOf p) stage y) := by
  intro y hy
  constructor
  · rintro ⟨x, hx, hpath⟩
    exact ⟨x, (Finset.mem_sdiff.mp hx).1, restricted_path_full p i x y hpath⟩
  · rintro ⟨x, hx, hpath⟩
    obtain ⟨hxne, hp2⟩ := parent_path_avoid p hpi x y hpath hy
    exact ⟨x, Finset.mem_sdiff.mpr ⟨hx, fun hm => hxne (Finset.mem_singleton.mp hm)⟩, hp2⟩

/-- An entry descends from the root exactly when the root is among its ancestors. -/
theorem mem_desc_iff_anc (p : List MEntry) (hwf : PoolWF p) {i : Nat} {r : MEntry}
    (hr : lookupEntry p i = some r) {j : Nat} {e0 : MEntry}
    (he0 : lookupEntry p j = some e0) (hne : j ≠ i) :
    (j ∈ (CalculateDescendants p i ∅).erase i ↔ i ∈ CalculateMemPoolAncestors p e0) := by
  have hip : i ∈ poolIds p := mem_poolIds_iff_lookup.mpr (by rw [hr]; rfl)
  have hjp : j ∈ poolIds p := mem_poolIds_iff_lookup.mpr (by rw [he0]; rfl)
  have he0mem : e0 ∈ p := (lookupEntry_eq_some he0).1
  have hp0 : parentsOf p j = e0.parents := by
    unfold parentsOf
    rw [he0]
  have hspec := calculateDescendants_spec p i ∅ hwf.children_sub hip (Finset.empty_subset _)
    (fun x hx => absurd hx (Finset.not_mem_empty x))
  have hancspec := calcAncestorsFrom_spec p e0.parents hwf.parents_sub
    (entry_parents_sub p hwf he0mem)
  rw [Finset.mem_erase]
  constructor
  · rintro ⟨_, hmem⟩
    rcases (hspec j).mp hmem with h | h
    · exact absurd h (Finset.not_mem_empty j)
    · obtain ⟨z, hz, hpath⟩ := h
      rw [Finset.mem_singleton.mp hz] at hpath
      have hflip := (path_flip p hwf i j hip).mp hpath
      rcases Relation.ReflTransGen.cases_head hflip with heq | ⟨c, hc, hcp⟩
      · exact absurd heq hne
      · show i ∈ CalculateMemPoolAncestors p e0
        unfold CalculateMemPoolAncestors
        rw [hancspec i]
        have hc2 : c ∈ e0.parents := by
          rw [← hp0]
          exact hc
        exact ⟨c, hc2, hcp⟩
  · intro hanc
    unfold CalculateMemPoolAncestors at hanc
    rw [hancspec i] at hanc
    obtain ⟨x, hx, hpath⟩ := hanc
    have hstep : adjStep (parentsOf p) j x := by
      show x ∈ parentsOf p j
      rw [hp0]
      exact hx
    have hjpath : Relation.ReflTransGen (adjStep (parentsOf p)) j i :=
      Relation.ReflTransGen.head hstep hpath
    have hchild := (path_flip p hwf i j hip).mpr hjpath
    exact ⟨hne, (hspec j).mpr (Or.inr ⟨i, Finset.mem_singleton_self i, hchild⟩)⟩

/-- Lookups of surviving ids after removing a parentless root from the pool. -/
theorem lookup_removeBlock_surv (p : List MEntry) {i : Nat} {r : MEntry}
    (hr : lookupEntry p i = some r) (hpar : r.parents = ∅) {j : Nat} (hj : j ≠ i) :
    lookupEntry (RemoveStaged p {i} true) j =
      Option.map (fun e0 =>
        (fun x => if j ∈ r.children then { x with parents := x.parents.erase i } else x)
        (if j ∈ (CalculateDescendants p i ∅).erase i then
          e0.updateAncestorState (-r.size) (-r.feeCash) (-r.feeBond) (-1) (-r.sigOpCost)
        else e0)) (lookupEntry p j) := by
  rw [removeStaged_root_eq p hr hpar]
  rw [lookupEntry_filter_keep _ _ j (fun e hetx => by
    rw [hetx]
    exact decide_eq_true (fun hm => hj (Finset.mem_singleton.mp hm)))]
  rw [lookup_removeStep3_root p hr j, lookup_removeStep1 p hr j]
  by_cases h3 : j ∈ r.children
  · rw [if_pos h3]
    by_cases h1 : j ∈ (CalculateDescendants p i ∅).erase i
    · rw [if_pos h1]
      cases hcase : lookupEntry p j with
      | none => rfl
      | some e => simp [h3, h1, MEntry.updateAncestorState]
    · rw [if_neg h1]
      cases hcase : lookupEntry p j with
      | none => rfl
      | some e => simp [h3, h1]
  · rw [if_neg h3]
    by_cases h1 : j ∈ (CalculateDescendants p i ∅).erase i
    · rw [if_pos h1]
      cases hcase : lookupEntry p j with
      | none => rfl
      | some e => simp [h3, h1, MEntry.updateAncestorState]
    · rw [if_neg h1]
      cases hcase : lookupEntry p j with
      | none => rfl
      | some e => simp [h3, h1]

/-- Absent ids have no parent links. -/
theorem parentsOf_not_mem {p : List MEntry} {z : Nat} (h : z ∉ poolIds p) :
    parentsOf p z = ∅ := by
  cases hcase : lookupEntry p z with
  | none =>
    unfold parentsOf
    rw [hcase]
  | some e => exact absurd (mem_poolIds_iff_lookup.mpr (by rw [hcase]; rfl)) h

/-- The id list after removing a parentless root, before the final erasure. -/
theorem map_txid_removeBlock_steps (p : List MEntry) {i : Nat} {r : MEntry}
    (hr : lookupEntry p i = some r) :
    (removeStep3 (removeStep1 p i) i).map MEntry.txid = p.map MEntry.txid := by
  have hFc : ∀ (x : Nat) (ce : MEntry), ((fun (_ : Nat) (ce : MEntry) =>
      { ce with parents := ce.parents.erase i }) x ce).txid = ce.txid := fun _ _ => rfl
  have hFa : ∀ (x : Nat) (d : MEntry), ((fun (_ : Nat) (d : MEntry) =>
      d.updateAncestorState (-r.size) (-r.feeCash) (-r.feeBond) (-1) (-r.sigOpCost)) x d).txid
        = d.txid := fun _ _ => rfl
  have h3 : removeStep3 (removeStep1 p i) i = foldUpdate (removeStep1 p i)
      (sortedIds r.children) (fun _ ce => { ce with parents := ce.parents.erase i }) := by
    unfold removeStep3
    rw [lookup_removeStep1_self p hr]
  rw [h3, map_txid_foldUpdate hFc, removeStep1_eq p hr, map_txid_foldUpdate hFa]

/-- The modification removing a parentless root applies to a surviving entry:
drop the root from the parent links of its direct children, and subtract its
footprint from the ancestor aggregates of its proper descendants. -/
def rootRemMod (p : List MEntry) (i : Nat) (r : MEntry) (j : Nat) (e0 : MEntry) :
    MEntry :=
  (fun x => if j ∈ r.children then { x with parents := x.parents.erase i } else x)
  (if j ∈ (CalculateDescendants p i ∅).erase i then
    e0.updateAncestorState (-r.size) (-r.feeCash) (-r.feeBond) (-1) (-r.sigOpCost)
  else e0)

/-- Field accounting of the root-removal modification. -/
theorem rootRemMod_fields (p : List MEntry) (i : Nat) (r : MEntry) (j : Nat)
    (e0 : MEntry) :
    (rootRemMod p i r j e0).txid = e0.txid ∧
    (rootRemMod p i r j e0).parents
      = (if j ∈ r.children then e0.parents.erase i else e0.parents) ∧
    (rootRemMod p i r j e0).children = e0.children ∧
    (rootRemMod p i r j e0).size = e0.size ∧
    (rootRemMod p i r j e0).feeCash = e0.feeCash ∧
    (rootRemMod p i r j e0).feeBond = e0.feeBond ∧
    (rootRemMod p i r j e0).sigOpCost = e0.sigOpCost ∧
    (rootRemMod p i r j e0).sizeWithAncestors = e0.sizeWithAncestors
      + (if j ∈ (CalculateDescendants p i ∅).erase i then -r.size else 0) ∧
    (rootRemMod p i r j e0).feeCashWithAncestors = e0.feeCashWithAncestors
      + (if j ∈ (CalculateDescendants p i ∅).erase i then -r.feeCash else 0) ∧
    (rootRemMod p i r j e0).feeBondWithAncestors = e0.feeBondWithAncestors
      + (if j ∈ (CalculateDescendants p i ∅).erase i then -r.feeBond else 0) ∧
    (rootRemMod p i r j e0).countWithAncestors = e0.countWithAncestors
      + (if j ∈ (CalculateDescendants p i ∅).erase i then -1 else 0) ∧
    (rootRemMod p i r j e0).sigOpCostWithAncestors = e0.sigOpCostWithAncestors
      + (if j ∈ (CalculateDescendants p i ∅).erase i then -r.sigOpCost else 0) := by
  unfold rootRemMod
  by_cases hD : j ∈ (CalculateDescendants p i ∅).erase i <;>
    by_cases h3 : j ∈ r.children <;>
    simp [MEntry.updateAncestorState, hD, h3]

/-- RemoveStaged on a single parentless root preserves the pool invariant. -/
theorem RemoveStaged_root_wf (p : List MEntry) (hwf : PoolWF p) {i : Nat} {r : MEntry}
    (hr : lookupEntry p i = some r) (hpar : r.parents = ∅) :
    PoolWF (RemoveStaged p {i} true) := by
  have hip : i ∈ poolIds p := mem_poolIds_iff_lookup.mpr (by rw [hr]; rfl)
  have hpi : parentsOf p i = ∅ := by
    have h : parentsOf p i = r.parents := by
      unfold parentsOf
      rw [hr]
    rw [h, hpar]
  have hci : childrenOf p i = r.children := by
    unfold childrenOf
    rw [hr]
  have hids : poolIds (RemoveStaged p {i} true) = poolIds p \ {i} := by
    rw [removeStaged_root_eq p hr hpar, poolIds_filter_drop]
    unfold poolIds
    rw [map_txid_removeBlock_steps p hr]
  have hnodF : ((RemoveStaged p {i} true).map MEntry.txid).Nodup := by
    rw [removeStaged_root_eq p hr hpar]
    exact nodup_filter_txid _ _ (by rw [map_txid_removeBlock_steps p hr]; exact hwf.nodup)
  have hsurv : ∀ j, j ∈ poolIds p → j ≠ i → ∃ e0 e, lookupEntry p j = some e0 ∧
      lookupEntry (RemoveStaged p {i} true) j = some e ∧
      e.txid = e0.txid ∧
      e.parents = e0.parents \ {i} ∧
      e.children = e0.children ∧
      e.size = e0.size ∧ e.feeCash = e0.feeCash ∧ e.feeBond = e0.feeBond ∧
      e.sigOpCost = e0.sigOpCost ∧
      e.sizeWithAncestors = e0.sizeWithAncestors
        - (if i ∈ CalculateMemPoolAncestors p e0 then r.size else 0) ∧
      e.feeCashWithAncestors = e0.feeCashWithAncestors
        - (if i ∈ CalculateMemPoolAncestors p e0 then r.feeCash else 0) ∧
      e.feeBondWithAncestors = e0.feeBondWithAncestors
        - (if i ∈ CalculateMemPoolAncestors p e0 then r.feeBond else 0) ∧
      e.countWithAncestors = e0.countWithAncestors
        - (if i ∈ CalculateMemPoolAncestors p e0 then 1 else 0) ∧
      e.sigOpCostWithAncestors = e0.sigOpCostWithAncestors
        - (if i ∈ CalculateMemPoolAncestors p e0 then r.sigOpCost else 0) := by
    intro j hjp hjne
    obtain ⟨e0, he0⟩ : ∃ e0, lookupEntry p j = some e0 := by
      cases hcase : lookupEntry p j with
      | none =>
        rw [mem_poolIds_iff_lookup, hcase] at hjp
        simp at hjp
      | some e0 => exact ⟨e0, rfl⟩
    have hiff := mem_desc_iff_anc p hwf hr he0 hjne
    have hinotpar : j ∉ r.children → i ∉ e0.parents := by
      intro h3 hmem
      have hip2 : i ∈ parentsOf p j := by
        unfold parentsOf
        rw [he0]
        exact hmem
      have := hwf.par_child j hjp i hip2
      rw [hci] at this
      exact h3 this
    have hlkF : lookupEntry (RemoveStaged p {i} true) j = some (rootRemMod p i r j e0) := by
      rw [lookup_removeBlock_surv p hr hpar hjne, he0]
      rfl
    obtain ⟨k1, k2, k3, k4, k5, k6, k7, k8, k9, k10, k11, k12⟩ :=
      rootRemMod_fields p i r j e0
    refine ⟨e0, rootRemMod p i r j e0, he0, hlkF,
      k1, ?_, k3, k4, k5, k6, k7, ?_, ?_, ?_, ?_, ?_⟩
    · rw [k2]
      by_cases h3 : j ∈ r.children
      · rw [if_pos h3, Finset.erase_eq]
      · rw [if_neg h3]
        exact (sdiff_eq_self_of_disj _ _ (fun a ha hm =>
          hinotpar h3 (by rw [← Finset.mem_singleton.mp hm]; exact ha))).symm
    · rw [k8]
      by_cases hD : j ∈ (CalculateDescendants p i ∅).erase i
      · rw [if_pos hD, if_pos (hiff.mp hD)]
        omega
      · rw [if_neg hD, if_neg (fun h => hD (hiff.mpr h))]
        omega
    · rw [k9]
      by_cases hD : j ∈ (CalculateDescendants p i ∅).erase i
      · rw [if_pos hD, if_pos (hiff.mp hD)]
        omega
      · rw [if_neg hD, if_neg (fun h => hD (hiff.mpr h))]
        omega
    · rw [k10]
      by_cases hD : j ∈ (CalculateDescendants p i ∅).erase i
      · rw [if_pos hD, if_pos (hiff.mp hD)]
        omega
      · rw [if_neg hD, if_neg (fun h => hD (hiff.mpr h))]
        omega
    · rw [k11]
      by_cases hD : j ∈ (CalculateDescendants p i ∅).erase i
      · rw [if_pos hD, if_pos (hiff.mp hD)]
        omega
      · rw [if_neg hD, if_neg (fun h => hD (hiff.mpr h))]
        omega
    · rw [k12]
      by_cases hD : j ∈ (CalculateDescendants p i ∅).erase i
      · rw [if_pos hD, if_pos (hiff.mp hD)]
        omega
      · rw [if_neg hD, if_neg (fun h => hD (hiff.mpr h))]
        omega
  have hparF : ∀ j, j ∈ poolIds p → j ≠ i →
      parentsOf (RemoveStaged p {i} true) j = parentsOf p j \ {i} := by
    intro j hjp hjne
    obtain ⟨e0, e, he0, he, _, hp, _⟩ := hsurv j hjp hjne
    have h1 : parentsOf (RemoveStaged p {i} true) j = e.parents := by
      unfold parentsOf
      rw [he]
    have h2 : parentsOf p j = e0.parents := by
      unfold parentsOf
      rw [he0]
    rw [h1, h2, hp]
  have hparAll : ∀ z, parentsOf (RemoveStaged p {i} true) z = parentsOf p z \ {i} := by
    intro z
    by_cases hz : z ∈ poolIds p
    · by_cases hzi : z = i
      · rw [hzi, hpi, parentsOf_not_mem (by rw [hids]; simp)]
        simp
      · exact hparF z hz hzi
    · rw [parentsOf_not_mem hz, parentsOf_not_mem (by
        rw [hids]
        intro hmem
        exact hz (Finset.mem_sdiff.mp hmem).1)]
      simp
  have hchF : ∀ j, j ∈ poolIds p → j ≠ i →
      childrenOf (RemoveStaged p {i} true) j = childrenOf p j := by
    intro j hjp hjne
    obtain ⟨e0, e, he0, he, _, _, hc, _⟩ := hsurv j hjp hjne
    have h1 : childrenOf (RemoveStaged p {i} true) j = e.children := by
      unfold childrenOf
      rw [he]
    have h2 : childrenOf p j = e0.children := by
      unfold childrenOf
      rw [he0]
    rw [h1, h2, hc]
  have hchnoti : ∀ j, j ∈ poolIds p → j ≠ i → i ∉ childrenOf p j := by
    intro j hjp hjne hmem
    have := hwf.child_par j hjp i hmem
    rw [hpi] at this
    exact absurd this (Finset.not_mem_empty j)
  have hsubF : ∀ x ∈ poolIds (RemoveStaged p {i} true),
      parentsOf (RemoveStaged p {i} true) x ⊆ poolIds (RemoveStaged p {i} true) := by
    intro x hx
    rw [hids] at hx ⊢
    obtain ⟨hxp, hxi⟩ := Finset.mem_sdiff.mp hx
    rw [hparF x hxp (fun h => hxi (Finset.mem_singleton.mpr h))]
    intro a ha
    obtain ⟨ha1, ha2⟩ := Finset.mem_sdiff.mp ha
    exact Finset.mem_sdiff.mpr ⟨hwf.parents_sub x hxp ha1, ha2⟩
  have hchsubF : ∀ x ∈ poolIds (RemoveStaged p {i} true),
      childrenOf (RemoveStaged p {i} true) x ⊆ poolIds (RemoveStaged p {i} true) := by
    intro x hx
    rw [hids] at hx ⊢
    obtain ⟨hxp, hxi⟩ := Finset.mem_sdiff.mp hx
    have hxne : x ≠ i := fun h => hxi (Finset.mem_singleton.mpr h)
    rw [hchF x hxp hxne]
    intro a ha
    refine Finset.mem_sdiff.mpr ⟨hwf.children_sub x hxp ha, ?_⟩
    intro hai
    exact hchnoti x hxp hxne ((Finset.mem_singleton.mp hai) ▸ ha)
  have hpcF : ∀ x ∈ poolIds (RemoveStaged p {i} true),
      ∀ a ∈ parentsOf (RemoveStaged p {i} true) x,
        x ∈ childrenOf (RemoveStaged p {i} true) a := by
    intro x hx a ha
    rw [hids] at hx
    obtain ⟨hxp, hxi⟩ := Finset.mem_sdiff.mp hx
    have hxne : x ≠ i := fun h => hxi (Finset.mem_singleton.mpr h)
    rw [hparF x hxp hxne] at ha
    obtain ⟨ha1, ha2⟩ := Finset.mem_sdiff.mp ha
    have hap : a ∈ poolIds p := hwf.parents_sub x hxp ha1
    have hane : a ≠ i := fun h => ha2 (Finset.mem_singleton.mpr h)
    rw [hchF a hap hane]
    exact hwf.par_child x hxp a ha1
  have hcpF : ∀ x ∈ poolIds (RemoveStaged p {i} true),
      ∀ c ∈ childrenOf (RemoveStaged p {i} true) x,
        x ∈ parentsOf (RemoveStaged p {i} true) c := by
    intro x hx c hc
    rw [hids] at hx
    obtain ⟨hxp, hxi⟩ := Finset.mem_sdiff.mp hx
    have hxne : x ≠ i := fun h => hxi (Finset.mem_singleton.mpr h)
    rw [hchF x hxp hxne] at hc
    have hcp : c ∈ poolIds p := hwf.children_sub x hxp hc
    have hcne : c ≠ i := fun h => hchnoti x hxp hxne (h ▸ hc)
    rw [hparF c hcp hcne]
    refine Finset.mem_sdiff.mpr ⟨hwf.child_par x hxp c hc, ?_⟩
    intro hxm
    exact hxne (Finset.mem_singleton.mp hxm)
  refine ⟨hnodF, hsubF, hchsubF, hpcF, hcpF, ?_⟩
  intro e2 he2
  have hlk2 := lookupEntry_self hnodF he2
  have hjF : e2.txid ∈ poolIds (RemoveStaged p {i} true) :=
    mem_poolIds_iff_lookup.mpr (by rw [hlk2]; rfl)
  rw [hids] at hjF
  obtain ⟨hjp, hjmem⟩ := Finset.mem_sdiff.mp hjF
  have hjne : e2.txid ≠ i := fun h => hjmem (Finset.mem_singleton.mpr h)
  obtain ⟨e0, e, he0, he, htx, hp, hc, hsz, hfc, hfb, hso, hA1, hA2, hA3, hA4, hA5⟩ :=
    hsurv e2.txid hjp hjne
  have he2e : e = e2 := by
    rw [hlk2] at he
    exact (Option.some.inj he).symm
  subst he2e
  have he0mem : e0 ∈ p := (lookupEntry_eq_some he0).1
  have hAncSub : CalculateMemPoolAncestors p e0 ⊆ poolIds p :=
    calcMemPoolAncestors_subset p hwf he0mem
  have hfun : parentsOf (RemoveStaged p {i} true) = fun z => parentsOf p z \ {i} :=
    funext hparAll
  have hAncEq : CalculateMemPoolAncestors (RemoveStaged p {i} true) e
      = (CalculateMemPoolAncestors p e0).erase i := by
    unfold CalculateMemPoolAncestors
    have hstageF : e.parents ⊆ poolIds (RemoveStaged p {i} true) := by
      rw [hids, hp]
      intro a ha
      obtain ⟨ha1, ha2⟩ := Finset.mem_sdiff.mp ha
      exact Finset.mem_sdiff.mpr ⟨entry_parents_sub p hwf he0mem ha1, ha2⟩
    ext y
    rw [calcAncestorsFrom_spec (RemoveStaged p {i} true) e.parents hsubF hstageF y,
      Finset.mem_erase]
    by_cases hy : y = i
    · constructor
      · intro hreach
        have := reachableFrom_mem_closed (parentsOf (RemoveStaged p {i} true))
          (poolIds (RemoveStaged p {i} true)) hsubF hstageF y hreach
        rw [hids, hy] at this
        exact absurd (Finset.mem_sdiff.mp this).2 (fun h => h (Finset.mem_singleton_self i))
      · rintro ⟨hyne, _⟩
        exact absurd hy hyne
    · rw [hfun, hp]
      rw [reach_erase_iff p hpi e0.parents y hy]
      rw [calcAncestorsFrom_spec p e0.parents hwf.parents_sub
        (entry_parents_sub p hwf he0mem) y]
      exact ⟨fun h => ⟨hy, h⟩, fun h => h.2⟩
  have hstats : ∀ a ∈ (CalculateMemPoolAncestors p e0).erase i,
      sizeOfId (RemoveStaged p {i} true) a = sizeOfId p a ∧
      feeCashOfId (RemoveStaged p {i} true) a = feeCashOfId p a ∧
      feeBondOfId (RemoveStaged p {i} true) a = feeBondOfId p a ∧
      sigOpCostOfId (RemoveStaged p {i} true) a = sigOpCostOfId p a := by
    intro a ha
    obtain ⟨hane, haA⟩ := Finset.mem_erase.mp ha
    have hap : a ∈ poolIds p := hAncSub haA
    obtain ⟨f0, f, hf0, hf, _, _, _, hfs, hffc, hffb, hfso, _⟩ := hsurv a hap hane
    unfold sizeOfId feeCashOfId feeBondOfId sigOpCostOfId
    rw [hf, hf0]
    exact ⟨hfs, hffc, hffb, hfso⟩
  have hri : sizeOfId p i = r.size ∧ feeCashOfId p i = r.feeCash ∧
      feeBondOfId p i = r.feeBond ∧ sigOpCostOfId p i = r.sigOpCost := by
    unfold sizeOfId feeCashOfId feeBondOfId sigOpCostOfId
    rw [hr]
    exact ⟨rfl, rfl, rfl, rfl⟩
  obtain ⟨g1, g2, g3, g4, g5⟩ := hwf.agg e0 he0mem
  refine ⟨?_, ?_, ?_, ?_, ?_⟩
  · rw [hA1, hAncEq, hsz]
    have hc1 : ∑ a ∈ (CalculateMemPoolAncestors p e0).erase i,
        sizeOfId (RemoveStaged p {i} true) a
        = ∑ a ∈ (CalculateMemPoolAncestors p e0).erase i, sizeOfId p a :=
      Finset.sum_congr rfl (fun a ha => (hstats a ha).1)
    rw [hc1]
    by_cases hiA : i ∈ CalculateMemPoolAncestors p e0
    · rw [if_pos hiA]
      have hsplit : sizeOfId p i
          + ∑ x ∈ (CalculateMemPoolAncestors p e0).erase i, sizeOfId p x
          = ∑ x ∈ CalculateMemPoolAncestors p e0, sizeOfId p x :=
        Finset.add_sum_erase _ (sizeOfId p) hiA
      rw [hri.1] at hsplit
      rw [g1]
      omega
    · rw [if_neg hiA, Finset.erase_eq_of_not_mem hiA, g1]
      omega
  · rw [hA2, hAncEq, hfc]
    have hc1 : ∑ a ∈ (CalculateMemPoolAncestors p e0).erase i,
        feeCashOfId (RemoveStaged p {i} true) a
        = ∑ a ∈ (CalculateMemPoolAncestors p e0).erase i, feeCashOfId p a :=
      Finset.sum_congr rfl (fun a ha => (hstats a ha).2.1)
    rw [hc1]
    by_cases hiA : i ∈ CalculateMemPoolAncestors p e0
    · rw [if_pos hiA]
      have hsplit : feeCashOfId p i
          + ∑ x ∈ (CalculateMemPoolAncestors p e0).erase i, feeCashOfId p x
          = ∑ x ∈ CalculateMemPoolAncestors p e0, feeCashOfId p x :=
        Finset.add_sum_erase _ (feeCashOfId p) hiA
      rw [hri.2.1] at hsplit
      rw [g2]
      omega
    · rw [if_neg hiA, Finset.erase_eq_of_not_mem hiA, g2]
      omega
  · rw [hA3, hAncEq, hfb]
    have hc1 : ∑ a ∈ (CalculateMemPoolAncestors p e0).erase i,
        feeBondOfId (RemoveStaged p {i} true) a
        = ∑ a ∈ (CalculateMemPoolAncestors p e0).erase i, feeBondOfId p a :=
      Finset.sum_congr rfl (fun a ha => (hstats a ha).2.2.1)
    rw [hc1]
    by_cases hiA : i ∈ CalculateMemPoolAncestors p e0
    · rw [if_pos hiA]
      have hsplit : feeBondOfId p i
          + ∑ x ∈ (CalculateMemPoolAncestors p e0).erase i, feeBondOfId p x
          = ∑ x ∈ CalculateMemPoolAncestors p e0, feeBondOfId p x :=
        Finset.add_sum_erase _ (feeBondOfId p) hiA
      rw [hri.2.2.1] at hsplit
      rw [g3]
      omega
    · rw [if_neg hiA, Finset.erase_eq_of_not_mem hiA, g3]
      omega
  · rw [hA5, hAncEq, hso]
    have hc1 : ∑ a ∈ (CalculateMemPoolAncestors p e0).erase i,
        sigOpCostOfId (RemoveStaged p {i} true) a
        = ∑ a ∈ (CalculateMemPoolAncestors p e0).erase i, sigOpCostOfId p a :=
      Finset.sum_congr rfl (fun a ha => (hstats a ha).2.2.2)
    rw [hc1]
    by_cases hiA : i ∈ CalculateMemPoolAncestors p e0
    · rw [if_pos hiA]
      have hsplit : sigOpCostOfId p i
          + ∑ x ∈ (CalculateMemPoolAncestors p e0).erase i, sigOpCostOfId p x
          = ∑ x ∈ CalculateMemPoolAncestors p e0, sigOpCostOfId p x :=
        Finset.add_sum_erase _ (sigOpCostOfId p) hiA
      rw [hri.2.2.2] at hsplit
      rw [g4]
      omega
    · rw [if_neg hiA, Finset.erase_eq_of_not_mem hiA, g4]
      omega
  · rw [hA4, hAncEq]
    by_cases hiA : i ∈ CalculateMemPoolAncestors p e0
    · rw [if_pos hiA]
      have hsplit : ((CalculateMemPoolAncestors p e0).erase i).card + 1
          = (CalculateMemPoolAncestors p e0).card := Finset.card_erase_add_one hiA
      have hsplit2 : (((CalculateMemPoolAncestors p e0).erase i).card : Int) + 1
          = ((CalculateMemPoolAncestors p e0).card : Int) := by exact_mod_cast hsplit
      rw [g5]
      omega
    · rw [if_neg hiA, Finset.erase_eq_of_not_mem hiA, g5]
      omega

/-- The per-transaction removal of removeForBlock preserves the pool invariant. -/
theorem removeBlockTx_wf (p : List MEntry) (hwf : PoolWF p) (i : Nat) :
    PoolWF (removeBlockTx p i) := by
  unfold removeBlockTx
  cases hcase : lookupEntry p i with
  | none => exact hwf
  | some r =>
    show PoolWF (if r.parents = ∅ then RemoveStaged p {i} true else p)
    by_cases hpar : r.parents = ∅
    · rw [if_pos hpar]
      exact RemoveStaged_root_wf p hwf hcase hpar
    · rw [if_neg hpar]
      exact hwf

/-- The empty pool is well-formed. -/
theorem poolWF_nil : PoolWF [] := by
  refine ⟨List.nodup_nil, ?_, ?_, ?_, ?_, ?_⟩ <;>
    intro x hx <;> simp [poolIds] at hx

/-- Every modelled pool operation preserves the pool invariant. -/
theorem poolWF_applyOp (p : List MEntry) (hwf : PoolWF p) (op : PoolOp) :
    PoolWF (applyOp p op) := by
  cases op with
  | add t => exact addUnchecked_wf p t hwf
  | removeRec i => exact removeRecursive_wf p hwf i
  | removeBlock i => exact removeBlockTx_wf p hwf i

/-- Any sequence of admissions and removals from the empty pool yields a
well-formed pool. -/
theorem poolWF_runOps (ops : List PoolOp) : PoolWF (runOps ops) := by
  have h : ∀ (L : List PoolOp) (p : List MEntry), PoolWF p → PoolWF (L.foldl applyOp p) := by
    intro L
    induction L with
    | nil =>
      intro p hp
      exact hp
    | cons o L ih =>
      intro p hp
      exact ih _ (poolWF_applyOp p hp o)
  exact h ops [] poolWF_nil

/-- C3: after any sequence of admission (addUnchecked) and removal operations
(removeRecursive, block-connection removal), every entry e of the transaction pool
satisfies sizeWithAncestors e = size e + the sum of the sizes of e's in-pool
ancestors, and the analogous equalities hold for the per-currency fee aggregates,
the sigop cost and the ancestor count. -/
theorem mempool_ancestor_aggregates_consistent (ops : List PoolOp) (e : MEntry)
    (he : e ∈ runOps ops) :
    e.sizeWithAncestors = e.size
      + ∑ a ∈ CalculateMemPoolAncestors (runOps ops) e, sizeOfId (runOps ops) a ∧
    e.feeCashWithAncestors = e.feeCash
      + ∑ a ∈ CalculateMemPoolAncestors (runOps ops) e, feeCashOfId (runOps ops) a ∧
    e.feeBondWithAncestors = e.feeBond
      + ∑ a ∈ CalculateMemPoolAncestors (runOps ops) e, feeBondOfId (runOps ops) a ∧
    e.sigOpCostWithAncestors = e.sigOpCost
      + ∑ a ∈ CalculateMemPoolAncestors (runOps ops) e, sigOpCostOfId (runOps ops) a ∧
    e.countWithAncestors = 1 + ((CalculateMemPoolAncestors (runOps ops) e).card : Int) :=
  (poolWF_runOps ops).agg e he

/-- A parentless transaction for the aggregate-consistency witness. -/
def t1W : TxData := ⟨1, [], 10, 1, 0, 2, 5⟩

/-- A child transaction spending the first, for the aggregate-consistency
witness. -/
def t2W : TxData := ⟨2, [1], 20, 3, 0, 4, 6⟩

/-- Admit both transactions, then remove the parent as part of a block. -/
def opsW : List PoolOp := [.add t1W, .add t2W, .removeBlock 1]

/-- The surviving entry after the witness operations: its ancestor aggregates have
collapsed back to its own stats. -/
def eW : MEntry := ⟨2, [1], 20, 3, 0, 4, 6, ∅, ∅, 20, 3, 0, 1, 4, 20, 3, 0, 1⟩

/-- Witness for C3 on a concrete operation sequence. -/
theorem mempool_ancestor_aggregates_consistent_witness :
    eW ∈ runOps opsW ∧
    (eW.sizeWithAncestors = eW.size
      + ∑ a ∈ CalculateMemPoolAncestors (runOps opsW) eW, sizeOfId (runOps opsW) a ∧
    eW.feeCashWithAncestors = eW.feeCash
      + ∑ a ∈ CalculateMemPoolAncestors (runOps opsW) eW, feeCashOfId (runOps opsW) a ∧
    eW.feeBondWithAncestors = eW.feeBond
      + ∑ a ∈ CalculateMemPoolAncestors (runOps opsW) eW, feeBondOfId (runOps opsW) a ∧
    eW.sigOpCostWithAncestors = eW.sigOpCost
      + ∑ a ∈ CalculateMemPoolAncestors (runOps opsW) eW, sigOpCostOfId (runOps opsW) a ∧
    eW.countWithAncestors = 1 + ((CalculateMemPoolAncestors (runOps opsW) eW).card : Int)) :=
  ⟨by decide, mempool_ancestor_aggregates_consistent opsW eW (by decide)⟩

/-- The descendant pass keeps the id list. -/
theorem map_txid_removeStep1 (q : List MEntry) (rid : Nat) :
    (removeStep1 q rid).map MEntry.txid = q.map MEntry.txid := by
  cases hr : lookupEntry q rid with
  | none =>
    have h : removeStep1 q rid = q := by
      unfold removeStep1
      rw [hr]
    rw [h]
  | some r =>
    have hF : ∀ (x : Nat) (d : MEntry), ((fun (_ : Nat) (d : MEntry) =>
        d.updateAncestorState (-r.size) (-r.feeCash) (-r.feeBond) (-1) (-r.sigOpCost)) x d).txid
          = d.txid := fun _ _ => rfl
    have h : removeStep1 q rid = foldUpdate q
        (sortedIds ((CalculateDescendants q rid ∅).erase rid)) (fun _ d =>
          d.updateAncestorState (-r.size) (-r.feeCash) (-r.feeBond) (-1) (-r.sigOpCost)) := by
      unfold removeStep1
      rw [hr]
    rw [h, map_txid_foldUpdate hF]

/-- The unlink-from-ancestors pass keeps the id list. -/
theorem map_txid_removeStep2 (q : List MEntry) (rid : Nat) :
    (removeStep2 q rid).map MEntry.txid = q.map MEntry.txid := by
  cases hr : lookupEntry q rid with
  | none =>
    have h : removeStep2 q rid = q := by
      unfold removeStep2
      rw [hr]
    rw [h]
  | some r =>
    have hF1 : ∀ (x : Nat) (pe : MEntry), ((fun (_ : Nat) (pe : MEntry) =>
        { pe with children := pe.children.erase rid }) x pe).txid = pe.txid := fun _ _ => rfl
    have hF2 : ∀ (x : Nat) (ae : MEntry), ((fun (_ : Nat) (ae : MEntry) =>
        ae.updateDescendantState (-r.size) (-r.feeCash) (-r.feeBond) (-1)) x ae).txid
          = ae.txid := fun _ _ => rfl
    have h : removeStep2 q rid = foldUpdate
        (foldUpdate q (sortedIds r.parents) (fun _ pe =>
          { pe with children := pe.children.erase rid }))
        (sortedIds (CalculateMemPoolAncestors q r)) (fun _ ae =>
          ae.updateDescendantState (-r.size) (-r.feeCash) (-r.feeBond) (-1)) := by
      unfold removeStep2
      rw [hr]
    rw [h, map_txid_foldUpdate hF2, map_txid_foldUpdate hF1]

/-- The unlink-from-children pass keeps the id list. -/
theorem map_txid_removeStep3 (q : List MEntry) (rid : Nat) :
    (removeStep3 q rid).map MEntry.txid = q.map MEntry.txid := by
  cases hr : lookupEntry q rid with
  | none =>
    have h : removeStep3 q rid = q := by
      unfold removeStep3
      rw [hr]
    rw [h]
  | some r =>
    have hF : ∀ (x : Nat) (ce : MEntry), ((fun (_ : Nat) (ce : MEntry) =>
        { ce with parents := ce.parents.erase rid }) x ce).txid = ce.txid := fun _ _ => rfl
    have h : removeStep3 q rid = foldUpdate q (sortedIds r.children) (fun _ ce =>
        { ce with parents := ce.parents.erase rid }) := by
      unfold removeStep3
      rw [hr]
    rw [h, map_txid_foldUpdate hF]

/-- Folding any of the unlink passes keeps the id list. -/
theorem map_txid_foldRemoveStep2 :
    ∀ (L : List Nat) (q : List MEntry),
      (L.foldl removeStep2 q).map MEntry.txid = q.map MEntry.txid := by
  intro L
  induction L with
  | nil => intro q; rfl
  | cons a L ih =>
    intro q
    show ((L.foldl removeStep2 (removeStep2 q a)).map MEntry.txid) = _
    rw [ih, map_txid_removeStep2]

/-- Folding the child-unlink pass keeps the id list. -/
theorem map_txid_foldRemoveStep3 :
    ∀ (L : List Nat) (q : List MEntry),
      (L.foldl removeStep3 q).map MEntry.txid = q.map MEntry.txid := by
  intro L
  induction L with
  | nil => intro q; rfl
  | cons a L ih =>
    intro q
    show ((L.foldl removeStep3 (removeStep3 q a)).map MEntry.txid) = _
    rw [ih, map_txid_removeStep3]

/-- Every survivor of RemoveStaged(false) corresponds to a pre-existing id outside
the staged set. -/
theorem mem_txid_RemoveStaged_false (q : List MEntry) (stage : Finset Nat)
    {e2 : MEntry} (he2 : e2 ∈ RemoveStaged q stage false) :
    (∃ e ∈ q, e.txid = e2.txid) ∧ e2.txid ∉ stage := by
  rw [RemoveStaged_false_eq] at he2
  obtain ⟨hmem, hdec⟩ := List.mem_filter.mp he2
  refine ⟨?_, of_decide_eq_true hdec⟩
  have htx : e2.txid ∈ ((sortedIds stage).foldl removeStep3
      ((sortedIds stage).foldl removeStep2 q)).map MEntry.txid :=
    List.mem_map_of_mem MEntry.txid hmem
  rw [map_txid_foldRemoveStep3, map_txid_foldRemoveStep2] at htx
  obtain ⟨e, he, htxe⟩ := List.mem_map.mp htx
  exact ⟨e, he, htxe⟩

/-- RemoveStaged(false) keeps distinct ids distinct. -/
theorem nodup_RemoveStaged_false (q : List MEntry) (stage : Finset Nat)
    (h : (q.map MEntry.txid).Nodup) :
    ((RemoveStaged q stage false).map MEntry.txid).Nodup := by
  rw [RemoveStaged_false_eq]
  exact nodup_filter_txid _ _ (by rw [map_txid_foldRemoveStep3, map_txid_foldRemoveStep2]; exact h)

/-- Dropping a present element via filter strictly shortens the list. -/
theorem length_filter_lt {q : List MEntry} {f : MEntry → Bool} {x : MEntry}
    (hx : x ∈ q) (hfx : f x = false) : (q.filter f).length < q.length := by
  induction q with
  | nil => simp at hx
  | cons y ys ih =>
    cases hx with
    | head =>
      rw [List.filter_cons, if_neg (by simp [hfx])]
      exact Nat.lt_succ_of_le (List.length_filter_le _ _)
    | tail _ hx =>
      rw [List.filter_cons]
      by_cases hfy : f y = true
      · rw [if_pos (by simp [hfy])]
        simpa using Nat.succ_lt_succ (ih hx)
      · rw [if_neg (by simp [hfy])]
        exact Nat.lt_succ_of_lt (ih hx)

/-- RemoveStaged(false) strictly shrinks the pool when something staged is
present. -/
theorem length_RemoveStaged_false_lt (q : List MEntry) (stage : Finset Nat)
    {x : MEntry} (hx : x ∈ q) (hxs : x.txid ∈ stage) :
    (RemoveStaged q stage false).length < q.length := by
  rw [RemoveStaged_false_eq]
  have hlen : ((sortedIds stage).foldl removeStep3
      ((sortedIds stage).foldl removeStep2 q)).length = q.length := by
    have h1 := congrArg List.length (map_txid_foldRemoveStep3 (sortedIds stage)
      ((sortedIds stage).foldl removeStep2 q))
    have h2 := congrArg List.length (map_txid_foldRemoveStep2 (sortedIds stage) q)
    simpa using h1.trans h2
  have htx : x.txid ∈ ((sortedIds stage).foldl removeStep3
      ((sortedIds stage).foldl removeStep2 q)).map MEntry.txid := by
    rw [map_txid_foldRemoveStep3, map_txid_foldRemoveStep2]
    exact List.mem_map_of_mem MEntry.txid hx
  obtain ⟨x3, hx3, htx3⟩ := List.mem_map.mp htx
  have hfx3 : (fun e => decide (e.txid ∉ stage)) x3 = false := by
    simp only [decide_eq_false_iff_not, not_not]
    rw [htx3]
    exact hxs
  calc (((sortedIds stage).foldl removeStep3
        ((sortedIds stage).foldl removeStep2 q)).filter
          (fun e => decide (e.txid ∉ stage))).length
      < ((sortedIds stage).foldl removeStep3
        ((sortedIds stage).foldl removeStep2 q)).length := length_filter_lt hx3 hfx3
    _ = q.length := hlen

/-- The root is always part of its own staged descendant set. -/
theorem mem_calculateDescendants_self (p : List MEntry) (i : Nat) :
    i ∈ CalculateDescendants p i ∅ := by
  unfold CalculateDescendants
  rw [if_neg (Finset.not_mem_empty i)]
  exact closureAux_supset _ _ _ _ (by simp)

/-- Modelled from the spec (txmempool.h, which defines the descendant-score
comparator, is not among the sources): the pool's normalized with-descendants fee,
the cash fee total plus the bond fee total converted at the cached supply. -/
def normFeeWithDescendants (supply : CAmounts) (e : MEntry) : Int :=
  e.feeCashWithDescendants +
    (if e.feeBondWithDescendants ≠ 0 then
      GetConvertedAmount supply e.feeBondWithDescendants .bond false
    else 0)

/-- Modelled from the spec: ascending comparison by normalized descendant feerate
(fee-per-size compared by cross multiplication), the iteration order of the
descendant_score index from its lowest-feerate end. -/
def descendantScoreLE (supply : CAmounts) (a b : MEntry) : Bool :=
  decide (normFeeWithDescendants supply a * b.sizeWithDescendants
    ≤ normFeeWithDescendants supply b * a.sizeWithDescendants)

/-- Ordered insertion for the modelled descendant-score index. -/
def insertLE (le : MEntry → MEntry → Bool) (e : MEntry) : List MEntry → List MEntry
  | [] => [e]
  | x :: xs => if le e x then e :: x :: xs else x :: insertLE le e xs

/-- Insertion sort producing the modelled descendant-score iteration order. -/
def sortByScore (le : MEntry → MEntry → Bool) : List MEntry → List MEntry
  | [] => []
  | x :: xs => insertLE le x (sortByScore le xs)

/-- Membership through ordered insertion. -/
theorem mem_insertLE (le : MEntry → MEntry → Bool) (e : MEntry) :
    ∀ (l : List MEntry) (x : MEntry), x ∈ insertLE le e l ↔ (x = e ∨ x ∈ l) := by
  intro l
  induction l with
  | nil =>
    intro x
    simp [insertLE]
  | cons y ys ih =>
    intro x
    unfold insertLE
    by_cases hle : le e y = true
    · rw [if_pos hle]
      simp
    · rw [if_neg hle]
      simp only [List.mem_cons, ih]
      tauto

/-- Membership through the modelled sort. -/
theorem mem_sortByScore (le : MEntry → MEntry → Bool) :
    ∀ (l : List MEntry) (x : MEntry), x ∈ sortByScore le l ↔ x ∈ l := by
  intro l
  induction l with
  | nil =>
    intro x
    simp [sortByScore]
  | cons y ys ih =>
    intro x
    unfold sortByScore
    rw [mem_insertLE, ih]
    simp

/-- DynamicMemoryUsage: the tracked memory footprint of the pool. -/
def DynamicMemoryUsage (p : List MEntry) : Nat :=
  (p.map MEntry.usage).sum

/-- The eviction helper of TrimToSize (removeEntry): stage the entry's full
descendant closure and RemoveStaged it without the descendant pass. -/
def trimRemoveEntry (p : List MEntry) (i : Nat) : List MEntry :=
  RemoveStaged p (CalculateDescendants p i ∅) false

/-- The first loop of TrimToSize over the descendant-score order captured at
entry (deleted ids are skipped through the failing lookup): before each element it
returns as soon as the usage is within the limit, otherwise it evicts the element
if the conversion-invalidity predicate holds.  The returned flag records whether
the loop returned early. -/
def trimPhase1 (bad : MEntry → Bool) (sizelimit : Nat) :
    List MEntry → List Nat → List MEntry × Bool
  | p, [] => (p, false)
  | p, i :: rest =>
    if DynamicMemoryUsage p ≤ sizelimit then (p, true)
    else
      match lookupEntry p i with
      | some e =>
        if bad e then trimPhase1 bad sizelimit (trimRemoveEntry p i) rest
        else trimPhase1 bad sizelimit p rest
      | none => trimPhase1 bad sizelimit p rest

/-- The second loop of TrimToSize: while the pool is nonempty and over the limit,
evict the entry at the lowest-descendant-score end of the index (with its
descendants).  Fuel bounds the rounds; the caller passes the pool size, which
suffices because every round erases at least the chosen entry. -/
def trimPhase2 (supply : CAmounts) (sizelimit : Nat) : Nat → List MEntry → List MEntry
  | 0, p => p
  | fuel + 1, p =>
    if DynamicMemoryUsage p ≤ sizelimit then p
    else
      match sortByScore (descendantScoreLE supply) p with
      | [] => p
      | it :: _ => trimPhase2 supply sizelimit fuel (trimRemoveEntry p it.txid)

/-- CTxMemPool::TrimToSize: first walk the descendant-score order evicting
invalid-conversion entries (returning as soon as the pool fits), then evict from
the lowest descendant feerate upward until the pool fits or empties. -/
def TrimToSize (supply : CAmounts) (bad : MEntry → Bool) (sizelimit : Nat)
    (p : List MEntry) : List MEntry :=
  match trimPhase1 bad sizelimit p
      ((sortByScore (descendantScoreLE supply) p).map MEntry.txid) with
  | (p1, true) => p1
  | (p1, false) => trimPhase2 supply sizelimit p1.length p1

/-- An early return of the first trim loop happens exactly when the usage is
within the limit. -/
theorem trimPhase1_true_usage (bad : MEntry → Bool) (sizelimit : Nat) :
    ∀ (L : List Nat) (p p1 : List MEntry),
      trimPhase1 bad sizelimit p L = (p1, true) → DynamicMemoryUsage p1 ≤ sizelimit := by
  intro L
  induction L with
  | nil =>
    intro p p1 h
    simp [trimPhase1] at h
  | cons i rest ih =>
    intro p p1 h
    simp only [trimPhase1] at h
    by_cases hu : DynamicMemoryUsage p ≤ sizelimit
    · rw [if_pos hu] at h
      have hpp : p = p1 := congrArg Prod.fst h
      rw [← hpp]
      exact hu
    · rw [if_neg hu] at h
      cases hcase : lookupEntry p i with
      | some e =>
        simp only [hcase] at h
        by_cases hb : bad e = true
        · rw [if_pos hb] at h
          exact ih _ _ h
        · rw [if_neg hb] at h
          exact ih _ _ h
      | none =>
        simp only [hcase] at h
        exact ih _ _ h

/-- If the first trim loop runs to completion, no invalid-conversion entry is
left, provided the predicate only depends on the transaction (its id). -/
theorem trimPhase1_false_nobad (bad : MEntry → Bool)
    (hbad : ∀ e1 e2 : MEntry, e1.txid = e2.txid → bad e1 = bad e2) (sizelimit : Nat) :
    ∀ (L : List Nat) (p p1 : List MEntry),
      (p.map MEntry.txid).Nodup →
      (∀ e ∈ p, bad e = true → e.txid ∈ L) →
      trimPhase1 bad sizelimit p L = (p1, false) →
      ∀ e ∈ p1, bad e = false := by
  intro L
  induction L with
  | nil =>
    intro p p1 _ hP h e he
    simp only [trimPhase1] at h
    have hpp : p = p1 := congrArg Prod.fst h
    cases hb : bad e with
    | false => rfl
    | true =>
      rw [← hpp] at he
      exact absurd (hP e he hb) (List.not_mem_nil _)
  | cons i rest ih =>
    intro p p1 hnodup hP h e2 he2
    simp only [trimPhase1] at h
    by_cases hu : DynamicMemoryUsage p ≤ sizelimit
    · rw [if_pos hu] at h
      have : (true : Bool) = false := congrArg Prod.snd h
      simp at this
    · rw [if_neg hu] at h
      cases hcase : lookupEntry p i with
      | some ei =>
        simp only [hcase] at h
        by_cases hb : bad ei = true
        · rw [if_pos hb] at h
          refine ih (trimRemoveEntry p i) p1 ?_ ?_ h e2 he2
          · exact nodup_RemoveStaged_false p _ hnodup
          · intro e he hbe
            obtain ⟨⟨e0, he0, htx0⟩, hnst⟩ := mem_txid_RemoveStaged_false p _ he
            have hb0 : bad e0 = true := by
              rw [hbad e0 e htx0]
              exact hbe
            have hmem := hP e0 he0 hb0
            rw [htx0] at hmem
            rcases List.mem_cons.mp hmem with heq | hm
            · rw [heq] at hnst
              exact absurd (mem_calculateDescendants_self p i) hnst
            · exact hm
        · rw [if_neg hb] at h
          refine ih p p1 hnodup ?_ h e2 he2
          intro e he hbe
          rcases List.mem_cons.mp (hP e he hbe) with heq | hm
          · have hl := lookupEntry_self hnodup he
            rw [heq, hcase] at hl
            have he' : e = ei := (Option.some.inj hl).symm
            rw [he'] at hbe
            exact absurd hbe hb
          · exact hm
      | none =>
        simp only [hcase] at h
        refine ih p p1 hnodup ?_ h e2 he2
        intro e he hbe
        rcases List.mem_cons.mp (hP e he hbe) with heq | hm
        · have hl := lookupEntry_self hnodup he
          rw [heq, hcase] at hl
          exact absurd hl (by simp)
        · exact hm

/-- The second trim loop ends under the limit or with an empty pool, given enough
fuel. -/
theorem trimPhase2_le (supply : CAmounts) (sizelimit : Nat) :
    ∀ (fuel : Nat) (p : List MEntry), p.length ≤ fuel →
      DynamicMemoryUsage (trimPhase2 supply sizelimit fuel p) ≤ sizelimit ∨
      trimPhase2 supply sizelimit fuel p = [] := by
  intro fuel
  induction fuel with
  | zero =>
    intro p hp
    right
    have hnil : p = [] := List.length_eq_zero.mp (Nat.le_zero.mp hp)
    simp [trimPhase2, hnil]
  | succ n ih =>
    intro p hp
    simp only [trimPhase2]
    by_cases hu : DynamicMemoryUsage p ≤ sizelimit
    · rw [if_pos hu]
      exact Or.inl hu
    · rw [if_neg hu]
      cases hs : sortByScore (descendantScoreLE supply) p with
      | nil =>
        cases p with
        | nil => exact Or.inr rfl
        | cons x xs =>
          have hx : x ∈ sortByScore (descendantScoreLE supply) (x :: xs) :=
            (mem_sortByScore _ _ x).mpr (List.mem_cons_self x xs)
          rw [hs] at hx
          exact absurd hx (List.not_mem_nil x)
      | cons it tl =>
        have hitp : it ∈ p := (mem_sortByScore _ p it).mp (by
          rw [hs]
          exact List.mem_cons_self it tl)
        have hlt : (trimRemoveEntry p it.txid).length < p.length :=
          length_RemoveStaged_false_lt p _ hitp (mem_calculateDescendants_self p it.txid)
        exact ih (trimRemoveEntry p it.txid) (by omega)

/-- Survivors of the second trim loop correspond to starting entries. -/
theorem trimPhase2_mem (supply : CAmounts) (sizelimit : Nat) :
    ∀ (fuel : Nat) (p : List MEntry) (e2 : MEntry),
      e2 ∈ trimPhase2 supply sizelimit fuel p → ∃ e ∈ p, e.txid = e2.txid := by
  intro fuel
  induction fuel with
  | zero =>
    intro p e2 he2
    simp only [trimPhase2] at he2
    exact ⟨e2, he2, rfl⟩
  | succ n ih =>
    intro p e2 he2
    simp only [trimPhase2] at he2
    by_cases hu : DynamicMemoryUsage p ≤ sizelimit
    · rw [if_pos hu] at he2
      exact ⟨e2, he2, rfl⟩
    · rw [if_neg hu] at he2
      cases hs : sortByScore (descendantScoreLE supply) p with
      | nil =>
        simp only [hs] at he2
        exact ⟨e2, he2, rfl⟩
      | cons it tl =>
        simp only [hs] at he2
        obtain ⟨e1, he1, htx⟩ := ih _ _ he2
        obtain ⟨⟨e0, he0, htx0⟩, _⟩ := mem_txid_RemoveStaged_false p _ he1
        exact ⟨e0, he0, htx0.trans htx⟩

/-- C4 (amended): TrimToSize always ends under the byte limit or with an empty
pool, and an invalid-conversion entry can survive only because the first loop
returned early with the pool already under the limit: whenever an entry
satisfying the (transaction-determined) invalidity predicate remains, the final
usage is within the limit. -/
theorem trimToSize_under_limit_and_invalids (supply : CAmounts) (bad : MEntry → Bool)
    (hbad : ∀ e1 e2 : MEntry, e1.txid = e2.txid → bad e1 = bad e2)
    (sizelimit : Nat) (p : List MEntry) (hnodup : (p.map MEntry.txid).Nodup) :
    (DynamicMemoryUsage (TrimToSize supply bad sizelimit p) ≤ sizelimit ∨
      TrimToSize supply bad sizelimit p = []) ∧
    (∀ e ∈ TrimToSize supply bad sizelimit p, bad e = true →
      DynamicMemoryUsage (TrimToSize supply bad sizelimit p) ≤ sizelimit) := by
  unfold TrimToSize
  cases hphase : trimPhase1 bad sizelimit p
      ((sortByScore (descendantScoreLE supply) p).map MEntry.txid) with
  | mk p1 flag =>
    cases flag with
    | true =>
      have hle := trimPhase1_true_usage bad sizelimit _ p p1 hphase
      exact ⟨Or.inl hle, fun _ _ _ => hle⟩
    | false =>
      have hP : ∀ e ∈ p, bad e = true →
          e.txid ∈ (sortByScore (descendantScoreLE supply) p).map MEntry.txid := by
        intro e he _
        exact List.mem_map_of_mem MEntry.txid ((mem_sortByScore _ p e).mpr he)
      have hnb := trimPhase1_false_nobad bad hbad sizelimit _ p p1 hnodup hP hphase
      constructor
      · exact trimPhase2_le supply sizelimit p1.length p1 (le_refl _)
      · intro e he hbe
        obtain ⟨e1, he1, htx⟩ := trimPhase2_mem supply sizelimit p1.length p1 e he
        have hb1 : bad e1 = true := by
          rw [hbad e1 e htx]
          exact hbe
        rw [hnb e1 he1] at hb1
        simp at hb1

/-- The cached supply for the trim counterexample. -/
def supplyC4 : CAmounts := ⟨10, 10⟩

/-- The conversion-invalidity predicate of the counterexample: transactions 1 and
2 carry conversions that are no longer valid. -/
def badC4 (e : MEntry) : Bool := decide (e.txid = 1 ∨ e.txid = 2)

/-- The byte budget of the counterexample. -/
def limitC4 : Nat := 25

/-- First invalid transaction (lowest descendant feerate). -/
def t1C4 : TxData := ⟨1, [], 10, 1, 0, 1, 10⟩

/-- Second invalid transaction. -/
def t2C4 : TxData := ⟨2, [], 10, 2, 0, 1, 10⟩

/-- A valid transaction. -/
def t3C4 : TxData := ⟨3, [], 10, 3, 0, 1, 10⟩

/-- The over-budget pool of the counterexample (usage 30 against a budget of
25). -/
def poolC4 : List MEntry := runOps [.add t1C4, .add t2C4, .add t3C4]

/-- The second invalid entry as it sits in the pool. -/
def entry2C4 : MEntry := ⟨2, [], 10, 2, 0, 1, 10, ∅, ∅, 10, 2, 0, 1, 1, 10, 2, 0, 1⟩

/-- C4 counterexample: on a pool over its byte budget holding two
invalid-conversion entries, TrimToSize returns as soon as evicting the first one
brings the usage under the limit, leaving the second invalid-conversion entry in
the pool — it does not first evict every invalid-conversion entry. -/
theorem trimToSize_leaves_invalid_entry :
    DynamicMemoryUsage poolC4 > limitC4 ∧ badC4 entry2C4 = true ∧
    entry2C4 ∈ TrimToSize supplyC4 badC4 limitC4 poolC4 := by decide

/-- Witness for the amended C4 statement on the counterexample inputs. -/
theorem trimToSize_under_limit_and_invalids_witness :
    (∀ e1 e2 : MEntry, e1.txid = e2.txid → badC4 e1 = badC4 e2) ∧
    (poolC4.map MEntry.txid).Nodup ∧
    ((DynamicMemoryUsage (TrimToSize supplyC4 badC4 limitC4 poolC4) ≤ limitC4 ∨
      TrimToSize supplyC4 badC4 limitC4 poolC4 = []) ∧
    (∀ e ∈ TrimToSize supplyC4 badC4 limitC4 poolC4, badC4 e = true →
      DynamicMemoryUsage (TrimToSize supplyC4 badC4 limitC4 poolC4) ≤ limitC4)) :=
  ⟨fun e1 e2 h => by simp [badC4, h], by decide,
    trimToSize_under_limit_and_invalids supplyC4 badC4
      (fun e1 e2 h => by simp [badC4, h]) limitC4 poolC4 (by decide)⟩
